import Mathlib

/-!
# Verification of the `invariant` execution engine

Shallow embedding of the core of the `invariant` repository: the cacheable
value universe (`cacheable.py`), the recursive stable hash (`hashing.py`),
the binary codec (`store/codec.py`), the graph resolver (`graph.py`), the
executor (`executor.py`), the operation registry (`registry.py`) and the
store backends (`store/memory.py`, `store/disk.py`, `store/chain.py`).

Python strings are represented by their UTF-8 byte sequences (`List Nat`);
concrete examples use ASCII text, for which the code points and the UTF-8
bytes coincide.  SHA-256 itself is kept abstract: every hashing theorem is
parameterised over the digest function `h`, because the properties claimed
of the hashing layer depend only on which byte strings are fed to SHA-256,
never on the digest values themselves.
-/

namespace Invariant

/-- A Python `str`, as its UTF-8 byte sequence. -/
abbrev PyStr := List Nat

/-- ASCII embedding of a Lean string literal, used for concrete examples.
For ASCII text the code points equal the UTF-8 bytes. -/
def pstr (s : String) : PyStr := s.data.map Char.toNat

/-- Python association lookup (`d[k]` / `k in d`) on an association list
representing a `dict`; returns the value of the first matching key. -/
def alookup {α : Type} (k : PyStr) : List (PyStr × α) → Option α
  | [] => Option.none
  | (k', v) :: rest => if k = k' then some v else alookup k rest

/-- Big-endian base-256 rendering of `x` on exactly `k` bytes
(`int.to_bytes(k, byteorder="big")` after the range check). -/
def natToBE : Nat → Nat → List Nat
  | 0, _ => []
  | k + 1, x => natToBE k (x / 256) ++ [x % 256]

/-- Big-endian interpretation of a byte sequence
(`int.from_bytes(data, byteorder="big")`). -/
def fromBE (bs : List Nat) : Nat := bs.foldl (fun acc b => acc * 256 + b) 0

/-- Lexicographic `<=` on byte sequences: the order Python's `sorted` uses
on strings (UTF-8 byte order agrees with code-point order). -/
def bytesLe : List Nat → List Nat → Bool
  | [], _ => true
  | _ :: _, [] => false
  | a :: as, b :: bs => if a < b then true else if b < a then false else bytesLe as bs

/-! ## The value universe (`cacheable.py`, `protocol.py`)

`PyVal` models the Python values the system manipulates.  An `ICacheable`
domain value (`protocol.py`) is opaque to the core: the core only consults
its fully qualified type name, its `to_stream` byte output and its
`get_stable_hash` digest, so a domain value is embedded as that triple. -/

/-- An `ICacheable` domain value as the core observes it: a fully qualified
type name, the bytes `to_stream` writes, and the `get_stable_hash` digest. -/
structure DomainVal where
  typeName : PyStr
  streamBytes : List Nat
  stableHash : PyStr
deriving DecidableEq

/-- A Python runtime value, covering the cacheable universe plus the
explicitly forbidden shapes (`float`, `bytes`, anything else).  Python
`dict` keys may be arbitrary values, so `pydict` entries pair two `PyVal`s;
`is_cacheable` is what enforces string keys. -/
inductive PyVal where
  | none
  | pybool (b : Bool)
  | int (n : Int)
  | str (s : PyStr)
  | dec (s : PyStr)
  | pyfloat
  | pybytes (bs : List Nat)
  | pydict (entries : List (PyVal × PyVal))
  | pylist (items : List PyVal)
  | tuple (items : List PyVal)
  | domain (d : DomainVal)
  | other

/-- Whether a value is a Python `str` (the key check in `is_cacheable`). -/
def PyVal.isStr : PyVal → Bool
  | .str _ => true
  | _ => false

/-- Whether a value is a Python `float`. -/
def PyVal.isFloat : PyVal → Bool
  | .pyfloat => true
  | _ => false

/-- All keys of a dict are strings (`cacheable.py` lines 83-85). -/
def keysAllStr (es : List (PyVal × PyVal)) : Bool :=
  es.all (fun e => e.1.isStr)

mutual

/-- `is_cacheable` from `cacheable.py`: the authoritative membership
predicate of the cacheable universe.  Branch order follows the source:
`None`, `ICacheable`, primitives, `Decimal`, `float` forbidden, `bytes`
forbidden, dict with string keys, list/tuple, everything else forbidden. -/
def is_cacheable : PyVal → Bool
  | .none => true
  | .domain _ => true
  | .int _ => true
  | .str _ => true
  | .pybool _ => true
  | .dec _ => true
  | .pyfloat => false
  | .pybytes _ => false
  | .pydict es => keysAllStr es && entriesCacheable es
  | .pylist items => listCacheable items
  | .tuple items => listCacheable items
  | .other => false

/-- All values of a dict are cacheable (the recursive value loop). -/
def entriesCacheable : List (PyVal × PyVal) → Bool
  | [] => true
  | (_, v) :: rest => is_cacheable v && entriesCacheable rest

/-- All elements of a sequence are cacheable (the recursive element loop). -/
def listCacheable : List PyVal → Bool
  | [] => true
  | v :: rest => is_cacheable v && listCacheable rest

end

mutual

/-- A value contains an IEEE-754 float at some nesting depth (dict keys and
values, list and tuple elements are descended; domain values are opaque). -/
def containsFloat : PyVal → Bool
  | .pyfloat => true
  | .pydict es => entriesContainFloat es
  | .pylist items => listContainsFloat items
  | .tuple items => listContainsFloat items
  | _ => false

def entriesContainFloat : List (PyVal × PyVal) → Bool
  | [] => false
  | (k, v) :: rest => containsFloat k || containsFloat v || entriesContainFloat rest

def listContainsFloat : List PyVal → Bool
  | [] => false
  | v :: rest => containsFloat v || listContainsFloat rest

end

/-! ## Stable hashing (`hashing.py`)

`hash_value` feeds specific byte strings to SHA-256; the digest function is
abstract here (`h`), since every claimed property of the hashing layer is a
statement about which bytes are hashed.  `hash_value` returns the digest as
a hex string; the recursive cases feed the UTF-8 bytes of child digests to
the hasher, which the abstract `h` absorbs uniformly. -/

/-- Python `str(n)` for an integer, as ASCII bytes (decimal, `-` sign). -/
def intStrBytes (n : Int) : PyStr :=
  if n < 0 then 45 :: (Nat.toDigits 10 n.natAbs).map Char.toNat
  else (Nat.toDigits 10 n.natAbs).map Char.toNat

/-- Python `str(b)` for a bool: `"True"` / `"False"`. -/
def boolStrBytes (b : Bool) : PyStr := if b then pstr "True" else pstr "False"

/-- Insertion of a dict entry into a key-sorted entry list (helper for the
`sorted(value.items(), key=...)` calls; dict keys are unique, so sorting by
key agrees with Python's sorting of the full pairs). -/
def insertByKey {α : Type} (keyOf : α → PyStr) (e : α) : List α → List α
  | [] => [e]
  | x :: xs => if bytesLe (keyOf e) (keyOf x) then e :: x :: xs else x :: insertByKey keyOf e xs

/-- Sort an entry list by key bytes (Python `sorted` on string keys). -/
def sortByKey {α : Type} (keyOf : α → PyStr) : List α → List α
  | [] => []
  | x :: xs => insertByKey keyOf x (sortByKey keyOf xs)

/-- The key bytes of a dict entry whose key is a string (hash and codec only
reach this after `is_cacheable` has enforced string keys). -/
def entryKeyBytes (e : PyVal × PyVal) : PyStr :=
  match e.1 with
  | .str s => s
  | _ => []

mutual

/-- `hash_value` from `hashing.py`, parameterised by the digest function
`h` (SHA-256 over bytes, rendered as a lowercase hex string, itself a byte
sequence here).  Branch order follows the source: `None`, `ICacheable`,
`str`, `int` (which also captures `bool`, a subclass of `int` whose `str()`
is `"True"`/`"False"`), `Decimal` (canonical string form), `Mapping` with
sorted keys, then any other `Sequence`.  The dict branch hashes the entries
in sorted key order; here the per-entry digests are computed first and the
(key, digest) pairs sorted afterwards, which yields the same byte stream
because the sort compares only the keys and is stable. -/
def hashValue (h : List Nat → PyStr) : PyVal → PyStr
  | .none => h (pstr "None")
  | .domain d => d.stableHash
  | .str s => h s
  | .pybool b => h (boolStrBytes b)
  | .int n => h (intStrBytes n)
  | .dec s => h s
  | .pydict es => h (((sortByKey Prod.fst (entryDigests h es)).map Prod.snd).flatten)
  | .pylist items => h (hashItems h items)
  | .tuple items => h (hashItems h items)
  | .pybytes _ => []
  | .pyfloat => []
  | .other => []

/-- For each dict entry, the entry's key bytes paired with the bytes the
hasher absorbs for that entry: the digest of the key followed by the digest
of the value. -/
def entryDigests (h : List Nat → PyStr) : List (PyVal × PyVal) → List (PyStr × List Nat)
  | [] => []
  | (k, v) :: rest => (entryKeyBytes (k, v), hashValue h k ++ hashValue h v) :: entryDigests h rest

/-- The byte stream fed to the sequence hasher: element digests in order. -/
def hashItems (h : List Nat → PyStr) : List PyVal → List Nat
  | [] => []
  | v :: rest => hashValue h v ++ hashItems h rest

end

/-- The byte stream fed to the manifest hasher (`hash_manifest`): for each
entry of the key-sorted manifest, the digest of the key string followed by
the digest of the value. -/
def hashManifestEntries (h : List Nat → PyStr) : List (PyStr × PyVal) → List Nat
  | [] => []
  | (k, v) :: rest => h k ++ hashValue h v ++ hashManifestEntries h rest

/-- `hash_manifest` from `hashing.py`: sort the manifest entries by key and
hash the concatenation of per-entry key and value digests. -/
def hashManifest (h : List Nat → PyStr) (manifest : List (PyStr × PyVal)) : PyStr :=
  h (hashManifestEntries h (sortByKey Prod.fst manifest))

mutual

/-- The canonical form under which the §3 data model compares values: every
`Map`'s entries rewritten in sorted key order, recursively (a dict's keys
are unique and their order is irrelevant to identity — the codec sorts
them).  Two cacheable values are equal as values exactly when their
canonical forms coincide; entry order never separates them. -/
def pySort : PyVal → PyVal
  | .pydict es => .pydict (sortByKey entryKeyBytes (pySortEntries es))
  | .pylist items => .pylist (pySortItems items)
  | .tuple items => .tuple (pySortItems items)
  | v => v

/-- Canonical forms of a dict's entries (keys and values). -/
def pySortEntries : List (PyVal × PyVal) → List (PyVal × PyVal)
  | [] => []
  | (k, v) :: rest => (pySort k, pySort v) :: pySortEntries rest

/-- Canonical forms of a sequence's items (order kept: sequences are
ordered). -/
def pySortItems : List PyVal → List PyVal
  | [] => []
  | v :: rest => pySort v :: pySortItems rest

end

/-- Python `==` on resolved parameter maps — "equal as cacheable values":
the two dicts bind equal values to the same keys, with entry order
irrelevant both at the top level and at every nesting depth, rendered as
equality of the key-sorted canonical forms (the §3 identity of a `Map`). -/
def manifestEq (m1 m2 : List (PyStr × PyVal)) : Prop :=
  sortByKey Prod.fst (m1.map (fun p => (p.1, pySort p.2)))
    = sortByKey Prod.fst (m2.map (fun p => (p.1, pySort p.2)))

/-! ## Binary codec (`store/codec.py`)

`serialize` / `deserialize` over the native value universe.  Byte streams
are `List Nat`.  `int.to_bytes(k, byteorder="big", signed=s)` raises
`OverflowError` when the integer does not fit, which the embedding models
with `Option`.  Hydration of `icac` domain values delegates to the user
class's `from_stream` (external code, `importlib` based); no theorem below
exercises that branch. -/

/-- The fixed 4-byte type tags of the codec. -/
def tagNone : List Nat := pstr "none"

def tagBool : List Nat := pstr "bool"

def tagInt : List Nat := pstr "int_"

def tagStr : List Nat := pstr "str_"

def tagDecm : List Nat := pstr "decm"

def tagDict : List Nat := pstr "dict"

def tagList : List Nat := pstr "list"

def tagTupl : List Nat := pstr "tupl"

def tagIcac : List Nat := pstr "icac"

/-- `x.to_bytes(k, byteorder="big", signed=False)`: `k` big-endian bytes,
`OverflowError` (here `none`) when `x` does not fit. -/
def toBytesU (k : Nat) (x : Nat) : Option (List Nat) :=
  if x < 256 ^ k then some (natToBE k x) else Option.none

/-- `n.to_bytes(8, byteorder="big", signed=True)`: the two's-complement
big-endian bytes, `OverflowError` (here `none`) outside the signed 64-bit
range.  There is no arbitrary-precision fallback in the codec. -/
def toBytes8S (n : Int) : Option (List Nat) :=
  if -(2 ^ 63) ≤ n ∧ n < 2 ^ 63 then some (natToBE 8 (n % (2 ^ 64)).toNat) else Option.none

/-- `int.from_bytes(data, byteorder="big", signed=True)` on 8 bytes. -/
def intFromBytes8S (bs : List Nat) : Int :=
  let u := fromBE bs
  if 2 ^ 63 ≤ u then (u : Int) - 2 ^ 64 else (u : Int)

mutual

/-- `_serialize_value` from `store/codec.py`.  Branch order follows the
source: `None`, `bool` (before `int`), `int` (8-byte signed big-endian),
`str`, `Decimal` (canonical string), `dict` (entry count, then the entries
in sorted key order, each as length-prefixed key then value), `list`,
`tuple`, `ICacheable` (type name then the user stream).  The dict branch
builds each entry's bytes first and sorts the (key, bytes) pairs, which
equals sorting the entries first because the sort compares only keys and is
stable.  `float`/`bytes`/anything else fall through to the trailing
`TypeError` (unreachable behind `serialize`'s `is_cacheable` guard). -/
def serValue : PyVal → Option (List Nat)
  | .none => some tagNone
  | .pybool b => some (tagBool ++ [if b then 1 else 0])
  | .int n =>
      match toBytes8S n with
      | some bs => some (tagInt ++ bs)
      | Option.none => Option.none
  | .str s =>
      match toBytesU 8 s.length with
      | some l => some (tagStr ++ l ++ s)
      | Option.none => Option.none
  | .dec s =>
      match toBytesU 8 s.length with
      | some l => some (tagDecm ++ l ++ s)
      | Option.none => Option.none
  | .pydict es =>
      match toBytesU 8 es.length, serEntries es with
      | some l, some pairs => some (tagDict ++ l ++ ((sortByKey Prod.fst pairs).map Prod.snd).flatten)
      | _, _ => Option.none
  | .pylist items =>
      match toBytesU 8 items.length, serItems items with
      | some l, some body => some (tagList ++ l ++ body)
      | _, _ => Option.none
  | .tuple items =>
      match toBytesU 8 items.length, serItems items with
      | some l, some body => some (tagTupl ++ l ++ body)
      | _, _ => Option.none
  | .domain d =>
      match toBytesU 4 d.typeName.length with
      | some l => some (tagIcac ++ l ++ d.typeName ++ d.streamBytes)
      | Option.none => Option.none
  | .pyfloat => Option.none
  | .pybytes _ => Option.none
  | .other => Option.none

/-- The dict entries as (key bytes, serialized entry bytes) pairs: each
entry is the length-prefixed UTF-8 key followed by the serialized value.
A non-`str` key would fail `key.encode` (unreachable behind
`is_cacheable`). -/
def serEntries : List (PyVal × PyVal) → Option (List (PyStr × List Nat))
  | [] => some []
  | (PyVal.str k, v) :: rest =>
      match toBytesU 8 k.length, serValue v, serEntries rest with
      | some kl, some vb, some tail => some ((k, kl ++ k ++ vb) :: tail)
      | _, _, _ => Option.none
  | _ => Option.none

/-- Concatenated serialization of sequence elements in order. -/
def serItems : List PyVal → Option (List Nat)
  | [] => some []
  | v :: rest =>
      match serValue v, serItems rest with
      | some vb, some tail => some (vb ++ tail)
      | _, _ => Option.none

end

/-- `serialize` from `store/codec.py`: reject non-cacheable values with
`TypeError` (here `none`), then stream the value. -/
def serialize (v : PyVal) : Option (List Nat) :=
  if is_cacheable v then serValue v else Option.none

/-- `stream.read(n)` followed by the codec's `len(data) == n` check. -/
def readN (n : Nat) (s : List Nat) : Option (List Nat × List Nat) :=
  if n ≤ s.length then some (s.take n, s.drop n) else Option.none

/-- `result[key] = value` on an association list: replace the first binding
of the key in place, else append (Python dict insertion semantics). -/
def updEntry (k : PyStr) (v : PyVal) : List (PyStr × PyVal) → List (PyStr × PyVal)
  | [] => [(k, v)]
  | (k', v') :: rest => if k = k' then (k, v) :: rest else (k', v') :: updEntry k v rest

/-- The dict built by the deserializer's `result[key] = value` loop. -/
def dictFromPairs (ps : List (PyStr × PyVal)) : List (PyVal × PyVal) :=
  (ps.foldl (fun acc p => updEntry p.1 p.2 acc) []).map (fun p => (PyVal.str p.1, p.2))

mutual

/-- `_deserialize_value` from `store/codec.py`, with a fuel parameter
bounding the number of recursive parse steps (the Python recursion is
bounded by the finite stream; any fuel at least the number of parsed nodes
gives the same result).  Reads the 4-byte tag and dispatches; truncated
input, unknown tags and the `icac` branch (whose hydration runs external
user code) yield `none`. -/
def deserValue : Nat → List Nat → Option (PyVal × List Nat)
  | 0, _ => Option.none
  | fuel + 1, s =>
      match readN 4 s with
      | Option.none => Option.none
      | some (tag, rest) =>
          if tag = tagNone then some (PyVal.none, rest)
          else if tag = tagBool then
            match readN 1 rest with
            | some (byte, rest') => some (PyVal.pybool (byte = [1]), rest')
            | Option.none => Option.none
          else if tag = tagInt then
            match readN 8 rest with
            | some (bs, rest') => some (PyVal.int (intFromBytes8S bs), rest')
            | Option.none => Option.none
          else if tag = tagStr then
            match readN 8 rest with
            | some (lb, rest') =>
                match readN (fromBE lb) rest' with
                | some (data, rest'') => some (PyVal.str data, rest'')
                | Option.none => Option.none
            | Option.none => Option.none
          else if tag = tagDecm then
            match readN 8 rest with
            | some (lb, rest') =>
                match readN (fromBE lb) rest' with
                | some (data, rest'') => some (PyVal.dec data, rest'')
                | Option.none => Option.none
            | Option.none => Option.none
          else if tag = tagDict then
            match readN 8 rest with
            | some (lb, rest') =>
                match deserEntries fuel (fromBE lb) rest' with
                | some (pairs, rest'') => some (PyVal.pydict (dictFromPairs pairs), rest'')
                | Option.none => Option.none
            | Option.none => Option.none
          else if tag = tagList then
            match readN 8 rest with
            | some (lb, rest') =>
                match deserItems fuel (fromBE lb) rest' with
                | some (items, rest'') => some (PyVal.pylist items, rest'')
                | Option.none => Option.none
            | Option.none => Option.none
          else if tag = tagTupl then
            match readN 8 rest with
            | some (lb, rest') =>
                match deserItems fuel (fromBE lb) rest' with
                | some (items, rest'') => some (PyVal.tuple items, rest'')
                | Option.none => Option.none
            | Option.none => Option.none
          else Option.none

/-- The dict entry loop: `count` iterations of length-prefixed key followed
by a recursive value parse. -/
def deserEntries : Nat → Nat → List Nat → Option (List (PyStr × PyVal) × List Nat)
  | _, 0, s => some ([], s)
  | 0, _ + 1, _ => Option.none
  | fuel + 1, n + 1, s =>
      match readN 8 s with
      | some (klb, s1) =>
          match readN (fromBE klb) s1 with
          | some (key, s2) =>
              match deserValue fuel s2 with
              | some (v, s3) =>
                  match deserEntries fuel n s3 with
                  | some (tail, s4) => some ((key, v) :: tail, s4)
                  | Option.none => Option.none
              | Option.none => Option.none
          | Option.none => Option.none
      | Option.none => Option.none

/-- The sequence element loop: `count` recursive element parses. -/
def deserItems : Nat → Nat → List Nat → Option (List PyVal × List Nat)
  | _, 0, s => some ([], s)
  | 0, _ + 1, _ => Option.none
  | fuel + 1, n + 1, s =>
      match deserValue fuel s with
      | some (v, s') =>
          match deserItems fuel n s' with
          | some (tail, s'') => some (v :: tail, s'')
          | Option.none => Option.none
      | Option.none => Option.none

end

/-- `deserialize` from `store/codec.py`: parse one value from the front of
the stream (trailing bytes are ignored by the source).  The fuel
`data.length + 1` exceeds the number of parse steps of any successful
parse, since every parsed node consumes at least its 4-byte tag. -/
def deserialize (data : List Nat) : Option PyVal :=
  (deserValue (data.length + 1) data).map Prod.fst

mutual

/-- The normal form `deserialize ∘ serialize` produces: dict entries are
rewritten in sorted key order (with `str` keys), recursively.  Python's
structural equality on dicts ignores entry order, so `canon v` and `v` are
equal as Python values; on already-sorted dicts `canon` is the identity. -/
def canon : PyVal → PyVal
  | .pydict es => .pydict ((sortByKey Prod.fst (canonEntries es)).map (fun p => (PyVal.str p.1, p.2)))
  | .pylist items => .pylist (canonItems items)
  | .tuple items => .tuple (canonItems items)
  | v => v

def canonEntries : List (PyVal × PyVal) → List (PyStr × PyVal)
  | [] => []
  | (k, v) :: rest => (entryKeyBytes (k, v), canon v) :: canonEntries rest

def canonItems : List PyVal → List PyVal
  | [] => []
  | v :: rest => canon v :: canonItems rest

end

mutual

/-- Upper bound on the number of parse steps needed to re-read a value:
one step per node, one per dict entry / sequence element. -/
def serCost : PyVal → Nat
  | .pydict es => 1 + entCost es
  | .pylist items => 1 + itemsCost items
  | .tuple items => 1 + itemsCost items
  | _ => 1

def entCost : List (PyVal × PyVal) → Nat
  | [] => 0
  | (_, v) :: rest => 1 + serCost v + entCost rest

def itemsCost : List PyVal → Nat
  | [] => 0
  | v :: rest => 1 + serCost v + itemsCost rest

end

/-- The cost of an already-keyed entry list (sum form of `entCost`). -/
def entCostL (l : List (PyStr × PyVal)) : Nat :=
  (l.map (fun p => 1 + serCost p.2)).sum

/-- The cost of an element list (sum form of `itemsCost`). -/
def itemsCostL (l : List PyVal) : Nat :=
  (l.map (fun v => 1 + serCost v)).sum

/-- The serialized bytes of one dict entry, as a pure function of the key
and value (defined via `getD`; equal to the codec's output whenever the
component serializations succeed). -/
def entryBody (p : PyStr × PyVal) : PyStr × List Nat :=
  (p.1, (toBytesU 8 p.1.length).getD [] ++ p.1 ++ (serValue p.2).getD [])

/-- The (key bytes, value) view of a dict's entries. -/
def keyedEntries (es : List (PyVal × PyVal)) : List (PyStr × PyVal) :=
  es.map (fun e => (entryKeyBytes e, e.2))

/-- Constructor discriminator, used to state that the codec round trip
preserves the value's kind (in particular the list/tuple distinction). -/
def PyVal.kindTag : PyVal → Nat
  | .none => 0
  | .pybool _ => 1
  | .int _ => 2
  | .str _ => 3
  | .dec _ => 4
  | .pyfloat => 5
  | .pybytes _ => 6
  | .pydict _ => 7
  | .pylist _ => 8
  | .tuple _ => 9
  | .domain _ => 10
  | .other => 11

/-- Keys in non-decreasing byte order (adjacent comparisons). -/
def sortedKeys : List PyStr → Bool
  | [] => true
  | [_] => true
  | a :: b :: rest => bytesLe a b && sortedKeys (b :: rest)

mutual

/-- A value free of `ICacheable` domain objects: the codec's `icac` branch
delegates hydration to the user class's `from_stream` (external code), so
round-trip statements are made over domain-free values. -/
def domainFree : PyVal → Bool
  | .domain _ => false
  | .pydict es => dfEntries es
  | .pylist items => dfItems items
  | .tuple items => dfItems items
  | _ => true

def dfEntries : List (PyVal × PyVal) → Bool
  | [] => true
  | (_, v) :: rest => domainFree v && dfEntries rest

def dfItems : List PyVal → Bool
  | [] => true
  | v :: rest => domainFree v && dfItems rest

end

mutual

/-- A value whose dicts are already in sorted key order at every level
(the normal form `canon` produces, on which `canon` is the identity). -/
def canonicalB : PyVal → Bool
  | .pydict es => sortedKeys (es.map entryKeyBytes) && canonicalEntries es
  | .pylist items => canonicalItems items
  | .tuple items => canonicalItems items
  | _ => true

def canonicalEntries : List (PyVal × PyVal) → Bool
  | [] => true
  | (_, v) :: rest => canonicalB v && canonicalEntries rest

def canonicalItems : List PyVal → Bool
  | [] => true
  | v :: rest => canonicalB v && canonicalItems rest

end

mutual

/-- Side conditions under which `_serialize_value` raises no
`OverflowError`: every integer fits in signed 64 bits and every length
field fits its fixed-width big-endian encoding. -/
def serOkB : PyVal → Bool
  | .int n => decide (-(2 ^ 63) ≤ n ∧ n < 2 ^ 63)
  | .str s => decide (s.length < 2 ^ 64)
  | .dec s => decide (s.length < 2 ^ 64)
  | .pydict es => decide (es.length < 2 ^ 64) && serOkEntries es
  | .pylist items => decide (items.length < 2 ^ 64) && serOkItems items
  | .tuple items => decide (items.length < 2 ^ 64) && serOkItems items
  | .domain d => decide (d.typeName.length < 2 ^ 32)
  | _ => true

def serOkEntries : List (PyVal × PyVal) → Bool
  | [] => true
  | (k, v) :: rest =>
      (match k with
       | .str s => decide (s.length < 2 ^ 64)
       | _ => true) && serOkB v && serOkEntries rest

def serOkItems : List PyVal → Bool
  | [] => true
  | v :: rest => serOkB v && serOkItems rest

end

mutual

/-- Every dict in the value has pairwise-distinct (string) keys — true of
any value built from genuine Python dicts. -/
def wfKeys : PyVal → Bool
  | .pydict es => decide ((es.map entryKeyBytes).Nodup) && wfEntries es
  | .pylist items => wfItems items
  | .tuple items => wfItems items
  | _ => true

def wfEntries : List (PyVal × PyVal) → Bool
  | [] => true
  | (_, v) :: rest => wfKeys v && wfEntries rest

def wfItems : List PyVal → Bool
  | [] => true
  | v :: rest => wfKeys v && wfItems rest

end

/-! ## Errors

Structural error kinds standing for the exceptions the Python code raises
(`ValueError`/`TypeError`/`KeyError`/`AttributeError` with their distinct
messages). -/

inductive Err where
  | missingDependency
  | unknownOperation
  | cycleDetected
  | unknownDependency
  | notCacheable
  | opReturnInvalid
  | attributeError
  | typeError
  | keyError
  | nameInUse
  | emptyName
  | floatForbidden
  | valueError
deriving DecidableEq

/-! ## Parameter markers and resolution (`params.py`, `expressions.py`)

`resolve_params` walks the parameter map; `ref` markers are dependency
passthrough, `cel` markers and `${...}`-bearing strings are evaluated by
the CEL engine (the external `celpy` library).  The CEL evaluation itself
is kept abstract: the resolution functions are parameterised by the two
evaluator entry points (`_evaluate_cel` for `cel()` markers and
`_evaluate_expression` for string interpolation), so every theorem holds
for any evaluator. -/

/-- A parameter value as authored in `Node.params`: a marker, a string
(possibly carrying `${...}` segments), a nested container, or any other
value (which resolution passes through unchanged — note tuples are *not*
descended by `_resolve_value`). -/
inductive Param where
  | lit (v : PyVal)
  | str (s : PyStr)
  | ref (dep : PyStr)
  | cel (expr : PyStr)
  | pdict (entries : List (PyStr × Param))
  | plist (items : List Param)

/-- An evaluator entry point: expression text and the dependency artifacts
to evaluate against. -/
abbrev CelEval := PyStr → List (PyStr × PyVal) → Except Err PyVal

/-- Does `pat` occur as a contiguous substring (`pat in s` on `str`)? -/
def containsSub (pat s : List Nat) : Bool :=
  s.tails.any (fun t => pat.isPrefixOf t)

/-- The dollar-brace / close-brace containment test of `_resolve_value`
(is the interpolation opener and the closer both present in the string). -/
def hasInterp (s : PyStr) : Bool :=
  containsSub (pstr "$\x7b") s && containsSub (pstr "\x7d") s

mutual

/-- `_resolve_value` from `expressions.py`: `ref` markers look up the
dependency artifact (error on an undeclared dependency), `cel` markers are
evaluated, strings with `${...}` go through interpolation, dicts and lists
are descended, everything else passes through unchanged. -/
def resolveValue (celE interpE : CelEval) (deps : List (PyStr × PyVal)) :
    Param → Except Err PyVal
  | .ref d =>
      match alookup d deps with
      | some a => .ok a
      | Option.none => .error .unknownDependency
  | .cel e => celE e deps
  | .str s => if hasInterp s then interpE s deps else .ok (.str s)
  | .pdict es =>
      match resolveEntries celE interpE deps es with
      | .ok out => .ok (.pydict out)
      | .error e => .error e
  | .plist items =>
      match resolveItems celE interpE deps items with
      | .ok out => .ok (.pylist out)
      | .error e => .error e
  | .lit v => .ok v

def resolveEntries (celE interpE : CelEval) (deps : List (PyStr × PyVal)) :
    List (PyStr × Param) → Except Err (List (PyVal × PyVal))
  | [] => .ok []
  | (k, p) :: rest =>
      match resolveValue celE interpE deps p, resolveEntries celE interpE deps rest with
      | .ok v, .ok tail => .ok ((PyVal.str k, v) :: tail)
      | .error e, _ => .error e
      | _, .error e => .error e

def resolveItems (celE interpE : CelEval) (deps : List (PyStr × PyVal)) :
    List Param → Except Err (List PyVal)
  | [] => .ok []
  | p :: rest =>
      match resolveValue celE interpE deps p, resolveItems celE interpE deps rest with
      | .ok v, .ok tail => .ok (v :: tail)
      | .error e, _ => .error e
      | _, .error e => .error e

end

/-- `resolve_params` from `expressions.py`: resolve each parameter value in
order; the result has exactly the parameter names as keys (`params` is a
Python dict, so its keys are unique and each insertion appends). -/
def resolveParams (celE interpE : CelEval) (params : List (PyStr × Param))
    (deps : List (PyStr × PyVal)) : Except Err (List (PyStr × PyVal)) :=
  match params with
  | [] => .ok []
  | (k, p) :: rest =>
      match resolveValue celE interpE deps p, resolveParams celE interpE rest deps with
      | .ok v, .ok tail => .ok ((k, v) :: tail)
      | .error e, _ => .error e
      | _, .error e => .error e

/-- The float guard of `_evaluate_cel` (`expressions.py` lines 268-273):
after the CEL program evaluates, a `float` result raises the
float-forbidden `ValueError` before any conversion; a non-float result is
handed on to the conversion step.  `conv` abstracts `_cel_to_python` and
the preceding `MapType` value extraction. -/
def celFloatGuard (conv : PyVal → Except Err PyVal) (result : PyVal) : Except Err PyVal :=
  if result.isFloat then .error .floatForbidden else conv result

/-- `_evaluate_cel` from `expressions.py`, with the celpy compilation and
evaluation abstracted as `eval`, followed by the source's float guard and
result conversion. -/
def evaluateCel (eval : CelEval) (conv : PyVal → Except Err PyVal)
    (expr : PyStr) (deps : List (PyStr × PyVal)) : Except Err PyVal :=
  match eval expr deps with
  | .ok r => celFloatGuard conv r
  | .error e => .error e

/-! ## Vertices (`node.py`) and the graph resolver (`graph.py`) -/

/-- A primitive vertex (`Node` in `node.py`). -/
structure Node where
  op_name : PyStr
  params : List (PyStr × Param)
  deps : List PyStr
  cache : Bool := true

/-- A vertex: primitive (`Node`) or subgraph (`SubGraphNode`).  Only the
four `SubGraphNode` fields exist on a subgraph vertex — in particular it
has no `op_name` attribute. -/
inductive Vertex where
  | prim (n : Node)
  | subgraph (params : List (PyStr × Param)) (deps : List PyStr)
      (graph : List (PyStr × Vertex)) (output : PyStr)

/-- A graph: a dict from vertex id to vertex. -/
abbrev Graph := List (PyStr × Vertex)

/-- The `deps` attribute, present on both vertex kinds. -/
def Vertex.vdeps : Vertex → List PyStr
  | .prim n => n.deps
  | .subgraph _ deps _ _ => deps

/-- The vertex ids (`set(graph.keys())`; membership is all that is used). -/
def idsOf (g : Graph) : List PyStr := g.map Prod.fst

/-- `node.op_name`: present on primitive vertices only; on a subgraph
vertex the attribute access raises `AttributeError`. -/
def Vertex.opName : Vertex → Except Err PyStr
  | .prim n => .ok n.op_name
  | .subgraph _ _ _ _ => .error .attributeError

/-! Three-color DFS cycle detection (`GraphResolver._has_cycle`).  The
color map is an association list defaulting to WHITE (0); GRAY is 1, BLACK
is 2.  The recursion is bounded by fuel; any fuel exceeding the total
number of DFS steps (each node is expanded at most once, plus one step per
edge) gives the Python behaviour, and the top-level entry supplies such a
fuel. -/

/-- Current color of a node (WHITE when not yet set). -/
def colorOf (color : List (PyStr × Nat)) (nid : PyStr) : Nat :=
  (alookup nid color).getD 0

/-- Set a node's color (dict update). -/
def setColor (nid : PyStr) (c : Nat) : List (PyStr × Nat) → List (PyStr × Nat)
  | [] => [(nid, c)]
  | (k, v) :: rest => if nid = k then (nid, c) :: rest else (k, v) :: setColor nid c rest

mutual

/-- The `dfs` helper of `_has_cycle`: returns whether a cycle was found,
together with the updated color map. -/
def dfsNode (g : Graph) : Nat → PyStr → List (PyStr × Nat) → Bool × List (PyStr × Nat)
  | 0, _, color => (true, color)
  | fuel + 1, nid, color =>
      match alookup nid g with
      | Option.none => (false, color)
      | some v =>
          if colorOf color nid = 1 then (true, color)
          else if colorOf color nid = 2 then (false, color)
          else
            let color1 := setColor nid 1 color
            let r := dfsDeps g fuel v.vdeps color1
            if r.1 then (true, r.2) else (false, setColor nid 2 r.2)

/-- The loop over a node's deps, restricted to in-graph dependencies. -/
def dfsDeps (g : Graph) : Nat → List PyStr → List (PyStr × Nat) → Bool × List (PyStr × Nat)
  | _, [], color => (false, color)
  | 0, _ :: _, color => (true, color)
  | fuel + 1, d :: rest, color =>
      if (alookup d g).isSome then
        let r := dfsNode g fuel d color
        if r.1 then (true, r.2) else dfsDeps g fuel rest r.2
      else dfsDeps g fuel rest color

end

/-- The outer loop of `_has_cycle` over all nodes (disconnected
components), in graph order. -/
def hasCycleFold (g : Graph) (fuel : Nat) : List PyStr → List (PyStr × Nat) → Bool
  | [], _ => false
  | nid :: rest, color =>
      if colorOf color nid = 0 then
        let r := dfsNode g fuel nid color
        if r.1 then true else hasCycleFold g fuel rest r.2
      else hasCycleFold g fuel rest color

/-- Fuel ample for any DFS over `g`: one step per node expansion plus one
per edge, per entry point. -/
def dfsFuel (g : Graph) : Nat :=
  (g.length + 1) * (g.foldl (fun acc p => acc + p.2.vdeps.length + 1) 1 + 1)

/-- `GraphResolver._has_cycle`. -/
def hasCycle (g : Graph) : Bool :=
  hasCycleFold g (dfsFuel g) (idsOf g) []

/-- How many graph vertices the DFS has already colored (gray or black):
the quantity that bounds the remaining work. -/
def coloredCount (g : Graph) (color : List (PyStr × Nat)) : Nat :=
  ((idsOf g).filter (fun x => decide (colorOf color x ≠ 0))).length

/-- The color map only ever holds WHITE, GRAY or BLACK. -/
def WfColor (color : List (PyStr × Nat)) : Prop :=
  ∀ x, colorOf color x ≤ 2

/-! Kahn's algorithm (`GraphResolver.topological_sort`).  Python iterates
`set` objects in unspecified order; the embedding iterates in graph order —
the claims proved below are insensitive to the tie-breaking order, as §4.4
of the specification requires. -/

/-- Append `x` to the list bound to `k` (the `dependents[dep].append(...)`
update; `k` is always present, seeded from the node ids). -/
def appendAt (k : PyStr) (x : PyStr) : List (PyStr × List PyStr) → List (PyStr × List PyStr)
  | [] => []
  | (k', xs) :: rest => if k = k' then (k', xs ++ [x]) :: rest else (k', xs) :: appendAt k x rest

/-- The reverse dependency map: for each node, which nodes depend on it
(one occurrence per edge occurrence, in-graph deps only). -/
def dependentsMap (g : Graph) : List (PyStr × List PyStr) :=
  g.foldl
    (fun m p => (p.2.vdeps.filter (fun d => (alookup d g).isSome)).foldl
      (fun m' d => appendAt d p.1 m') m)
    (g.map (fun p => (p.1, ([] : List PyStr))))

/-- Initial in-degrees: the number of in-graph deps of each node, counted
with multiplicity.  Python decrements plain ints, so the embedding uses
`Int`. -/
def inDegInit (g : Graph) : List (PyStr × Int) :=
  g.map (fun p => (p.1, ((p.2.vdeps.filter (fun d => (alookup d g).isSome)).length : Int)))

/-- Current in-degree (keys are always present). -/
def degOf (m : List (PyStr × Int)) (nid : PyStr) : Int :=
  (alookup nid m).getD 0

/-- Decrement a node's in-degree. -/
def decDeg (nid : PyStr) : List (PyStr × Int) → List (PyStr × Int)
  | [] => []
  | (k, v) :: rest => if nid = k then (k, v - 1) :: rest else (k, v) :: decDeg nid rest

/-- The inner loop over the popped node's dependents: decrement each, and
enqueue any dependent whose in-degree reaches zero. -/
def stepDependents : List PyStr → List (PyStr × Int) → List PyStr →
    List (PyStr × Int) × List PyStr
  | [], inDeg, queue => (inDeg, queue)
  | w :: ws, inDeg, queue =>
      let inDeg' := decDeg w inDeg
      let queue' := if degOf inDeg' w = 0 then queue ++ [w] else queue
      stepDependents ws inDeg' queue'

/-- The Kahn work loop: pop the queue head, emit it, update its
dependents.  Fuel bounds the number of pops; every node is enqueued at most
once, so the caller's `|g| + 1` never runs out. -/
def kahnLoop (dependents : List (PyStr × List PyStr)) :
    Nat → List PyStr → List (PyStr × Int) → List PyStr → List PyStr
  | _, [], _, result => result
  | 0, _ :: _, _, result => result
  | fuel + 1, nid :: queue, inDeg, result =>
      let s := stepDependents ((alookup nid dependents).getD []) inDeg queue
      kahnLoop dependents fuel s.2 s.1 (result ++ [nid])

/-- `GraphResolver.topological_sort`: Kahn's algorithm over in-graph
edges; if the loop does not emit every node, the graph has a cycle and the
cycle `ValueError` is raised. -/
def topologicalSort (g : Graph) : Except Err (List PyStr) :=
  let result := kahnLoop (dependentsMap g) (g.length + 1)
    ((idsOf g).filter (fun nid => degOf (inDegInit g) nid = 0)) (inDegInit g) []
  if result.length = (idsOf g).length then .ok result else .error .cycleDetected

/-- The in-graph dependency list of a vertex id: its declared deps that
name graph vertices (context keys and unknown names excluded). -/
def inGraphDeps (g : Graph) (nid : PyStr) : List PyStr :=
  match alookup nid g with
  | some v => v.vdeps.filter (fun d => (alookup d g).isSome)
  | Option.none => []

/-- The in-graph dependency relation: edge `a → b` when vertex `b`
declares `a` among its deps and both are graph vertices. -/
def InEdge (g : Graph) (a b : PyStr) : Prop :=
  b ∈ idsOf g ∧ a ∈ inGraphDeps g b

/-- The in-graph dependency relation contains a (nonempty) cycle. -/
def CyclicG (g : Graph) : Prop :=
  ∃ v, Relation.TransGen (InEdge g) v v

/-- The number of a vertex's in-graph deps (with multiplicity) not yet
emitted into `result`: what Kahn's in-degree counter tracks. -/
def remDeg (g : Graph) (result : List PyStr) (x : PyStr) : Nat :=
  ((inGraphDeps g x).filter (fun d => decide (d ∉ result))).length

/-- Every emitted vertex is preceded by all of its in-graph deps. -/
def OrderedRes (g : Graph) (result : List PyStr) : Prop :=
  ∀ (i : Nat) (hi : i < result.length), ∀ d ∈ inGraphDeps g (result.get ⟨i, hi⟩),
    d ∈ result.take i

/-- The position of the first occurrence of `a` in `l` (`list.index(a)`). -/
def idxOf : List PyStr → PyStr → Nat
  | [], _ => 0
  | x :: l, a => if x = a then 0 else idxOf l a + 1

/-- The Kahn loop invariant: emitted and queued vertices are distinct
graph vertices; the in-degree table covers exactly the graph vertices and
counts each vertex's unemitted in-graph deps; a vertex has been emitted or
queued exactly when that count is zero; the emitted prefix respects the
dependency order. -/
def KInv (g : Graph) (queue : List PyStr) (inDeg : List (PyStr × Int))
    (result : List PyStr) : Prop :=
  ((result ++ queue).Nodup ∧ ∀ x ∈ result ++ queue, x ∈ idsOf g)
  ∧ inDeg.map Prod.fst = idsOf g
  ∧ (∀ x ∈ idsOf g, degOf inDeg x = (remDeg g result x : Int))
  ∧ (∀ x ∈ idsOf g, ((x ∈ result ∨ x ∈ queue) ↔ remDeg g result x = 0))
  ∧ OrderedRes g result

/-- The invariant mid-way through `stepDependents`: `ws` is the list of
still-unprocessed dependents of the just-emitted vertex, so each counter
exceeds its target by the number of pending decrements for that vertex. -/
def MidInv (g : Graph) (ws : List PyStr) (queue : List PyStr)
    (inDeg : List (PyStr × Int)) (result : List PyStr) : Prop :=
  ((result ++ queue).Nodup ∧ ∀ x ∈ result ++ queue, x ∈ idsOf g)
  ∧ inDeg.map Prod.fst = idsOf g
  ∧ (∀ x ∈ idsOf g, degOf inDeg x = (remDeg g result x : Int) + ws.count x)
  ∧ (∀ x ∈ idsOf g, ((x ∈ result ∨ x ∈ queue) ↔ remDeg g result x = 0 ∧ ws.count x = 0))
  ∧ OrderedRes g result
  ∧ (∀ x ∈ ws, x ∈ idsOf g)

/-- `GraphResolver.validate` as the executor runs it (the executor always
constructs the resolver with a registry): check each declared dependency
exists in the graph or context, check each vertex's `op_name` is
registered — on a subgraph vertex the `node.op_name` access itself raises
`AttributeError` — then run cycle detection.  `regHas` abstracts
`registry.has`. -/
def validate (regHas : PyStr → Bool) (g : Graph) (ctxKeys : List PyStr) : Except Err Unit :=
  match g.find? (fun p => p.2.vdeps.any
      (fun d => ((alookup d g).isNone : Bool) && !(ctxKeys.contains d))) with
  | some _ => .error .missingDependency
  | Option.none =>
    match g.find? (fun p => match p.2 with | .prim _ => false | .subgraph _ _ _ _ => true) with
    | some _ => .error .attributeError
    | Option.none =>
      match g.find? (fun p => match p.2 with
          | .prim n => !(regHas n.op_name)
          | .subgraph _ _ _ _ => false) with
      | some _ => .error .unknownOperation
      | Option.none =>
        if hasCycle g then .error .cycleDetected else .ok ()

/-- `GraphResolver.resolve`: validate, then topologically sort. -/
def resolveGraph (regHas : PyStr → Bool) (g : Graph) (ctxKeys : List PyStr) :
    Except Err (List PyStr) :=
  match validate regHas g ctxKeys with
  | .error e => .error e
  | .ok _ => topologicalSort g

/-! ## Operation registry (`registry.py`)

An operation is embedded as the behaviour the executor observes after
`_invoke_op`'s keyword dispatch: a function from the manifest to a result
(`inspect`-based parameter binding is host-side plumbing of the same
data). -/

/-- An operation: manifest in, result (or a raised error) out. -/
abbrev Op := List (PyStr × PyVal) → Except Err PyVal

/-- The registry state: the `_ops` dict. -/
abbrev Registry := List (PyStr × Op)

/-- `OpRegistry.register`: reject an empty name, reject a name already
bound, else bind it (dict insert of a fresh key appends). -/
def register (st : Registry) (name : PyStr) (op : Op) : Except Err Registry :=
  if name = [] then .error .emptyName
  else if (alookup name st).isSome then .error .nameInUse
  else .ok (st ++ [(name, op)])

/-- The registration loop of `OpRegistry.register_package`: register each
entry under `prefix + ":" + name`, in package order.  A raised conflict
leaves the registrations made so far in place (the Python loop mutates
`self._ops` as it goes), so the result is the state reached at the point
of failure, together with the error if any. -/
def registerLoop (pfx : PyStr) (st : Registry) : List (PyStr × Op) → Registry × Option Err
  | [] => (st, Option.none)
  | (name, op) :: rest =>
      match register st (pfx ++ [58] ++ name) op with
      | .ok st' => registerLoop pfx st' rest
      | .error e => (st, some e)

/-- `OpRegistry.register_package` on an ops dict: reject an empty prefix,
then run the registration loop. -/
def registerPackage (st : Registry) (pfx : PyStr) (ops : List (PyStr × Op)) :
    Registry × Option Err :=
  if pfx = [] then (st, some .valueError) else registerLoop pfx st ops

/-! ## Executor (`executor.py`)

The store the executor drives is the `(op_name, digest) → artifact` map
the `ArtifactStore` interface describes (`store/base.py`); `exists`, `get`
and `put` are the interface operations on that map. -/

/-- A store state: the content-addressed `(op_name, digest)` slots. -/
abbrev MStore := List ((PyStr × PyStr) × PyVal)

/-- `exists(op_name, digest)`. -/
def mexists (st : MStore) (key : PyStr × PyStr) : Bool :=
  st.any (fun e => e.1 = key)

/-- `get(op_name, digest)`; `KeyError` when absent. -/
def mget (st : MStore) (key : PyStr × PyStr) : Except Err PyVal :=
  match st.find? (fun e => e.1 = key) with
  | some e => .ok e.2
  | Option.none => .error .keyError

/-- `put(op_name, digest, artifact)`: idempotent overwrite of the slot. -/
def mput (st : MStore) (key : PyStr × PyStr) (v : PyVal) : MStore :=
  match st with
  | [] => [(key, v)]
  | e :: rest => if e.1 = key then (key, v) :: rest else e :: mput rest key v

/-- Dict insert into the per-run artifact table. -/
def artPut (k : PyStr) (v : PyVal) : List (PyStr × PyVal) → List (PyStr × PyVal)
  | [] => [(k, v)]
  | (k', v') :: rest => if k = k' then (k, v) :: rest else (k', v') :: artPut k v rest

/-- The dependency-collection loop of `Executor._build_manifest`: for each
declared dep, require its artifact and bind it (a missing artifact raises;
unreachable after topological sorting). -/
def collectDeps (deps : List PyStr) (arts : List (PyStr × PyVal)) :
    Except Err (List (PyStr × PyVal)) :=
  match deps with
  | [] => .ok []
  | d :: rest =>
      match alookup d arts with
      | Option.none => .error .valueError
      | some a =>
          match collectDeps rest arts with
          | .ok tail => .ok ((d, a) :: tail)
          | .error e => .error e

/-- `Executor._build_manifest`: the manifest is `resolve_params` of the
vertex's own params against the artifacts of its declared deps — no
dependency artifact is injected as a manifest entry by the executor. -/
def buildManifest (celE interpE : CelEval) (n : Node) (arts : List (PyStr × PyVal)) :
    Except Err (List (PyStr × PyVal)) :=
  match collectDeps n.deps arts with
  | .error e => .error e
  | .ok deps => resolveParams celE interpE n.params deps

/-- `Executor._invoke_op` after keyword dispatch: run the operation and
validate the result against the cacheable predicate. -/
def invokeOp (op : Op) (manifest : List (PyStr × PyVal)) : Except Err PyVal :=
  match op manifest with
  | .error e => .error e
  | .ok result => if is_cacheable result then .ok result else .error .opReturnInvalid

/-- The per-vertex body of `Executor.execute` (phase 1 and phase 2): build
the manifest, fingerprint it, then serve from the store on a hit or invoke
and persist on a miss.  The store is consulted and written
unconditionally — the vertex's `cache` flag is never read.  On a subgraph
vertex the `node.op_name` access raises `AttributeError`. -/
def execVertex (h : List Nat → PyStr) (celE interpE : CelEval) (registry : Registry)
    (v : Vertex) (arts : List (PyStr × PyVal)) (store : MStore) :
    Except Err (PyVal × MStore) :=
  match v with
  | .subgraph _ _ _ _ => .error .attributeError
  | .prim n =>
    match buildManifest celE interpE n arts with
    | .error e => .error e
    | .ok manifest =>
      let digest := hashManifest h manifest
      if mexists store (n.op_name, digest) then
        match mget store (n.op_name, digest) with
        | .ok artifact => .ok (artifact, store)
        | .error e => .error e
      else
        match alookup n.op_name registry with
        | Option.none => .error .keyError
        | some op =>
          match invokeOp op manifest with
          | .error e => .error e
          | .ok artifact => .ok (artifact, mput store (n.op_name, digest) artifact)

/-- The main loop of `Executor.execute` over the topologically sorted
ids. -/
def execLoop (h : List Nat → PyStr) (celE interpE : CelEval) (registry : Registry)
    (g : Graph) : List PyStr → List (PyStr × PyVal) → MStore →
    Except Err (List (PyStr × PyVal) × MStore)
  | [], arts, store => .ok (arts, store)
  | nid :: rest, arts, store =>
      match alookup nid g with
      | Option.none => .error .keyError
      | some v =>
          match execVertex h celE interpE registry v arts store with
          | .error e => .error e
          | .ok (artifact, store') =>
              execLoop h celE interpE registry g rest (artPut nid artifact arts) store'

/-- The context-seeding loop of `Executor.execute`: every context value
must be cacheable; values are bound as-is. -/
def seedContext (context : List (PyStr × PyVal)) : Except Err (List (PyStr × PyVal)) :=
  match context with
  | [] => .ok []
  | (k, v) :: rest =>
      if is_cacheable v then
        match seedContext rest with
        | .ok tail => .ok ((k, v) :: tail)
        | .error e => .error e
      else .error .notCacheable

/-- `Executor.execute`: resolve (validate + sort), seed context artifacts,
then execute each vertex in order.  Returns the artifact table and the
final store state. -/
def executeGraph (h : List Nat → PyStr) (celE interpE : CelEval) (registry : Registry)
    (g : Graph) (context : List (PyStr × PyVal)) (store : MStore) :
    Except Err (List (PyStr × PyVal) × MStore) :=
  match resolveGraph (fun name => (alookup name registry).isSome) g (context.map Prod.fst) with
  | .error e => .error e
  | .ok sorted =>
      match seedContext context with
      | .error e => .error e
      | .ok arts => execLoop h celE interpE registry g sorted arts store

/-! ## Store backends (`store/memory.py`, `store/chain.py`, `store/disk.py`)

`MemoryStore` in `store/memory.py` keys artifacts by `digest` alone: its
`exists`/`get`/`put` accept a single key argument (no `op_name`), and its
`__init__` accepts no keyword arguments.  `ChainStore` calls these methods
with two positional arguments; Python method calls with the wrong number of
positional arguments raise `TypeError`, which the embedding models by
giving each method an explicit positional-argument list. -/

/-- The `MemoryStore` state (`_artifacts : dict[str, bytes]`; the payload
representation is irrelevant to the claims). -/
abbrev MemState := List (PyStr × List Nat)

/-- `MemoryStore.exists(self, digest)` called with a positional argument
list: exactly one argument is accepted; any other arity raises
`TypeError`. -/
def memExistsCall (st : MemState) (args : List PyStr) : Except Err Bool :=
  match args with
  | [digest] => .ok ((alookup digest st).isSome)
  | _ => .error .typeError

/-- `MemoryStore.__init__` called with the given keyword argument names:
it declares none, so any keyword raises `TypeError`. -/
def memInitCall (kwargs : List PyStr) : Except Err MemState :=
  match kwargs with
  | [] => .ok []
  | _ => .error .typeError

/-- `ChainStore.get`: try L1 first via `self.l1.exists(op_name, digest)` —
two positional arguments — then fall back to L2 with promotion.  The L2
tier is abstracted as the lookup function `l2get`.  Every branch that
reaches an L1 method (`exists`, `get`, or the promoting `put`, all called
with `op_name` and `digest`) raises `TypeError`, because
`MemoryStore`'s methods take a single `digest` key. -/
def chainGet (l1 : MemState) (l2get : PyStr → PyStr → Option PyVal)
    (op_name digest : PyStr) : Except Err PyVal :=
  match memExistsCall l1 [op_name, digest] with
  | .error e => .error e
  | .ok true => .error .typeError
  | .ok false =>
      match l2get op_name digest with
      | some _ => .error .typeError
      | Option.none => .error .keyError

/-- `ChainStore.__init__` with no arguments: the L1 default is
`MemoryStore(cache="lru")`, a keyword `MemoryStore.__init__` does not
accept. -/
def chainStoreDefaultL1 : Except Err MemState :=
  memInitCall [pstr "cache"]

/-- The package entries as they would appear in the registry: each short
name extended to `prefix + ":" + name` (`:` is byte 58). -/
def entriesOf (pfx : PyStr) (ops : List (PyStr × Op)) : Registry :=
  ops.map (fun e => (pfx ++ [58] ++ e.1, e.2))

/-- A conflict-free run of the registration loop: each successive full
name is unbound in the registry state reached when it is registered. -/
def freshRun (st : Registry) (pfx : PyStr) : List (PyStr × Op) → Bool
  | [] => true
  | (n, op) :: rest =>
      (alookup (pfx ++ [58] ++ n) st).isNone &&
        freshRun (st ++ [(pfx ++ [58] ++ n, op)]) pfx rest

/-- `DiskStore.put`'s serialization step: `artifact.to_stream(stream)`.
Only `ICacheable` domain objects define `to_stream`; on any native value
the attribute access raises `AttributeError`.  For a domain value the file
bytes are the 4-byte type-name length, the type name, then the user
stream — not the §4.1 codec stream. -/
def diskPutBytes (artifact : PyVal) : Except Err (List Nat) :=
  match artifact with
  | .domain d =>
      match toBytesU 4 d.typeName.length with
      | some l => .ok (l ++ d.typeName ++ d.streamBytes)
      | Option.none => .error .valueError
  | _ => .error .attributeError

/-! ## Concrete components shared by the example theorems -/

/-- A placeholder CEL evaluator for runs that use no expressions. -/
def dummyEval : CelEval := fun _ _ => .error .valueError

/-- A concrete digest function for concrete executor runs (the claims
proved with it hold for every digest function where stated). -/
def idHash : List Nat → PyStr := fun bs => bs

/-- An operation returning the integer 7. -/
def opConst7 : Op := fun _ => .ok (.int 7)

/-- A registry binding `"op"`. -/
def regExample : Registry := [(pstr "op", opConst7)]

/-- An operation returning `None` (registry examples). -/
def opNone : Op := fun _ => .ok .none

/-! # Theorems -/

/-- A value containing a float is never a string (`float`, containers are
not `str`). -/
theorem containsFloat_not_isStr (v : PyVal) (hv : containsFloat v = true) :
    v.isStr = false := by
  cases v <;> simp_all [containsFloat, PyVal.isStr]

mutual

/-- Any value containing a float at any nesting depth fails the
`is_cacheable` predicate. -/
theorem containsFloat_not_cacheable :
    ∀ v : PyVal, containsFloat v = true → is_cacheable v = false
  | .pyfloat, _ => rfl
  | .none, hv => by simp [containsFloat] at hv
  | .pybool _, hv => by simp [containsFloat] at hv
  | .int _, hv => by simp [containsFloat] at hv
  | .str _, hv => by simp [containsFloat] at hv
  | .dec _, hv => by simp [containsFloat] at hv
  | .pybytes _, hv => by simp [containsFloat] at hv
  | .domain _, hv => by simp [containsFloat] at hv
  | .other, hv => by simp [containsFloat] at hv
  | .pydict es, hv => by
      have h := entriesFloat_not_cacheable es (by simpa [containsFloat] using hv)
      simpa [is_cacheable] using h
  | .pylist items, hv => by
      have h := itemsFloat_not_cacheable items (by simpa [containsFloat] using hv)
      simpa [is_cacheable] using h
  | .tuple items, hv => by
      have h := itemsFloat_not_cacheable items (by simpa [containsFloat] using hv)
      simpa [is_cacheable] using h

theorem entriesFloat_not_cacheable :
    ∀ es : List (PyVal × PyVal), entriesContainFloat es = true →
      (keysAllStr es && entriesCacheable es) = false
  | [], hv => by simp [entriesContainFloat] at hv
  | (k, v) :: rest, hv => by
      simp only [entriesContainFloat, Bool.or_eq_true] at hv
      rcases hv with (hk | hval) | hrest
      · simp [keysAllStr, containsFloat_not_isStr k hk]
      · simp [entriesCacheable, containsFloat_not_cacheable v hval]
      · have := entriesFloat_not_cacheable rest hrest
        simp only [keysAllStr, entriesCacheable, List.all_cons, Bool.and_eq_false_iff] at this ⊢
        rcases this with h | h
        · exact Or.inl (Or.inr h)
        · exact Or.inr (Or.inr h)

theorem itemsFloat_not_cacheable :
    ∀ items : List PyVal, listContainsFloat items = true → listCacheable items = false
  | [], hv => by simp [listContainsFloat] at hv
  | v :: rest, hv => by
      simp only [listContainsFloat, Bool.or_eq_true] at hv
      rcases hv with hval | hrest
      · simp [listCacheable, containsFloat_not_cacheable v hval]
      · simp [listCacheable, itemsFloat_not_cacheable rest hrest]

end

/-- **C9**: no path admits an IEEE-754 float — a value containing a float
at any nesting depth is not cacheable and cannot be serialized, and a CEL
evaluation whose result is a float fails with the float-forbidden error
instead of producing a value. -/
theorem float_exclusion :
    (∀ v : PyVal, containsFloat v = true → is_cacheable v = false)
    ∧ (∀ v : PyVal, containsFloat v = true → serialize v = Option.none)
    ∧ (∀ (eval : CelEval) (conv : PyVal → Except Err PyVal) (expr : PyStr)
        (deps : List (PyStr × PyVal)) (r : PyVal),
        eval expr deps = .ok r → r.isFloat = true →
        evaluateCel eval conv expr deps = .error .floatForbidden) := by
  refine ⟨containsFloat_not_cacheable, ?_, ?_⟩
  · intro v hv
    simp [serialize, containsFloat_not_cacheable v hv]
  · intro eval conv expr deps r he hf
    simp [evaluateCel, he, celFloatGuard, hf]

/-- Witness for C9 at `[float]` and a CEL evaluation returning a float. -/
theorem float_exclusion_witness :
    (containsFloat (PyVal.pylist [PyVal.pyfloat]) = true
      ∧ is_cacheable (PyVal.pylist [PyVal.pyfloat]) = false
      ∧ serialize (PyVal.pylist [PyVal.pyfloat]) = Option.none)
    ∧ evaluateCel (fun _ _ => .ok PyVal.pyfloat) (fun v => .ok v) [] []
        = .error .floatForbidden :=
  ⟨⟨by decide, float_exclusion.1 _ (by decide), float_exclusion.2.1 _ (by decide)⟩,
    float_exclusion.2.2 _ _ _ _ PyVal.pyfloat rfl (by decide)⟩

/-- **C10**: the stable hash is not injective across value kinds — an
integer hashes exactly like its decimal string, a list hashes exactly like
the tuple with the same elements, the empty map hashes like the empty
list, and the distinct manifests `{"a": 42}` and `{"a": "42"}` receive
equal digests and hence the same `(op_name, digest)` cache slot.  All
statements hold for every digest function `h` in place of SHA-256. -/
theorem stable_hash_collisions :
    (∀ (h : List Nat → PyStr) (n : Int),
      hashValue h (.int n) = hashValue h (.str (intStrBytes n)))
    ∧ (∀ (h : List Nat → PyStr) (l : List PyVal),
      hashValue h (.pylist l) = hashValue h (.tuple l))
    ∧ (∀ h : List Nat → PyStr, hashValue h (.pydict []) = hashValue h (.pylist []))
    ∧ ([(pstr "a", PyVal.int 42)] ≠ [(pstr "a", PyVal.str (pstr "42"))]
        ∧ ∀ (h : List Nat → PyStr) (op : PyStr),
          hashManifest h [(pstr "a", PyVal.int 42)]
              = hashManifest h [(pstr "a", PyVal.str (pstr "42"))]
            ∧ ((op, hashManifest h [(pstr "a", PyVal.int 42)]) : PyStr × PyStr)
              = (op, hashManifest h [(pstr "a", PyVal.str (pstr "42"))])) := by
  refine ⟨fun h n => rfl, fun h l => rfl, fun h => rfl, ?_, ?_⟩
  · intro hcontra
    simp at hcontra
  · intro h op
    have e : intStrBytes (42 : Int) = pstr "42" := by decide
    constructor
    · simp [hashManifest, hashManifestEntries, sortByKey, insertByKey, hashValue, e]
    · simp [hashManifest, hashManifestEntries, sortByKey, insertByKey, hashValue, e]

/-- **C2** (code bug): executing a graph containing a subgraph vertex does
not run the inner graph — validation already raises `AttributeError` when
`registry.has(node.op_name)` touches the `op_name` attribute, which
`SubGraphNode` does not have, and `Executor.execute` has no subgraph
branch at all. -/
theorem subgraph_execution_raises :
    executeGraph idHash dummyEval dummyEval regExample
      [(pstr "sub", Vertex.subgraph [] []
        [(pstr "a", Vertex.prim ⟨pstr "op", [], [], true⟩)] (pstr "a"))] [] []
      = .error .attributeError := rfl

/-- **C3** (code bug): the executor never reads the vertex's `cache` flag.
With `cache := false` it still persists the result into the store (first
conjunct: the store gains the `(op_name, digest)` slot), and it still
serves a prior result from the store instead of invoking the operation
(second conjunct: the seeded value 99 is returned although the operation
returns 7, and the store is unchanged). -/
theorem cache_false_ignored :
    (executeGraph idHash dummyEval dummyEval regExample
        [(pstr "n", Vertex.prim ⟨pstr "op", [], [], false⟩)] [] []
      = .ok ([(pstr "n", PyVal.int 7)],
          [((pstr "op", hashManifest idHash []), PyVal.int 7)]))
    ∧ (executeGraph idHash dummyEval dummyEval regExample
        [(pstr "n", Vertex.prim ⟨pstr "op", [], [], false⟩)] []
        [((pstr "op", hashManifest idHash []), PyVal.int 99)]
      = .ok ([(pstr "n", PyVal.int 99)],
          [((pstr "op", hashManifest idHash []), PyVal.int 99)])) :=
  ⟨rfl, rfl⟩

/-- **C5** (code bug): `DiskStore.put` serializes via
`artifact.to_stream`, an attribute native values do not have — putting the
dict `{"key": (1, "hello", Decimal("3.14"))}` raises `AttributeError`, so
no codec byte stream is ever written for native artifacts. -/
theorem disk_put_native_raises :
    diskPutBytes (PyVal.pydict [(.str (pstr "key"),
      .tuple [.int 1, .str (pstr "hello"), .dec (pstr "3.14")])])
      = .error .attributeError := rfl

/-- **C6** (code bug): `ChainStore.get` calls `l1.exists(op_name, digest)`
with two positional arguments, but `MemoryStore`'s methods take a single
`digest` key, so every chained `get` raises `TypeError` before L2 is
consulted or anything is promoted; the default construction
`MemoryStore(cache="lru")` raises `TypeError` as well. -/
theorem chain_get_arity_mismatch :
    (chainGet [] (fun _ _ => some (PyVal.int 5)) (pstr "test:op") (pstr "d")
      = .error .typeError)
    ∧ chainStoreDefaultL1 = .error .typeError :=
  ⟨rfl, rfl⟩

/-- **C7** (counterexample): `register_package` is not atomic — with
`"p:b"` already bound, registering the package `{a, b}` under `"p"` raises
`NameInUse` but leaves `"p:a"` registered, so the registry differs from
its pre-call state. -/
theorem register_package_partial_state :
    ((registerPackage [(pstr "p:b", opNone)] (pstr "p")
        [(pstr "a", opNone), (pstr "b", opNone)]).2 = some Err.nameInUse)
    ∧ ((alookup (pstr "p:a") (registerPackage [(pstr "p:b", opNone)] (pstr "p")
        [(pstr "a", opNone), (pstr "b", opNone)]).1).isSome = true)
    ∧ (registerPackage [(pstr "p:b", opNone)] (pstr "p")
        [(pstr "a", opNone), (pstr "b", opNone)]).1 ≠ [(pstr "p:b", opNone)] := by
  refine ⟨rfl, rfl, ?_⟩
  intro hcontra
  have h2 := congrArg (fun r => (alookup (pstr "p:a") r).isSome) hcontra
  exact Bool.noConfusion (show (true : Bool) = false from h2)

/-- A conflict-free run registers all entries in order. -/
theorem registerLoop_fresh (pfx : PyStr) :
    ∀ (ops : List (PyStr × Op)) (st : Registry), freshRun st pfx ops = true →
      registerLoop pfx st ops = (st ++ entriesOf pfx ops, Option.none)
  | [], st, _ => by simp [registerLoop, entriesOf]
  | (n, op) :: rest, st, hfresh => by
      simp only [freshRun, Bool.and_eq_true] at hfresh
      have h1 : alookup (pfx ++ [58] ++ n) st = Option.none :=
        Option.isNone_iff_eq_none.mp hfresh.1
      have hne : pfx ++ [58] ++ n ≠ [] := by simp
      rw [registerLoop, register, if_neg hne]
      simp only [h1, Option.isSome_none, Bool.false_eq_true, if_false]
      rw [registerLoop_fresh pfx rest (st ++ [(pfx ++ [58] ++ n, op)]) hfresh.2]
      simp [entriesOf, List.append_assoc]

/-- A run hitting a bound name stops there, keeping what was registered
before the conflict. -/
theorem registerLoop_conflict (pfx : PyStr) :
    ∀ (pre : List (PyStr × Op)) (st : Registry) (name : PyStr) (op : Op)
      (post : List (PyStr × Op)),
      freshRun st pfx pre = true →
      (alookup (pfx ++ [58] ++ name) (st ++ entriesOf pfx pre)).isSome = true →
      registerLoop pfx st (pre ++ (name, op) :: post)
        = (st ++ entriesOf pfx pre, some Err.nameInUse)
  | [], st, name, op, post, _, hconf => by
      simp only [entriesOf, List.map_nil, List.append_nil] at hconf ⊢
      have hne : pfx ++ [58] ++ name ≠ [] := by simp
      rw [List.nil_append, registerLoop, register, if_neg hne, if_pos hconf]
  | (n0, op0) :: pre, st, name, op, post, hfresh, hconf => by
      simp only [freshRun, Bool.and_eq_true] at hfresh
      have h1 : alookup (pfx ++ [58] ++ n0) st = Option.none :=
        Option.isNone_iff_eq_none.mp hfresh.1
      have hne : pfx ++ [58] ++ n0 ≠ [] := by simp
      rw [List.cons_append, registerLoop, register, if_neg hne]
      simp only [h1, Option.isSome_none, Bool.false_eq_true, if_false]
      rw [registerLoop_conflict pfx pre (st ++ [(pfx ++ [58] ++ n0, op0)]) name op post
        hfresh.2 (by simpa [entriesOf, List.append_assoc] using hconf)]
      simp [entriesOf, List.append_assoc]

/-- **C7** (amended): `register_package(prefix, ops)` binds each entry
under `prefix + ":" + name` in package order; when every resulting full
name is fresh, all entries are registered, and when a full name is already
bound it fails with `NameInUse` — but not atomically: the entries
registered before the first conflicting one remain in the registry. -/
theorem register_package_behaviour (st : Registry) (pfx : PyStr)
    (ops : List (PyStr × Op)) (hp : pfx ≠ []) :
    (freshRun st pfx ops = true →
      registerPackage st pfx ops = (st ++ entriesOf pfx ops, Option.none))
    ∧ (∀ pre name op post, ops = pre ++ (name, op) :: post →
        freshRun st pfx pre = true →
        (alookup (pfx ++ [58] ++ name) (st ++ entriesOf pfx pre)).isSome = true →
        registerPackage st pfx ops = (st ++ entriesOf pfx pre, some Err.nameInUse)) := by
  constructor
  · intro hf
    rw [registerPackage, if_neg hp, registerLoop_fresh pfx ops st hf]
  · intro pre name op post hops hf hc
    subst hops
    rw [registerPackage, if_neg hp, registerLoop_conflict pfx pre st name op post hf hc]

/-- Witness for C7 at the counterexample package: applying the amended
theorem yields the partially-registered end state. -/
theorem register_package_behaviour_witness :
    registerPackage [(pstr "p:b", opNone)] (pstr "p")
        [(pstr "a", opNone), (pstr "b", opNone)]
      = ([(pstr "p:b", opNone)] ++ entriesOf (pstr "p") [(pstr "a", opNone)],
          some Err.nameInUse) :=
  (register_package_behaviour [(pstr "p:b", opNone)] (pstr "p")
      [(pstr "a", opNone), (pstr "b", opNone)] (by decide)).2
    [(pstr "a", opNone)] (pstr "b") opNone [] rfl (by rfl) (by rfl)

/-- The resolved parameter map has exactly the parameter names as keys: no
dependency is injected by resolution. -/
theorem resolveParams_keys (celE interpE : CelEval) :
    ∀ (params : List (PyStr × Param)) (deps : List (PyStr × PyVal))
      (m : List (PyStr × PyVal)),
      resolveParams celE interpE params deps = .ok m →
      m.map Prod.fst = params.map Prod.fst
  | [], deps, m, hm => by
      simp only [resolveParams] at hm
      cases hm
      rfl
  | (k, p) :: rest, deps, m, hm => by
      simp only [resolveParams] at hm
      split at hm
      · cases hm
        rename_i v tail hv ht
        simp only [List.map_cons, List.cons.injEq, true_and]
        exact resolveParams_keys celE interpE rest deps tail ht
      · exact absurd hm (by simp)
      · exact absurd hm (by simp)

/-! The C1 manifest-determinism theorem appears after the codec groundwork:
its digest-equality half rests on the canonical-form lemmas for
`hash_value`'s key sorting, developed below. -/

/-! ### Codec round-trip groundwork (C4) -/

theorem natToBE_length (k : Nat) : ∀ x : Nat, (natToBE k x).length = k := by
  induction k with
  | zero => intro x; rfl
  | succ k ih => intro x; simp [natToBE, ih]

theorem fromBE_append_singleton (l : List Nat) (b : Nat) :
    fromBE (l ++ [b]) = 256 * fromBE l + b := by
  simp [fromBE, List.foldl_append, Nat.mul_comm]

theorem fromBE_natToBE (k : Nat) : ∀ x : Nat, x < 256 ^ k → fromBE (natToBE k x) = x := by
  induction k with
  | zero => intro x hx; interval_cases x; rfl
  | succ k ih =>
      intro x hx
      rw [natToBE, fromBE_append_singleton, ih (x / 256) (by
        have : 256 ^ (k + 1) = 256 ^ k * 256 := by ring
        rw [this] at hx
        exact Nat.div_lt_of_lt_mul (by omega))]
      omega

theorem readN_exact (bs rest : List Nat) : readN bs.length (bs ++ rest) = some (bs, rest) := by
  rw [readN, if_pos (by simp)]
  simp

theorem toBytesU_spec {k x : Nat} {bs : List Nat} (h : toBytesU k x = some bs) :
    bs.length = k ∧ fromBE bs = x := by
  rw [toBytesU] at h
  split at h
  · cases h
    exact ⟨natToBE_length k x, fromBE_natToBE k x (by assumption)⟩
  · cases h

theorem toBytes8S_spec {n : Int} {bs : List Nat} (h : toBytes8S n = some bs) :
    bs.length = 8 ∧ intFromBytes8S bs = n := by
  rw [toBytes8S] at h
  split at h
  · cases h
    rename_i hr
    constructor
    · exact natToBE_length 8 _
    · have hmodlt : n % 2 ^ 64 < 2 ^ 64 := Int.emod_lt_of_pos n (by norm_num)
      have hmodnn : 0 ≤ n % 2 ^ 64 := Int.emod_nonneg n (by norm_num)
      have hfrom : fromBE (natToBE 8 (n % 2 ^ 64).toNat) = (n % 2 ^ 64).toNat := by
        apply fromBE_natToBE
        have : ((n % 2 ^ 64).toNat : Int) < 2 ^ 64 := by
          rwa [Int.toNat_of_nonneg hmodnn]
        norm_num at this ⊢
        omega
      rw [intFromBytes8S, hfrom]
      have hcast : (((n % 2 ^ 64).toNat : Nat) : Int) = n % 2 ^ 64 :=
        Int.toNat_of_nonneg hmodnn
      split
      · rename_i hbig
        have : (2 ^ 63 : Int) ≤ ((n % 2 ^ 64).toNat : Int) := by exact_mod_cast hbig
        rw [hcast] at this
        omega
      · rename_i hsmall
        have : ¬ (2 ^ 63 : Int) ≤ ((n % 2 ^ 64).toNat : Int) := by exact_mod_cast hsmall
        rw [hcast] at this
        omega
  · cases h

theorem readN_len (n : Nat) (bs rest : List Nat) (h : bs.length = n) :
    readN n (bs ++ rest) = some (bs, rest) := h ▸ readN_exact bs rest

theorem insertByKey_perm {α : Type} (keyOf : α → PyStr) (e : α) (l : List α) :
    List.Perm (insertByKey keyOf e l) (e :: l) := by
  induction l with
  | nil => exact List.Perm.refl _
  | cons x xs ih =>
      rw [insertByKey]
      split
      · exact List.Perm.refl _
      · exact (List.Perm.cons x ih).trans (List.Perm.swap e x xs)

theorem sortByKey_perm {α : Type} (keyOf : α → PyStr) (l : List α) :
    List.Perm (sortByKey keyOf l) l := by
  induction l with
  | nil => exact List.Perm.refl _
  | cons x xs ih =>
      rw [sortByKey]
      exact (insertByKey_perm keyOf x (sortByKey keyOf xs)).trans (List.Perm.cons x ih)

theorem insertByKey_map {α β : Type} (f : PyStr → α → β) (e : PyStr × α)
    (l : List (PyStr × α)) :
    insertByKey Prod.fst (e.1, f e.1 e.2) (l.map (fun p => (p.1, f p.1 p.2)))
      = (insertByKey Prod.fst e l).map (fun p => (p.1, f p.1 p.2)) := by
  induction l with
  | nil => rfl
  | cons x xs ih =>
      rw [List.map_cons, insertByKey, insertByKey]
      by_cases hle : bytesLe e.1 x.1 = true
      · simp only [hle, if_true, List.map_cons]
      · simp [hle, ih]

theorem sortByKey_map {α β : Type} (f : PyStr → α → β) (l : List (PyStr × α)) :
    sortByKey Prod.fst (l.map (fun p => (p.1, f p.1 p.2)))
      = (sortByKey Prod.fst l).map (fun p => (p.1, f p.1 p.2)) := by
  induction l with
  | nil => rfl
  | cons x xs ih =>
      rw [List.map_cons, sortByKey, sortByKey, ih, ← insertByKey_map]

theorem updEntry_not_mem (k : PyStr) (v : PyVal) :
    ∀ acc : List (PyStr × PyVal), k ∉ acc.map Prod.fst →
      updEntry k v acc = acc ++ [(k, v)]
  | [], _ => rfl
  | (k0, v0) :: acc, h => by
      have hk : k ≠ k0 := fun hc => h (by simp [hc])
      have hrest : k ∉ acc.map Prod.fst := fun hc => h (by simp [hc])
      rw [updEntry, if_neg hk, updEntry_not_mem k v acc hrest]
      rfl

theorem foldl_updEntry :
    ∀ (ps : List (PyStr × PyVal)) (acc : List (PyStr × PyVal)),
      (acc.map Prod.fst ++ ps.map Prod.fst).Nodup →
      ps.foldl (fun a p => updEntry p.1 p.2 a) acc = acc ++ ps
  | [], acc, _ => by simp
  | p :: ps, acc, h => by
      have hnotin : p.1 ∉ acc.map Prod.fst := by
        intro hmem
        rcases List.nodup_append.mp h with ⟨_, _, hdisj⟩
        exact hdisj hmem (by simp)
      rw [List.foldl_cons, updEntry_not_mem p.1 p.2 acc hnotin,
        foldl_updEntry ps (acc ++ [p]) (by
          simp only [List.map_append, List.map_cons] at h ⊢
          simpa [List.append_assoc] using h)]
      simp

theorem dictFromPairs_nodup (ps : List (PyStr × PyVal))
    (h : (ps.map Prod.fst).Nodup) :
    dictFromPairs ps = ps.map (fun p => (PyVal.str p.1, p.2)) := by
  rw [dictFromPairs, foldl_updEntry ps [] (by simpa using h)]
  simp

theorem flatten_length (L : List (List Nat)) :
    L.flatten.length = (L.map List.length).sum := by
  induction L with
  | nil => rfl
  | cons x xs ih => simp [List.flatten_cons, ih]

theorem serEntries_eq :
    ∀ (es : List (PyVal × PyVal)) (pairs : List (PyStr × List Nat)),
      serEntries es = some pairs →
      pairs = (keyedEntries es).map entryBody
      ∧ ∀ p ∈ keyedEntries es, (toBytesU 8 p.1.length).isSome ∧ (serValue p.2).isSome
  | [], pairs, h => by
      simp only [serEntries] at h
      cases h
      exact ⟨rfl, by simp [keyedEntries]⟩
  | (PyVal.str k, v) :: rest, pairs, h => by
      simp only [serEntries] at h
      split at h
      · rename_i kl vb tail hkl hvb htail
        cases h
        obtain ⟨htl, hmem⟩ := serEntries_eq rest tail htail
        constructor
        · simp only [keyedEntries, List.map_cons, entryKeyBytes, entryBody, hkl, hvb,
            Option.getD_some]
          simpa [keyedEntries] using htl
        · intro p hp
          simp only [keyedEntries, List.map_cons, entryKeyBytes, List.mem_cons] at hp
          rcases hp with rfl | hp
          · exact ⟨by simp [hkl], by simp [hvb]⟩
          · exact hmem p (by simpa [keyedEntries] using hp)
      · exact Option.noConfusion h
  | (PyVal.none, _) :: _, _, h => Option.noConfusion h
  | (PyVal.pybool _, _) :: _, _, h => Option.noConfusion h
  | (PyVal.int _, _) :: _, _, h => Option.noConfusion h
  | (PyVal.dec _, _) :: _, _, h => Option.noConfusion h
  | (PyVal.pyfloat, _) :: _, _, h => Option.noConfusion h
  | (PyVal.pybytes _, _) :: _, _, h => Option.noConfusion h
  | (PyVal.pydict _, _) :: _, _, h => Option.noConfusion h
  | (PyVal.pylist _, _) :: _, _, h => Option.noConfusion h
  | (PyVal.tuple _, _) :: _, _, h => Option.noConfusion h
  | (PyVal.domain _, _) :: _, _, h => Option.noConfusion h
  | (PyVal.other, _) :: _, _, h => Option.noConfusion h

theorem serItems_eq :
    ∀ (l : List PyVal) (b : List Nat), serItems l = some b →
      b = (l.map (fun v => (serValue v).getD [])).flatten
      ∧ ∀ v ∈ l, (serValue v).isSome
  | [], b, h => by
      simp only [serItems] at h
      cases h
      exact ⟨rfl, by simp⟩
  | v :: rest, b, h => by
      simp only [serItems] at h
      split at h
      · rename_i vb tail hvb htail
        cases h
        obtain ⟨htl, hmem⟩ := serItems_eq rest tail htail
        constructor
        · simp [hvb, htl]
        · intro x hx
          rcases List.mem_cons.mp hx with rfl | hx
          · simp [hvb]
          · exact hmem x hx
      · exact Option.noConfusion h

mutual

theorem serCost_le : ∀ (v : PyVal) (bs : List Nat), serValue v = some bs →
    serCost v + 1 ≤ bs.length
  | .none, bs, h => by
      cases h
      decide
  | .pybool b, bs, h => by
      cases h
      simp [serCost, tagBool, pstr]
  | .int n, bs, h => by
      simp only [serValue] at h
      split at h
      · rename_i bs0 hbs0
        cases h
        simp [serCost, tagInt, pstr]
      · exact Option.noConfusion h
  | .str s, bs, h => by
      simp only [serValue] at h
      split at h
      · cases h
        simp [serCost, tagStr, pstr]
      · exact Option.noConfusion h
  | .dec s, bs, h => by
      simp only [serValue] at h
      split at h
      · cases h
        simp [serCost, tagDecm, pstr]
      · exact Option.noConfusion h
  | .pydict es, bs, h => by
      simp only [serValue] at h
      split at h
      · rename_i l pairs hl hpairs
        cases h
        have hec := entCost_le es pairs hpairs
        have hperm : ((sortByKey Prod.fst pairs).map Prod.snd).flatten.length
            = ((pairs.map Prod.snd).flatten).length := by
          rw [flatten_length, flatten_length]
          exact List.Perm.sum_eq
            (((sortByKey_perm Prod.fst pairs).map Prod.snd).map List.length)
        have htag : tagDict.length = 4 := rfl
        rw [show serCost (PyVal.pydict es) = 1 + entCost es from rfl,
          List.length_append, List.length_append, hperm, htag]
        omega
      · exact Option.noConfusion h
  | .pylist items, bs, h => by
      simp only [serValue] at h
      split at h
      · rename_i l body hl hbody
        cases h
        have h1 := itemsCost_le items body hbody
        have htag : tagList.length = 4 := rfl
        rw [show serCost (PyVal.pylist items) = 1 + itemsCost items from rfl,
          List.length_append, List.length_append, htag]
        omega
      · exact Option.noConfusion h
  | .tuple items, bs, h => by
      simp only [serValue] at h
      split at h
      · rename_i l body hl hbody
        cases h
        have h1 := itemsCost_le items body hbody
        have htag : tagTupl.length = 4 := rfl
        rw [show serCost (PyVal.tuple items) = 1 + itemsCost items from rfl,
          List.length_append, List.length_append, htag]
        omega
      · exact Option.noConfusion h
  | .domain d, bs, h => by
      simp only [serValue] at h
      split at h
      · cases h
        simp [serCost, tagIcac, pstr]
      · exact Option.noConfusion h
  | .pyfloat, bs, h => Option.noConfusion h
  | .pybytes _, bs, h => Option.noConfusion h
  | .other, bs, h => Option.noConfusion h

theorem entCost_le :
    ∀ (es : List (PyVal × PyVal)) (pairs : List (PyStr × List Nat)),
      serEntries es = some pairs →
      entCost es ≤ ((pairs.map Prod.snd).flatten).length
  | [], pairs, h => by
      simp only [serEntries] at h
      cases h
      simp [entCost]
  | (PyVal.str k, v) :: rest, pairs, h => by
      simp only [serEntries] at h
      split at h
      · rename_i kl vb tail hkl hvb htail
        cases h
        have h1 := serCost_le v vb hvb
        have h2 := entCost_le rest tail htail
        have hkl8 : kl.length = 8 := (toBytesU_spec hkl).1
        have hcost : entCost ((PyVal.str k, v) :: rest) = 1 + serCost v + entCost rest := rfl
        simp only [hcost, List.map_cons, List.flatten_cons, List.length_append]
        omega
      · exact Option.noConfusion h
  | (PyVal.none, _) :: _, _, h => Option.noConfusion h
  | (PyVal.pybool _, _) :: _, _, h => Option.noConfusion h
  | (PyVal.int _, _) :: _, _, h => Option.noConfusion h
  | (PyVal.dec _, _) :: _, _, h => Option.noConfusion h
  | (PyVal.pyfloat, _) :: _, _, h => Option.noConfusion h
  | (PyVal.pybytes _, _) :: _, _, h => Option.noConfusion h
  | (PyVal.pydict _, _) :: _, _, h => Option.noConfusion h
  | (PyVal.pylist _, _) :: _, _, h => Option.noConfusion h
  | (PyVal.tuple _, _) :: _, _, h => Option.noConfusion h
  | (PyVal.domain _, _) :: _, _, h => Option.noConfusion h
  | (PyVal.other, _) :: _, _, h => Option.noConfusion h

theorem itemsCost_le :
    ∀ (l : List PyVal) (b : List Nat), serItems l = some b → itemsCost l ≤ b.length
  | [], b, h => by
      simp only [serItems] at h
      cases h
      simp [itemsCost]
  | v :: rest, b, h => by
      simp only [serItems] at h
      split at h
      · rename_i vb tail hvb htail
        cases h
        have h1 := serCost_le v vb hvb
        have h2 := itemsCost_le rest tail htail
        rw [show itemsCost (v :: rest) = 1 + serCost v + itemsCost rest from rfl,
          List.length_append]
        omega
      · exact Option.noConfusion h

end

theorem wfEntries_mem (es : List (PyVal × PyVal)) (h : wfEntries es = true) :
    ∀ e ∈ es, wfKeys e.2 = true := by
  induction es with
  | nil => intro e he; exact absurd he (by simp)
  | cons e0 rest ih =>
      obtain ⟨k0, v0⟩ := e0
      simp only [wfEntries, Bool.and_eq_true] at h
      intro e he
      rcases List.mem_cons.mp he with rfl | he
      · exact h.1
      · exact ih h.2 e he

theorem dfEntries_mem (es : List (PyVal × PyVal)) (h : dfEntries es = true) :
    ∀ e ∈ es, domainFree e.2 = true := by
  induction es with
  | nil => intro e he; exact absurd he (by simp)
  | cons e0 rest ih =>
      obtain ⟨k0, v0⟩ := e0
      simp only [dfEntries, Bool.and_eq_true] at h
      intro e he
      rcases List.mem_cons.mp he with rfl | he
      · exact h.1
      · exact ih h.2 e he

theorem wfItems_mem (l : List PyVal) (h : wfItems l = true) :
    ∀ v ∈ l, wfKeys v = true := by
  induction l with
  | nil => intro v hv; exact absurd hv (by simp)
  | cons v0 rest ih =>
      simp only [wfItems, Bool.and_eq_true] at h
      intro v hv
      rcases List.mem_cons.mp hv with rfl | hv
      · exact h.1
      · exact ih h.2 v hv

theorem dfItems_mem (l : List PyVal) (h : dfItems l = true) :
    ∀ v ∈ l, domainFree v = true := by
  induction l with
  | nil => intro v hv; exact absurd hv (by simp)
  | cons v0 rest ih =>
      simp only [dfItems, Bool.and_eq_true] at h
      intro v hv
      rcases List.mem_cons.mp hv with rfl | hv
      · exact h.1
      · exact ih h.2 v hv

theorem canonEntries_eq (es : List (PyVal × PyVal)) :
    canonEntries es = (keyedEntries es).map (fun p => (p.1, canon p.2)) := by
  induction es with
  | nil => rfl
  | cons e rest ih =>
      obtain ⟨k, v⟩ := e
      simp only [canonEntries, keyedEntries, List.map_cons] at ih ⊢
      rw [ih]

theorem entCost_eq (es : List (PyVal × PyVal)) : entCost es = entCostL (keyedEntries es) := by
  induction es with
  | nil => rfl
  | cons e rest ih =>
      obtain ⟨k, v⟩ := e
      simp only [entCost, entCostL, keyedEntries, List.map_cons, List.sum_cons] at ih ⊢
      omega

theorem itemsCost_eq (l : List PyVal) : itemsCost l = itemsCostL l := by
  induction l with
  | nil => rfl
  | cons v rest ih =>
      simp only [itemsCost, itemsCostL, List.map_cons, List.sum_cons] at ih ⊢
      omega

theorem entCostL_perm {l l' : List (PyStr × PyVal)} (h : List.Perm l l') :
    entCostL l = entCostL l' :=
  List.Perm.sum_eq (h.map _)

theorem deserEntries_bodies :
    ∀ (l : List (PyStr × PyVal)) (fuel : Nat) (rest : List Nat),
      (∀ p ∈ l, (toBytesU 8 p.1.length).isSome ∧ (serValue p.2).isSome) →
      (∀ p ∈ l, ∀ bs, serValue p.2 = some bs → ∀ f, serCost p.2 ≤ f → ∀ r,
          deserValue f (bs ++ r) = some (canon p.2, r)) →
      entCostL l ≤ fuel →
      deserEntries fuel l.length (((l.map entryBody).map Prod.snd).flatten ++ rest)
        = some (l.map (fun p => (p.1, canon p.2)), rest)
  | [], fuel, rest, _, _, _ => by
      simp [deserEntries]
  | p :: l, fuel, rest, hsome, hrt, hcost => by
      obtain ⟨kl, hkl⟩ := Option.isSome_iff_exists.mp (hsome p (by simp)).1
      obtain ⟨vb, hvb⟩ := Option.isSome_iff_exists.mp (hsome p (by simp)).2
      have hklspec := toBytesU_spec hkl
      have hent : entCostL (p :: l) = 1 + serCost p.2 + entCostL l := by
        simp [entCostL]
      obtain ⟨f, rfl⟩ : ∃ f, fuel = f + 1 := ⟨fuel - 1, by omega⟩
      have hstream : (((p :: l).map entryBody).map Prod.snd).flatten ++ rest
          = kl ++ (p.1 ++ (vb ++ ((((l.map entryBody).map Prod.snd).flatten) ++ rest))) := by
        simp only [List.map_cons, List.flatten_cons, entryBody, hkl, hvb, Option.getD_some]
        simp [List.append_assoc]
      rw [show (p :: l).length = l.length + 1 from rfl, hstream]
      simp only [deserEntries, readN_len 8 kl _ hklspec.1, hklspec.2,
        readN_len p.1.length p.1 _ rfl, hrt p (by simp) vb hvb f (by omega),
        deserEntries_bodies l f rest (fun q hq => hsome q (by simp [hq]))
          (fun q hq => hrt q (by simp [hq])) (by omega), List.map_cons]

theorem deserItems_bodies :
    ∀ (l : List PyVal) (fuel : Nat) (rest : List Nat),
      (∀ v ∈ l, (serValue v).isSome) →
      (∀ v ∈ l, ∀ bs, serValue v = some bs → ∀ f, serCost v ≤ f → ∀ r,
          deserValue f (bs ++ r) = some (canon v, r)) →
      itemsCostL l ≤ fuel →
      deserItems fuel l.length ((l.map (fun v => (serValue v).getD [])).flatten ++ rest)
        = some (l.map canon, rest)
  | [], fuel, rest, _, _, _ => by
      simp [deserItems]
  | v :: l, fuel, rest, hsome, hrt, hcost => by
      obtain ⟨vb, hvb⟩ := Option.isSome_iff_exists.mp (hsome v (by simp))
      have hent : itemsCostL (v :: l) = 1 + serCost v + itemsCostL l := by
        simp [itemsCostL]
      obtain ⟨f, rfl⟩ : ∃ f, fuel = f + 1 := ⟨fuel - 1, by omega⟩
      have hstream : ((v :: l).map (fun x => (serValue x).getD [])).flatten ++ rest
          = vb ++ ((l.map (fun x => (serValue x).getD [])).flatten ++ rest) := by
        simp [hvb, List.append_assoc]
      rw [show (v :: l).length = l.length + 1 from rfl, hstream]
      simp only [deserItems, hrt v (by simp) vb hvb f (by omega),
        deserItems_bodies l f rest (fun q hq => hsome q (by simp [hq]))
          (fun q hq => hrt q (by simp [hq])) (by omega), List.map_cons]

theorem canonItems_eq (l : List PyVal) : canonItems l = l.map canon := by
  induction l with
  | nil => rfl
  | cons v rest ih => simp only [canonItems, List.map_cons, ih]

mutual

theorem serValue_total : ∀ v : PyVal, is_cacheable v = true → serOkB v = true →
    ∃ bs, serValue v = some bs
  | .none, _, _ => ⟨tagNone, rfl⟩
  | .pybool b, _, _ => ⟨tagBool ++ [if b then 1 else 0], rfl⟩
  | .int n, _, hok => by
      have hr : -(2 ^ 63) ≤ n ∧ n < 2 ^ 63 := by
        simpa [serOkB] using hok
      refine ⟨tagInt ++ natToBE 8 (n % 2 ^ 64).toNat, ?_⟩
      simp only [serValue, toBytes8S, if_pos hr]
  | .str s, _, hok => by
      have hlen : s.length < 2 ^ 64 := by simpa [serOkB] using hok
      refine ⟨tagStr ++ natToBE 8 s.length ++ s, ?_⟩
      simp only [serValue, toBytesU, if_pos (show s.length < 256 ^ 8 by norm_num at hlen ⊢; omega)]
  | .dec s, _, hok => by
      have hlen : s.length < 2 ^ 64 := by simpa [serOkB] using hok
      refine ⟨tagDecm ++ natToBE 8 s.length ++ s, ?_⟩
      simp only [serValue, toBytesU, if_pos (show s.length < 256 ^ 8 by norm_num at hlen ⊢; omega)]
  | .pydict es, hc, hok => by
      simp only [is_cacheable, Bool.and_eq_true] at hc
      simp only [serOkB, Bool.and_eq_true, decide_eq_true_eq] at hok
      obtain ⟨pairs, hpairs⟩ := serEntries_total es hc.1 hc.2 hok.2
      refine ⟨tagDict ++ natToBE 8 es.length ++ ((sortByKey Prod.fst pairs).map Prod.snd).flatten, ?_⟩
      simp only [serValue, toBytesU,
        if_pos (show es.length < 256 ^ 8 by norm_num at hok ⊢; omega), hpairs]
  | .pylist items, hc, hok => by
      simp only [is_cacheable] at hc
      simp only [serOkB, Bool.and_eq_true, decide_eq_true_eq] at hok
      obtain ⟨body, hbody⟩ := serItems_total items hc hok.2
      refine ⟨tagList ++ natToBE 8 items.length ++ body, ?_⟩
      simp only [serValue, toBytesU,
        if_pos (show items.length < 256 ^ 8 by norm_num at hok ⊢; omega), hbody]
  | .tuple items, hc, hok => by
      simp only [is_cacheable] at hc
      simp only [serOkB, Bool.and_eq_true, decide_eq_true_eq] at hok
      obtain ⟨body, hbody⟩ := serItems_total items hc hok.2
      refine ⟨tagTupl ++ natToBE 8 items.length ++ body, ?_⟩
      simp only [serValue, toBytesU,
        if_pos (show items.length < 256 ^ 8 by norm_num at hok ⊢; omega), hbody]
  | .domain d, _, hok => by
      have hlen : d.typeName.length < 2 ^ 32 := by simpa [serOkB] using hok
      refine ⟨tagIcac ++ natToBE 4 d.typeName.length ++ d.typeName ++ d.streamBytes, ?_⟩
      simp only [serValue, toBytesU,
        if_pos (show d.typeName.length < 256 ^ 4 by norm_num at hlen ⊢; omega)]
  | .pyfloat, hc, _ => by simp [is_cacheable] at hc
  | .pybytes _, hc, _ => by simp [is_cacheable] at hc
  | .other, hc, _ => by simp [is_cacheable] at hc

theorem serEntries_total : ∀ es : List (PyVal × PyVal), keysAllStr es = true →
    entriesCacheable es = true → serOkEntries es = true →
    ∃ pairs, serEntries es = some pairs
  | [], _, _, _ => ⟨[], rfl⟩
  | (PyVal.str s, v) :: rest, hk, hc, hok => by
      simp only [keysAllStr, List.all_cons, Bool.and_eq_true] at hk
      simp only [entriesCacheable, Bool.and_eq_true] at hc
      simp only [serOkEntries, Bool.and_eq_true, decide_eq_true_eq] at hok
      obtain ⟨vb, hvb⟩ := serValue_total v hc.1 hok.1.2
      obtain ⟨tail, htail⟩ := serEntries_total rest hk.2 hc.2 hok.2
      refine ⟨(s, natToBE 8 s.length ++ s ++ vb) :: tail, ?_⟩
      have hkl : toBytesU 8 s.length = some (natToBE 8 s.length) := by
        have := hok.1.1
        simp only [toBytesU, if_pos (show s.length < 256 ^ 8 by norm_num at this ⊢; omega)]
      simp only [serEntries, hkl, hvb, htail]
  | (PyVal.none, v) :: rest, hk, _, _ => by simp [keysAllStr, PyVal.isStr] at hk
  | (PyVal.pybool _, v) :: rest, hk, _, _ => by simp [keysAllStr, PyVal.isStr] at hk
  | (PyVal.int _, v) :: rest, hk, _, _ => by simp [keysAllStr, PyVal.isStr] at hk
  | (PyVal.dec _, v) :: rest, hk, _, _ => by simp [keysAllStr, PyVal.isStr] at hk
  | (PyVal.pyfloat, v) :: rest, hk, _, _ => by simp [keysAllStr, PyVal.isStr] at hk
  | (PyVal.pybytes _, v) :: rest, hk, _, _ => by simp [keysAllStr, PyVal.isStr] at hk
  | (PyVal.pydict _, v) :: rest, hk, _, _ => by simp [keysAllStr, PyVal.isStr] at hk
  | (PyVal.pylist _, v) :: rest, hk, _, _ => by simp [keysAllStr, PyVal.isStr] at hk
  | (PyVal.tuple _, v) :: rest, hk, _, _ => by simp [keysAllStr, PyVal.isStr] at hk
  | (PyVal.domain _, v) :: rest, hk, _, _ => by simp [keysAllStr, PyVal.isStr] at hk
  | (PyVal.other, v) :: rest, hk, _, _ => by simp [keysAllStr, PyVal.isStr] at hk

theorem serItems_total : ∀ l : List PyVal, listCacheable l = true → serOkItems l = true →
    ∃ b, serItems l = some b
  | [], _, _ => ⟨[], rfl⟩
  | v :: rest, hc, hok => by
      simp only [listCacheable, Bool.and_eq_true] at hc
      simp only [serOkItems, Bool.and_eq_true] at hok
      obtain ⟨vb, hvb⟩ := serValue_total v hc.1 hok.1
      obtain ⟨tail, htail⟩ := serItems_total rest hc.2 hok.2
      exact ⟨vb ++ tail, by simp only [serItems, hvb, htail]⟩

end

mutual

/-- Parsing back a serialized value yields its canonical form: the same
value with each dict rewritten in sorted key order. -/
theorem rtValue : ∀ (v : PyVal) (bs : List Nat), serValue v = some bs →
    wfKeys v = true → domainFree v = true →
    ∀ fuel : Nat, serCost v ≤ fuel → ∀ rest : List Nat,
      deserValue fuel (bs ++ rest) = some (canon v, rest)
  | .none, bs, h, _, _, fuel, hf, rest => by
      simp only [serValue] at h
      cases h
      obtain ⟨f, rfl⟩ : ∃ f, fuel = f + 1 := ⟨fuel - 1, by
        have : serCost PyVal.none = 1 := rfl
        omega⟩
      simp only [deserValue, readN_len 4 tagNone _ rfl]
      simp +decide [canon]
  | .pybool b, bs, h, _, _, fuel, hf, rest => by
      simp only [serValue] at h
      cases h
      obtain ⟨f, rfl⟩ : ∃ f, fuel = f + 1 := ⟨fuel - 1, by
        have : serCost (PyVal.pybool b) = 1 := rfl
        omega⟩
      rw [List.append_assoc]
      simp only [deserValue, readN_len 4 tagBool _ rfl]
      cases b
      · simp +decide [readN, canon]
      · simp +decide [readN, canon]
  | .int n, bs, h, _, _, fuel, hf, rest => by
      simp only [serValue] at h
      split at h
      · rename_i bs0 hbs0
        cases h
        obtain ⟨hlen, hdec⟩ := toBytes8S_spec hbs0
        obtain ⟨f, rfl⟩ : ∃ f, fuel = f + 1 := ⟨fuel - 1, by
          have : serCost (PyVal.int n) = 1 := rfl
          omega⟩
        rw [List.append_assoc]
        simp only [deserValue, readN_len 4 tagInt _ rfl]
        simp +decide [readN_len 8 bs0 rest hlen, hdec, canon]
      · exact Option.noConfusion h
  | .str s, bs, h, _, _, fuel, hf, rest => by
      simp only [serValue] at h
      split at h
      · rename_i kl hkl
        cases h
        obtain ⟨hkl8, hklval⟩ := toBytesU_spec hkl
        obtain ⟨f, rfl⟩ : ∃ f, fuel = f + 1 := ⟨fuel - 1, by
          have : serCost (PyVal.str s) = 1 := rfl
          omega⟩
        rw [List.append_assoc, List.append_assoc]
        simp only [deserValue, readN_len 4 tagStr _ rfl]
        simp +decide [readN_len 8 kl _ hkl8, hklval, readN_len s.length s rest rfl, canon]
      · exact Option.noConfusion h
  | .dec s, bs, h, _, _, fuel, hf, rest => by
      simp only [serValue] at h
      split at h
      · rename_i kl hkl
        cases h
        obtain ⟨hkl8, hklval⟩ := toBytesU_spec hkl
        obtain ⟨f, rfl⟩ : ∃ f, fuel = f + 1 := ⟨fuel - 1, by
          have : serCost (PyVal.dec s) = 1 := rfl
          omega⟩
        rw [List.append_assoc, List.append_assoc]
        simp only [deserValue, readN_len 4 tagDecm _ rfl]
        simp +decide [readN_len 8 kl _ hkl8, hklval, readN_len s.length s rest rfl, canon]
      · exact Option.noConfusion h
  | .pydict es, bs, h, hwf, hdf, fuel, hf, rest => by
      simp only [serValue] at h
      split at h
      · rename_i l pairs hl hpairs
        cases h
        simp only [wfKeys, Bool.and_eq_true, decide_eq_true_eq] at hwf
        simp only [domainFree] at hdf
        obtain ⟨hpairs_eq, hmem⟩ := serEntries_eq es pairs hpairs
        obtain ⟨hl8, hlval⟩ := toBytesU_spec hl
        obtain ⟨f, rfl⟩ : ∃ f, fuel = f + 1 := ⟨fuel - 1, by
          have : serCost (PyVal.pydict es) = 1 + entCost es := rfl
          omega⟩
        have hsortperm := sortByKey_perm Prod.fst (keyedEntries es)
        have hsort : sortByKey Prod.fst pairs
            = (sortByKey Prod.fst (keyedEntries es)).map entryBody := by
          rw [hpairs_eq]
          exact sortByKey_map
            (fun k a => (toBytesU 8 k.length).getD [] ++ k ++ (serValue a).getD [])
            (keyedEntries es)
        have hmeml : ∀ p ∈ sortByKey Prod.fst (keyedEntries es),
            (toBytesU 8 p.1.length).isSome ∧ (serValue p.2).isSome :=
          fun p hp => hmem p (hsortperm.mem_iff.mp hp)
        have hpt : ∀ p ∈ sortByKey Prod.fst (keyedEntries es), ∀ bs2,
            serValue p.2 = some bs2 → ∀ f2, serCost p.2 ≤ f2 → ∀ r,
            deserValue f2 (bs2 ++ r) = some (canon p.2, r) := by
          intro q hq bs2 hbs2 f2 hf2 r
          have hq2 : q ∈ keyedEntries es := hsortperm.mem_iff.mp hq
          obtain ⟨⟨k0, v0⟩, he, rfl⟩ := List.mem_map.mp hq2
          exact rtEntries es k0 v0 he bs2 hbs2 (wfEntries_mem es hwf.2 (k0, v0) he)
            (dfEntries_mem es hdf (k0, v0) he) f2 hf2 r
        have hcost2 : entCostL (sortByKey Prod.fst (keyedEntries es)) ≤ f := by
          rw [entCostL_perm hsortperm, ← entCost_eq]
          have : serCost (PyVal.pydict es) = 1 + entCost es := rfl
          omega
        have hlen2 : (sortByKey Prod.fst (keyedEntries es)).length = es.length := by
          rw [hsortperm.length_eq]
          simp [keyedEntries]
        have hnd : (((sortByKey Prod.fst (keyedEntries es)).map
            (fun p => (p.1, canon p.2))).map Prod.fst).Nodup := by
          have hkeys : ((sortByKey Prod.fst (keyedEntries es)).map
              (fun p => (p.1, canon p.2))).map Prod.fst
              = (sortByKey Prod.fst (keyedEntries es)).map Prod.fst := by
            simp [List.map_map, Function.comp]
          rw [hkeys]
          have hpermkeys := hsortperm.map Prod.fst
          have hkvkeys : (keyedEntries es).map Prod.fst = es.map entryKeyBytes := by
            simp [keyedEntries, List.map_map, Function.comp]
          rw [hkvkeys] at hpermkeys
          exact hpermkeys.nodup_iff.mpr hwf.1
        rw [List.append_assoc, List.append_assoc]
        simp only [deserValue, readN_len 4 tagDict _ rfl]
        rw [hsort,
          if_neg (show ¬(tagDict = tagNone) by decide),
          if_neg (show ¬(tagDict = tagBool) by decide),
          if_neg (show ¬(tagDict = tagInt) by decide),
          if_neg (show ¬(tagDict = tagStr) by decide),
          if_neg (show ¬(tagDict = tagDecm) by decide),
          if_pos True.intro]
        simp only [readN_len 8 l _ hl8, hlval]
        rw [show es.length = (sortByKey Prod.fst (keyedEntries es)).length from hlen2.symm]
        simp only [deserEntries_bodies (sortByKey Prod.fst (keyedEntries es)) f rest
          hmeml hpt hcost2, dictFromPairs_nodup _ hnd]
        rw [show canon (PyVal.pydict es) = PyVal.pydict ((sortByKey Prod.fst
          (canonEntries es)).map (fun p => (PyVal.str p.1, p.2))) from rfl,
          canonEntries_eq, sortByKey_map (fun _ a => canon a) (keyedEntries es)]
      · exact Option.noConfusion h
  | .pylist items, bs, h, hwf, hdf, fuel, hf, rest => by
      simp only [serValue] at h
      split at h
      · rename_i l body hl hbody
        cases h
        simp only [wfKeys] at hwf
        simp only [domainFree] at hdf
        obtain ⟨hbody_eq, hmem⟩ := serItems_eq items body hbody
        obtain ⟨hl8, hlval⟩ := toBytesU_spec hl
        obtain ⟨f, rfl⟩ : ∃ f, fuel = f + 1 := ⟨fuel - 1, by
          have : serCost (PyVal.pylist items) = 1 + itemsCost items := rfl
          omega⟩
        have hpt : ∀ v ∈ items, ∀ bs2, serValue v = some bs2 → ∀ f2,
            serCost v ≤ f2 → ∀ r, deserValue f2 (bs2 ++ r) = some (canon v, r) :=
          fun v hv bs2 hbs2 f2 hf2 r => rtItems items v hv bs2 hbs2
            (wfItems_mem items hwf v hv) (dfItems_mem items hdf v hv) f2 hf2 r
        have hcost2 : itemsCostL items ≤ f := by
          rw [← itemsCost_eq]
          have : serCost (PyVal.pylist items) = 1 + itemsCost items := rfl
          omega
        rw [List.append_assoc, List.append_assoc, hbody_eq]
        simp only [deserValue, readN_len 4 tagList _ rfl]
        simp +decide [readN_len 8 l _ hl8, hlval,
          deserItems_bodies items f rest hmem hpt hcost2,
          show canon (PyVal.pylist items) = PyVal.pylist (canonItems items) from rfl,
          canonItems_eq]
      · exact Option.noConfusion h
  | .tuple items, bs, h, hwf, hdf, fuel, hf, rest => by
      simp only [serValue] at h
      split at h
      · rename_i l body hl hbody
        cases h
        simp only [wfKeys] at hwf
        simp only [domainFree] at hdf
        obtain ⟨hbody_eq, hmem⟩ := serItems_eq items body hbody
        obtain ⟨hl8, hlval⟩ := toBytesU_spec hl
        obtain ⟨f, rfl⟩ : ∃ f, fuel = f + 1 := ⟨fuel - 1, by
          have : serCost (PyVal.tuple items) = 1 + itemsCost items := rfl
          omega⟩
        have hpt : ∀ v ∈ items, ∀ bs2, serValue v = some bs2 → ∀ f2,
            serCost v ≤ f2 → ∀ r, deserValue f2 (bs2 ++ r) = some (canon v, r) :=
          fun v hv bs2 hbs2 f2 hf2 r => rtItems items v hv bs2 hbs2
            (wfItems_mem items hwf v hv) (dfItems_mem items hdf v hv) f2 hf2 r
        have hcost2 : itemsCostL items ≤ f := by
          rw [← itemsCost_eq]
          have : serCost (PyVal.tuple items) = 1 + itemsCost items := rfl
          omega
        rw [List.append_assoc, List.append_assoc, hbody_eq]
        simp only [deserValue, readN_len 4 tagTupl _ rfl]
        simp +decide [readN_len 8 l _ hl8, hlval,
          deserItems_bodies items f rest hmem hpt hcost2,
          show canon (PyVal.tuple items) = PyVal.tuple (canonItems items) from rfl,
          canonItems_eq]
      · exact Option.noConfusion h
  | .domain d, bs, h, _, hdf, fuel, hf, rest => by
      simp [domainFree] at hdf
  | .pyfloat, bs, h, _, _, _, _, _ => Option.noConfusion h
  | .pybytes _, bs, h, _, _, _, _, _ => Option.noConfusion h
  | .other, bs, h, _, _, _, _, _ => Option.noConfusion h
termination_by v _ _ _ _ _ _ _ => sizeOf v
decreasing_by
  all_goals simp_wf <;> omega

theorem rtEntries : ∀ (es : List (PyVal × PyVal)) (k v : PyVal), (k, v) ∈ es →
    ∀ bs, serValue v = some bs → wfKeys v = true → domainFree v = true →
    ∀ fuel, serCost v ≤ fuel → ∀ rest, deserValue fuel (bs ++ rest) = some (canon v, rest)
  | [], _, _, he, _, _, _, _, _, _, _ => absurd he (by simp)
  | e0 :: rest0, k, v, he, bs, hbs, hwf, hdf, fuel, hf, r => by
      rcases List.mem_cons.mp he with heq | he2
      · have hsz : sizeOf v < 1 + sizeOf e0 + sizeOf rest0 := by
          cases heq
          have hpair : sizeOf (k, v) = 1 + sizeOf k + sizeOf v := rfl
          omega
        exact rtValue v bs hbs hwf hdf fuel hf r
      · exact rtEntries rest0 k v he2 bs hbs hwf hdf fuel hf r
termination_by es _ _ _ _ _ _ _ _ _ _ => sizeOf es
decreasing_by
  all_goals simp_wf <;> omega

theorem rtItems : ∀ (l : List PyVal) (v : PyVal), v ∈ l →
    ∀ bs, serValue v = some bs → wfKeys v = true → domainFree v = true →
    ∀ fuel, serCost v ≤ fuel → ∀ rest, deserValue fuel (bs ++ rest) = some (canon v, rest)
  | [], v, hv, _, _, _, _, _, _, _ => absurd hv (by simp)
  | v0 :: rest0, v, hv, bs, hbs, hwf, hdf, fuel, hf, r => by
      rcases List.mem_cons.mp hv with heq | hv2
      · have hsz : sizeOf v < 1 + sizeOf v0 + sizeOf rest0 := by
          cases heq
          omega
        exact rtValue v bs hbs hwf hdf fuel hf r
      · exact rtItems rest0 v hv2 bs hbs hwf hdf fuel hf r
termination_by l _ _ _ _ _ _ _ _ _ => sizeOf l
decreasing_by
  all_goals simp_wf <;> omega

end

/-- `canon` never changes a value's constructor: in particular the
list/tuple distinction survives the round trip. -/
theorem canon_kindTag (v : PyVal) : PyVal.kindTag (canon v) = PyVal.kindTag v := by
  cases v <;> rfl

/-- Inserting below a key that is already a lower bound is a cons. -/
theorem insertByKey_le {l : List (PyStr × PyVal)} {x : PyStr × PyVal}
    (h : ∀ y ∈ l, bytesLe x.1 y.1 = true) : insertByKey Prod.fst x l = x :: l := by
  cases l with
  | nil => rfl
  | cons y ys => rw [insertByKey, if_pos (h y (by simp))]

/-- Lexicographic byte order is transitive. -/
theorem bytesLe_trans : ∀ {a b c : List Nat}, bytesLe a b = true → bytesLe b c = true →
    bytesLe a c = true
  | [], _, _, _, _ => rfl
  | _ :: _, [], _, h1, _ => by simp [bytesLe] at h1
  | _ :: _, _ :: _, [], _, h2 => by simp [bytesLe] at h2
  | a :: as, b :: bs, c :: cs, h1, h2 => by
      simp only [bytesLe] at h1 h2 ⊢
      by_cases hab : a < b
      · by_cases hbc : b < c
        · rw [if_pos (by omega)]
        · simp only [if_neg hbc] at h2
          by_cases hcb : c < b
          · rw [if_pos hcb] at h2
            exact absurd h2 (by simp)
          · rw [if_pos (by omega)]
      · simp only [if_neg hab] at h1
        by_cases hba : b < a
        · rw [if_pos hba] at h1
          exact absurd h1 (by simp)
        · rw [if_neg hba] at h1
          have hab2 : a = b := by omega
          subst hab2
          by_cases hac : a < c
          · rw [if_pos hac]
          · rw [if_neg hac]
            simp only [if_neg hac] at h2
            by_cases hca : c < a
            · rw [if_pos hca] at h2
              exact absurd h2 (by simp)
            · rw [if_neg hca] at h2 ⊢
              exact bytesLe_trans h1 h2

/-- `sortedKeys` gives a lower bound of the head over the tail. -/
theorem sortedKeys_head {k : PyStr} {ks : List PyStr} (h : sortedKeys (k :: ks) = true) :
    ∀ k2 ∈ ks, bytesLe k k2 = true := by
  induction ks generalizing k with
  | nil => intro k2 hk2; exact absurd hk2 (by simp)
  | cons k1 ks ih =>
      simp only [sortedKeys, Bool.and_eq_true] at h
      intro k2 hk2
      rcases List.mem_cons.mp hk2 with rfl | hk2
      · exact h.1
      · have hle := ih h.2 k2 hk2
        exact bytesLe_trans h.1 hle

/-- Sorting a list whose keys are already in order is the identity. -/
theorem sortByKey_sorted {l : List (PyStr × PyVal)}
    (h : sortedKeys (l.map Prod.fst) = true) : sortByKey Prod.fst l = l := by
  induction l with
  | nil => rfl
  | cons x xs ih =>
      have htail : sortedKeys (xs.map Prod.fst) = true := by
        cases xs with
        | nil => rfl
        | cons y ys =>
            simp only [List.map_cons, sortedKeys, Bool.and_eq_true] at h ⊢
            exact h.2
      rw [sortByKey, ih htail]
      apply insertByKey_le
      intro y hy
      exact sortedKeys_head (by simpa using h) y.1 (List.mem_map_of_mem Prod.fst hy)

/-- Re-tagging the keyed entries with `str` keys restores the original
entry list when all keys are strings. -/
theorem keyed_map_str : ∀ es : List (PyVal × PyVal), keysAllStr es = true →
    (keyedEntries es).map (fun p => (PyVal.str p.1, p.2)) = es
  | [], _ => rfl
  | (k, v) :: rest, h => by
      simp only [keysAllStr, List.all_cons, Bool.and_eq_true] at h
      have hk : ∃ s, k = PyVal.str s := by
        cases k <;> simp_all [PyVal.isStr]
      obtain ⟨s, rfl⟩ := hk
      show (PyVal.str (entryKeyBytes (PyVal.str s, v)), v)
          :: (keyedEntries rest).map (fun p => (PyVal.str p.1, p.2))
          = (PyVal.str s, v) :: rest
      rw [keyed_map_str rest (by simpa [keysAllStr] using h.2)]
      rfl

mutual

/-- On values whose dicts are already sorted, `canon` is the identity. -/
theorem canon_id : ∀ v : PyVal, is_cacheable v = true → canonicalB v = true → canon v = v
  | .none, _, _ => rfl
  | .pybool _, _, _ => rfl
  | .int _, _, _ => rfl
  | .str _, _, _ => rfl
  | .dec _, _, _ => rfl
  | .pyfloat, _, _ => rfl
  | .pybytes _, _, _ => rfl
  | .domain _, _, _ => rfl
  | .other, _, _ => rfl
  | .pydict es, hc, hcan => by
      simp only [is_cacheable, Bool.and_eq_true] at hc
      simp only [canonicalB, Bool.and_eq_true] at hcan
      have hce := canonEntries_id es hc.2 hcan.2
      rw [show canon (PyVal.pydict es) = PyVal.pydict ((sortByKey Prod.fst
        (canonEntries es)).map (fun p => (PyVal.str p.1, p.2))) from rfl, hce]
      have hkeys : (keyedEntries es).map Prod.fst = es.map entryKeyBytes := by
        simp [keyedEntries, List.map_map, Function.comp]
      rw [sortByKey_sorted (by rw [hkeys]; exact hcan.1), keyed_map_str es hc.1]
  | .pylist items, hc, hcan => by
      simp only [is_cacheable] at hc
      simp only [canonicalB] at hcan
      rw [show canon (PyVal.pylist items) = PyVal.pylist (canonItems items) from rfl,
        canonItems_id items hc hcan]
  | .tuple items, hc, hcan => by
      simp only [is_cacheable] at hc
      simp only [canonicalB] at hcan
      rw [show canon (PyVal.tuple items) = PyVal.tuple (canonItems items) from rfl,
        canonItems_id items hc hcan]

theorem canonEntries_id : ∀ es : List (PyVal × PyVal), entriesCacheable es = true →
    canonicalEntries es = true → canonEntries es = keyedEntries es
  | [], _, _ => rfl
  | (k, v) :: rest, hc, hcan => by
      simp only [entriesCacheable, Bool.and_eq_true] at hc
      simp only [canonicalEntries, Bool.and_eq_true] at hcan
      show (entryKeyBytes (k, v), canon v) :: canonEntries rest
          = (entryKeyBytes (k, v), v) :: keyedEntries rest
      rw [canon_id v hc.1 hcan.1, canonEntries_id rest hc.2 hcan.2]

theorem canonItems_id : ∀ l : List PyVal, listCacheable l = true →
    canonicalItems l = true → canonItems l = l
  | [], _, _ => rfl
  | v :: rest, hc, hcan => by
      simp only [listCacheable, Bool.and_eq_true] at hc
      simp only [canonicalItems, Bool.and_eq_true] at hcan
      simp only [canonItems]
      rw [canon_id v hc.1 hcan.1, canonItems_id rest hc.2 hcan.2]

end

/-- **C4** (amended): restricted to integers in the signed 64-bit range
(the codec has no arbitrary-precision fallback — see the counterexample),
serialization succeeds on every native cacheable value and
`deserialize (serialize v)` returns `canon v`: the value with each dict
rewritten in sorted key order, equal to `v` as a Python value (Python dict
equality ignores entry order) and literally equal to `v` when the dicts
are already sorted; the value's kind — in particular the list/tuple
distinction — is preserved.  Domain (`ICacheable`) payloads are excluded:
their hydration runs external user code. -/
theorem codec_roundtrip (v : PyVal) (hc : is_cacheable v = true)
    (hok : serOkB v = true) (hwf : wfKeys v = true) (hdf : domainFree v = true) :
    ∃ bs, serialize v = some bs ∧ deserialize bs = some (canon v)
      ∧ PyVal.kindTag (canon v) = PyVal.kindTag v
      ∧ (canonicalB v = true → canon v = v) := by
  obtain ⟨bs, hbs⟩ := serValue_total v hc hok
  refine ⟨bs, by simp [serialize, hc, hbs], ?_, canon_kindTag v,
    fun hcan => canon_id v hc hcan⟩
  have hrt := rtValue v bs hbs hwf hdf (bs.length + 1)
    (by have := serCost_le v bs hbs; omega) []
  rw [List.append_nil] at hrt
  simp [deserialize, hrt]

/-- **C4** (counterexample): `2 ^ 63` is cacheable, yet `serialize`
raises `OverflowError` on it — there is no length-prefixed decimal
fallback for integers outside the signed 64-bit range. -/
theorem serialize_bigint_overflow :
    is_cacheable (PyVal.int (2 ^ 63)) = true
      ∧ serialize (PyVal.int (2 ^ 63)) = Option.none :=
  ⟨rfl, rfl⟩

/-- Witness for C4 at the dict `{"key": (1, "hello", Decimal("3.14"))}`. -/
theorem codec_roundtrip_witness :
    (is_cacheable (PyVal.pydict [(.str (pstr "key"),
        .tuple [.int 1, .str (pstr "hello"), .dec (pstr "3.14")])]) = true)
    ∧ ∃ bs, serialize (PyVal.pydict [(.str (pstr "key"),
        .tuple [.int 1, .str (pstr "hello"), .dec (pstr "3.14")])]) = some bs
      ∧ deserialize bs = some (canon (PyVal.pydict [(.str (pstr "key"),
          .tuple [.int 1, .str (pstr "hello"), .dec (pstr "3.14")])]))
      ∧ PyVal.kindTag (canon (PyVal.pydict [(.str (pstr "key"),
          .tuple [.int 1, .str (pstr "hello"), .dec (pstr "3.14")])]))
        = PyVal.kindTag (PyVal.pydict [(.str (pstr "key"),
          .tuple [.int 1, .str (pstr "hello"), .dec (pstr "3.14")])])
      ∧ (canonicalB (PyVal.pydict [(.str (pstr "key"),
          .tuple [.int 1, .str (pstr "hello"), .dec (pstr "3.14")])]) = true →
        canon (PyVal.pydict [(.str (pstr "key"),
          .tuple [.int 1, .str (pstr "hello"), .dec (pstr "3.14")])])
          = PyVal.pydict [(.str (pstr "key"),
            .tuple [.int 1, .str (pstr "hello"), .dec (pstr "3.14")])]) :=
  ⟨by decide, codec_roundtrip _ (by decide) (by decide) (by decide) (by decide)⟩

/-! ### Topological sort groundwork (C8) -/

theorem alookup_isSome {α : Type} :
    ∀ (l : List (PyStr × α)) (k : PyStr), (alookup k l).isSome = true ↔ k ∈ l.map Prod.fst
  | [], k => by simp [alookup]
  | (k0, v0) :: rest, k => by
      by_cases hk : k = k0
      · subst hk
        simp [alookup]
      · simp only [alookup, if_neg hk, List.map_cons, List.mem_cons]
        rw [alookup_isSome rest k]
        simp [hk]

theorem alookup_map_graph {β : Type} (F : Vertex → β) :
    ∀ (g : Graph) (x : PyStr),
      alookup x (g.map (fun p => (p.1, F p.2))) = (alookup x g).map F
  | [], x => rfl
  | (k0, v0) :: rest, x => by
      by_cases hk : x = k0
      · subst hk
        simp [alookup]
      · simp only [List.map_cons, alookup, if_neg hk]
        exact alookup_map_graph F rest x

theorem mem_ids_iff (g : Graph) (x : PyStr) :
    x ∈ idsOf g ↔ (alookup x g).isSome = true :=
  (alookup_isSome g x).symm

theorem inGraphDeps_eq (g : Graph) (x : PyStr) (v : Vertex) (hx : alookup x g = some v) :
    inGraphDeps g x = v.vdeps.filter (fun d => (alookup d g).isSome) := by
  simp [inGraphDeps, hx]

theorem inGraphDeps_sub_ids (g : Graph) (x : PyStr) :
    ∀ d ∈ inGraphDeps g x, d ∈ idsOf g := by
  intro d hd
  rw [inGraphDeps] at hd
  split at hd
  · rw [List.mem_filter] at hd
    exact (mem_ids_iff g d).mpr hd.2
  · exact absurd hd (by simp)

theorem degOf_inDegInit (g : Graph) (x : PyStr) (v : Vertex) (hx : alookup x g = some v) :
    degOf (inDegInit g) x = ((v.vdeps.filter (fun d => (alookup d g).isSome)).length : Int) := by
  rw [degOf, show inDegInit g = g.map (fun p =>
    (p.1, ((p.2.vdeps.filter (fun d => (alookup d g).isSome)).length : Int))) from rfl,
    alookup_map_graph (fun w => ((w.vdeps.filter (fun d => (alookup d g).isSome)).length : Int))
      g x, hx]
  rfl

theorem inDegInit_keys (g : Graph) : (inDegInit g).map Prod.fst = idsOf g := by
  simp [inDegInit, idsOf, List.map_map, Function.comp]

theorem decDeg_keys (w : PyStr) :
    ∀ m : List (PyStr × Int), (decDeg w m).map Prod.fst = m.map Prod.fst
  | [] => rfl
  | (k, v) :: rest => by
      by_cases hw : w = k
      · subst hw
        simp [decDeg]
      · simp only [decDeg, if_neg hw, List.map_cons]
        rw [decDeg_keys w rest]

theorem degOf_decDeg (w : PyStr) :
    ∀ (m : List (PyStr × Int)) (x : PyStr), w ∈ m.map Prod.fst →
      degOf (decDeg w m) x = if x = w then degOf m x - 1 else degOf m x
  | [], x, hw => by simp at hw
  | (k, v) :: rest, x, hw => by
      by_cases hwk : w = k
      · subst hwk
        by_cases hxw : x = w
        · subst hxw
          simp [decDeg, degOf, alookup]
        · simp [decDeg, degOf, alookup, hxw]
      · have hwrest : w ∈ rest.map Prod.fst := by
          rw [List.map_cons] at hw
          rcases List.mem_cons.mp hw with h | h
          · exact absurd h hwk
          · exact h
        by_cases hxk : x = k
        · subst hxk
          have hxw : ¬ x = w := fun hc => hwk hc.symm
          simp [decDeg, if_neg hwk, degOf, alookup, hxw]
        · simp only [decDeg, if_neg hwk, degOf, alookup, if_neg hxk]
          exact degOf_decDeg w rest x hwrest

theorem appendAt_keys (k x : PyStr) :
    ∀ m : List (PyStr × List PyStr), (appendAt k x m).map Prod.fst = m.map Prod.fst
  | [] => rfl
  | (k0, xs) :: rest => by
      by_cases hk : k = k0
      · subst hk
        simp [appendAt]
      · simp only [appendAt, if_neg hk, List.map_cons]
        rw [appendAt_keys k x rest]

theorem alookup_appendAt_same (k x : PyStr) :
    ∀ m : List (PyStr × List PyStr),
      alookup k (appendAt k x m) = (alookup k m).map (fun xs => xs ++ [x])
  | [] => rfl
  | (k0, xs) :: rest => by
      by_cases hk : k = k0
      · subst hk
        simp [appendAt, alookup]
      · simp only [appendAt, if_neg hk, alookup]
        exact alookup_appendAt_same k x rest

theorem alookup_appendAt_other (k x k2 : PyStr) (hne : k2 ≠ k) :
    ∀ m : List (PyStr × List PyStr), alookup k2 (appendAt k x m) = alookup k2 m
  | [] => rfl
  | (k0, xs) :: rest => by
      by_cases hk : k = k0
      · subst hk
        simp [appendAt, alookup, if_neg hne]
      · simp only [appendAt, if_neg hk, alookup]
        by_cases hk2 : k2 = k0
        · simp [hk2]
        · rw [if_neg hk2, if_neg hk2]
          exact alookup_appendAt_other k x k2 hne rest

theorem foldl_appendAt_keys :
    ∀ (ds : List PyStr) (m : List (PyStr × List PyStr)) (nid : PyStr),
      (ds.foldl (fun m2 q => appendAt q nid m2) m).map Prod.fst = m.map Prod.fst
  | [], m, nid => rfl
  | q :: ds, m, nid => by
      rw [List.foldl_cons, foldl_appendAt_keys ds (appendAt q nid m) nid, appendAt_keys]

theorem foldl_appendAt_count :
    ∀ (ds : List PyStr) (m : List (PyStr × List PyStr)) (nid : PyStr),
      (∀ q ∈ ds, q ∈ m.map Prod.fst) →
      ∀ d x, ((alookup d (ds.foldl (fun m2 q => appendAt q nid m2) m)).getD []).count x
        = ((alookup d m).getD []).count x + if x = nid then ds.count d else 0
  | [], m, nid, _, d, x => by simp
  | q :: ds, m, nid, hds, d, x => by
      have hq : q ∈ m.map Prod.fst := hds q (by simp)
      have hds2 : ∀ r ∈ ds, r ∈ (appendAt q nid m).map Prod.fst := by
        intro r hr
        rw [appendAt_keys]
        exact hds r (by simp [hr])
      rw [List.foldl_cons, foldl_appendAt_count ds (appendAt q nid m) nid hds2 d x]
      by_cases hdq : d = q
      · subst hdq
        rw [alookup_appendAt_same]
        obtain ⟨xs, hxs⟩ := Option.isSome_iff_exists.mp ((alookup_isSome m d).mpr hq)
        rw [hxs]
        rw [show (Option.map (fun ys => ys ++ [nid]) (some xs)).getD [] = xs ++ [nid] from rfl,
          show (some xs).getD ([] : List PyStr) = xs from rfl, List.count_append]
        by_cases hxn : x = nid
        · subst hxn
          simp [List.count_cons, List.count_nil] <;> omega
        · have hcx : List.count x [nid] = 0 := by
            simp [List.count_cons, show ¬ (nid = x) from fun hc => hxn hc.symm]
          simp only [if_neg hxn]
          omega
      · rw [alookup_appendAt_other q nid d hdq]
        by_cases hxn : x = nid
        · subst hxn
          have : (q :: ds).count d = ds.count d := by
            simp [List.count_cons, show ¬ (q = d) from fun hc => hdq hc.symm]
          rw [this]
        · simp only [if_neg hxn]

theorem filter_key_nil (x : PyStr) :
    ∀ g2 : Graph, x ∉ g2.map Prod.fst → g2.filter (fun p => decide (p.1 = x)) = []
  | [], _ => rfl
  | (k, v) :: rest, h => by
      have hk : ¬ (k = x) := fun hc => h (by simp [hc])
      have hrest : x ∉ rest.map Prod.fst := fun hc => h (by simp [hc])
      simp only [List.filter_cons, decide_eq_true_eq]
      rw [if_neg (by simpa using hk), filter_key_nil x rest hrest]

theorem filter_key_unique (x : PyStr) :
    ∀ g2 : Graph, (g2.map Prod.fst).Nodup →
      g2.filter (fun p => decide (p.1 = x))
        = (match alookup x g2 with
           | some v => [(x, v)]
           | Option.none => [])
  | [], _ => rfl
  | (k, v) :: rest, hnd => by
      rw [List.map_cons, List.nodup_cons] at hnd
      by_cases hk : k = x
      · subst hk
        simp only [List.filter_cons, decide_eq_true_eq, if_pos rfl, alookup, if_pos rfl]
        rw [filter_key_nil k rest hnd.1]
        simp
      · simp only [List.filter_cons, decide_eq_true_eq, if_neg hk, alookup,
          if_neg (show ¬ (x = k) from fun hc => hk hc.symm)]
        exact filter_key_unique x rest hnd.2

theorem foldl_dep_count (g : Graph) :
    ∀ (ents : List (PyStr × Vertex)) (m : List (PyStr × List PyStr)),
      m.map Prod.fst = idsOf g →
      ∀ d x, ((alookup d (ents.foldl (fun mm p =>
          (p.2.vdeps.filter (fun q => (alookup q g).isSome)).foldl
            (fun m2 q => appendAt q p.1 m2) mm) m)).getD []).count x
        = ((alookup d m).getD []).count x
          + ((ents.filter (fun p => decide (p.1 = x))).map
              (fun p => (p.2.vdeps.filter (fun q => (alookup q g).isSome)).count d)).sum
  | [], m, _, d, x => by simp
  | p :: ents, m, hkeys, d, x => by
      have hds : ∀ q ∈ p.2.vdeps.filter (fun q => (alookup q g).isSome),
          q ∈ m.map Prod.fst := by
        intro q hq
        rw [hkeys]
        exact (mem_ids_iff g q).mpr (List.mem_filter.mp hq).2
      have hkeys2 : ((p.2.vdeps.filter (fun q => (alookup q g).isSome)).foldl
          (fun m2 q => appendAt q p.1 m2) m).map Prod.fst = idsOf g := by
        rw [foldl_appendAt_keys]
        exact hkeys
      rw [List.foldl_cons, foldl_dep_count g ents _ hkeys2 d x,
        foldl_appendAt_count _ m p.1 hds d x]
      by_cases hxp : x = p.1
      · subst hxp
        have hfc : List.filter (fun q => decide (q.1 = p.1)) (p :: ents)
            = p :: List.filter (fun q => decide (q.1 = p.1)) ents := by
          simp [List.filter_cons]
        rw [hfc, List.map_cons, List.sum_cons, if_pos rfl]
        omega
      · have hfc : List.filter (fun q => decide (q.1 = x)) (p :: ents)
            = List.filter (fun q => decide (q.1 = x)) ents := by
          simp [List.filter_cons, show ¬ (p.1 = x) from fun hc => hxp hc.symm]
        rw [hfc, if_neg hxp]
        omega

theorem dependentsMap_count (g : Graph) (hids : (idsOf g).Nodup) (d x : PyStr) :
    ((alookup d (dependentsMap g)).getD []).count x = (inGraphDeps g x).count d := by
  rw [show dependentsMap g = g.foldl (fun mm p =>
      (p.2.vdeps.filter (fun q => (alookup q g).isSome)).foldl
        (fun m2 q => appendAt q p.1 m2) mm) (g.map (fun p => (p.1, ([] : List PyStr))))
    from rfl]
  rw [foldl_dep_count g g (g.map (fun p => (p.1, ([] : List PyStr))))
    (by simp [idsOf, List.map_map, Function.comp]) d x]
  have hinit : alookup d (g.map (fun p => (p.1, ([] : List PyStr))))
      = (alookup d g).map (fun _ => ([] : List PyStr)) :=
    alookup_map_graph (fun _ => ([] : List PyStr)) g d
  have hinit0 : ((alookup d (g.map (fun p => (p.1, ([] : List PyStr))))).getD []).count x = 0 := by
    rw [hinit]
    cases alookup d g <;> simp
  rw [hinit0, filter_key_unique x g hids]
  cases hx : alookup x g with
  | none =>
      have : inGraphDeps g x = [] := by simp [inGraphDeps, hx]
      simp [this]
  | some v =>
      rw [inGraphDeps_eq g x v hx]
      simp

theorem dependents_mem_ids (g : Graph) (hids : (idsOf g).Nodup) (d w : PyStr)
    (hw : w ∈ (alookup d (dependentsMap g)).getD []) : w ∈ idsOf g := by
  by_contra hcon
  have hcnt := dependentsMap_count g hids d w
  have hpos : 0 < ((alookup d (dependentsMap g)).getD []).count w :=
    List.count_pos_iff.mpr hw
  rw [hcnt] at hpos
  have : alookup w g = Option.none := by
    cases hwl : alookup w g with
    | none => rfl
    | some v => exact absurd ((mem_ids_iff g w).mpr (by simp [hwl])) hcon
  rw [show inGraphDeps g w = [] by simp [inGraphDeps, this]] at hpos
  simp at hpos

theorem filterNot_length_snoc (v : PyStr) (result : List PyStr) (hv : v ∉ result) :
    ∀ l : List PyStr, (l.filter (fun d => decide (d ∉ result))).length
      = (l.filter (fun d => decide (d ∉ result ++ [v]))).length + l.count v
  | [] => rfl
  | d :: l => by
      have ih := filterNot_length_snoc v result hv l
      simp only [List.filter_cons, List.count_cons, decide_eq_true_eq]
      by_cases hdv : d = v
      · subst hdv
        rw [if_pos (by simpa using hv), if_neg (by simp),
          if_pos (show ((d == d) = true) by simp)]
        simp only [List.length_cons]
        omega
      · rw [if_neg (show ¬ ((d == v) = true) by simp [hdv])]
        by_cases hdr : d ∈ result
        · rw [if_neg (by simpa using hdr), if_neg (by simp [hdr])]
          omega
        · rw [if_pos (by simpa using hdr), if_pos (by simp [hdr, hdv])]
          simp only [List.length_cons]
          omega

theorem remDeg_snoc (g : Graph) (result : List PyStr) (v x : PyStr) (hv : v ∉ result) :
    remDeg g result x = remDeg g (result ++ [v]) x + (inGraphDeps g x).count v := by
  rw [remDeg, remDeg]
  exact filterNot_length_snoc v result hv (inGraphDeps g x)

theorem remDeg_nil (g : Graph) (x : PyStr) : remDeg g [] x = (inGraphDeps g x).length := by
  rw [remDeg]
  simp

theorem remDeg_eq_zero (g : Graph) (result : List PyStr) (x : PyStr) :
    remDeg g result x = 0 ↔ ∀ d ∈ inGraphDeps g x, d ∈ result := by
  rw [remDeg, List.length_eq_zero, List.filter_eq_nil]
  constructor
  · intro h d hd
    have := h d hd
    simp only [decide_eq_true_eq] at this
    exact Decidable.not_not.mp (fun hc => this hc)
  · intro h d hd
    simp only [decide_eq_true_eq]
    exact fun hc => hc (h d hd)

theorem kahn_pop (g : Graph) (hids : (idsOf g).Nodup) (nid : PyStr)
    (queue : List PyStr) (inDeg : List (PyStr × Int)) (result : List PyStr)
    (hK : KInv g (nid :: queue) inDeg result) :
    MidInv g ((alookup nid (dependentsMap g)).getD []) queue inDeg (result ++ [nid]) := by
  obtain ⟨⟨hnd, hmem⟩, hkeys, hdeg, hcond, hord⟩ := hK
  have hnidid : nid ∈ idsOf g := hmem nid (by simp)
  have hnidres : nid ∉ result := by
    intro hc
    have : ¬ (result ++ nid :: queue).Nodup := by
      intro hn
      rcases List.nodup_append.mp hn with ⟨_, _, hdisj⟩
      exact hdisj hc (by simp)
    exact this hnd
  have hnidq : nid ∉ queue := by
    intro hc
    rcases List.nodup_append.mp hnd with ⟨_, hq, _⟩
    rcases List.nodup_cons.mp hq with ⟨hn1, _⟩
    exact hn1 hc
  have hws : ∀ x, ((alookup nid (dependentsMap g)).getD []).count x
      = (inGraphDeps g x).count nid := fun x => dependentsMap_count g hids nid x
  have hsplit : ∀ x, remDeg g result x
      = remDeg g (result ++ [nid]) x + (inGraphDeps g x).count nid :=
    fun x => remDeg_snoc g result nid x hnidres
  refine ⟨⟨?_, ?_⟩, hkeys, ?_, ?_, ?_, ?_⟩
  · rw [List.append_assoc]
    exact hnd
  · intro x hx
    rw [List.append_assoc] at hx
    exact hmem x hx
  · intro x hx
    rw [hdeg x hx, hws x, hsplit x]
    push_cast
    ring
  · intro x hx
    rw [hws x]
    have hc := hcond x hx
    have hs := hsplit x
    constructor
    · intro hor
      have hx0 : remDeg g result x = 0 := by
        apply hc.mp
        rcases hor with hr | hq
        · rcases List.mem_append.mp hr with hr1 | hr2
          · exact Or.inl hr1
          · simp at hr2
            subst hr2
            exact Or.inr (by simp)
        · exact Or.inr (by simp [hq])
      omega
    · intro ⟨h1, h2⟩
      have hx0 : remDeg g result x = 0 := by omega
      rcases hc.mpr hx0 with hr | hq
      · exact Or.inl (by simp [hr])
      · rcases List.mem_cons.mp hq with rfl | hq2
        · exact Or.inl (by simp)
        · exact Or.inr hq2
  · intro i hi d hd
    have hi2 : i < result.length + 1 := by simpa using hi
    by_cases hilt : i < result.length
    · have hget : (result ++ [nid]).get ⟨i, hi⟩ = result.get ⟨i, hilt⟩ :=
        List.get_append i hilt
      rw [hget] at hd
      have hold := hord i hilt d hd
      rw [List.take_append_of_le_length (by omega)]
      exact hold
    · have hieq : i = result.length := by omega
      have hget : (result ++ [nid]).get ⟨i, hi⟩ = nid := by
        subst hieq
        simp [List.get_eq_getElem]
      rw [hget] at hd
      have hz : remDeg g result nid = 0 := (hcond nid hnidid).mp (Or.inr (by simp))
      have hdres : d ∈ result := (remDeg_eq_zero g result nid).mp hz d hd
      subst hieq
      rw [List.take_append_of_le_length (by omega)]
      simpa using hdres
  · intro x hx
    exact dependents_mem_ids g hids nid x hx

theorem stepDependents_inv (g : Graph) :
    ∀ (ws : List PyStr) (inDeg : List (PyStr × Int)) (queue result : List PyStr),
      MidInv g ws queue inDeg result →
      KInv g (stepDependents ws inDeg queue).2 (stepDependents ws inDeg queue).1 result
  | [], inDeg, queue, result, hM => by
      obtain ⟨hnm, hkeys, hdeg, hcond, hord, _⟩ := hM
      refine ⟨hnm, hkeys, ?_, ?_, hord⟩
      · intro x hx
        have := hdeg x hx
        simpa using this
      · intro x hx
        have := hcond x hx
        simpa using this
  | w :: ws, inDeg, queue, result, hM => by
      obtain ⟨⟨hnd, hmem⟩, hkeys, hdeg, hcond, hord, hwids⟩ := hM
      have hwid : w ∈ idsOf g := hwids w (by simp)
      have hwkeys : w ∈ inDeg.map Prod.fst := by rw [hkeys]; exact hwid
      have hdeg2 : ∀ x ∈ idsOf g, degOf (decDeg w inDeg) x
          = (remDeg g result x : Int) + (w :: ws).count x
            - (if x = w then 1 else 0) := by
        intro x hx
        rw [degOf_decDeg w inDeg x hwkeys]
        by_cases hxw : x = w
        · rw [if_pos hxw, if_pos hxw, hdeg x hx]
        · rw [if_neg hxw, if_neg hxw, hdeg x hx]
          ring
      have hcntw : (w :: ws).count w = ws.count w + 1 := by
        simp [List.count_cons]
      have hdegw : degOf (decDeg w inDeg) w = (remDeg g result w : Int) + ws.count w := by
        rw [hdeg2 w hwid, if_pos rfl, hcntw]
        push_cast
        ring
      have hdego : ∀ x ∈ idsOf g, x ≠ w → degOf (decDeg w inDeg) x
          = (remDeg g result x : Int) + (w :: ws).count x := by
        intro x hx hxw
        rw [hdeg2 x hx, if_neg hxw]
        ring
      show KInv g _ _ result
      rw [show stepDependents (w :: ws) inDeg queue
        = stepDependents ws (decDeg w inDeg)
            (if degOf (decDeg w inDeg) w = 0 then queue ++ [w] else queue) from rfl]
      apply stepDependents_inv g ws
      by_cases henq : degOf (decDeg w inDeg) w = 0
      · rw [if_pos henq]
        have hz : remDeg g result w = 0 ∧ ws.count w = 0 := by
          rw [hdegw] at henq
          constructor <;> omega
        have hwnot : w ∉ result ∧ w ∉ queue := by
          by_contra hc
          have hor : w ∈ result ∨ w ∈ queue := by tauto
          have := (hcond w hwid).mp hor
          omega
        refine ⟨⟨?_, ?_⟩, by rw [decDeg_keys]; exact hkeys, ?_, ?_, hord, fun x hx => hwids x (by simp [hx])⟩
        · rw [← List.append_assoc]
          rcases List.nodup_append.mp hnd with ⟨h1, h2, h3⟩
          rw [List.nodup_append]
          refine ⟨hnd, by simp, ?_⟩
          intro a ha
          simp only [List.mem_singleton]
          intro hav
          subst hav
          rcases List.mem_append.mp ha with h | h
          · exact hwnot.1 h
          · exact hwnot.2 h
        · intro x hx
          rcases List.mem_append.mp hx with h | h
          · exact hmem x (List.mem_append.mpr (Or.inl h))
          · rcases List.mem_append.mp h with h2 | h2
            · exact hmem x (List.mem_append.mpr (Or.inr h2))
            · simp at h2
              subst h2
              exact hwid
        · intro x hx
          by_cases hxw : x = w
          · subst hxw
            rw [hdegw]
          · rw [hdego x hx hxw]
            have : (w :: ws).count x = ws.count x := by
              simp [List.count_cons, show ¬ (x = w) from hxw]
            rw [this]
        · intro x hx
          by_cases hxw : x = w
          · subst hxw
            constructor
            · intro _
              exact ⟨hz.1, hz.2⟩
            · intro _
              exact Or.inr (by simp)
          · have hcx : (w :: ws).count x = ws.count x := by
              simp [List.count_cons, show ¬ (x = w) from hxw]
            have hc := hcond x hx
            rw [hcx] at hc
            constructor
            · intro hor
              apply hc.mp
              rcases hor with h | h
              · exact Or.inl h
              · rcases List.mem_append.mp h with h2 | h2
                · exact Or.inr h2
                · simp at h2
                  exact absurd h2 hxw
            · intro hand
              rcases hc.mpr hand with h | h
              · exact Or.inl h
              · exact Or.inr (by simp [h])
      · rw [if_neg henq]
        refine ⟨⟨hnd, hmem⟩, by rw [decDeg_keys]; exact hkeys, ?_, ?_, hord, fun x hx => hwids x (by simp [hx])⟩
        · intro x hx
          by_cases hxw : x = w
          · subst hxw
            rw [hdegw]
          · rw [hdego x hx hxw]
            have : (w :: ws).count x = ws.count x := by
              simp [List.count_cons, show ¬ (x = w) from hxw]
            rw [this]
        · intro x hx
          by_cases hxw : x = w
          · subst hxw
            have hc := hcond x hx
            constructor
            · intro hor
              have hcc := hc.mp hor
              omega
            · intro hand
              exfalso
              apply henq
              rw [hdegw, hand.1, hand.2]
              simp
          · have hcx : (w :: ws).count x = ws.count x := by
              simp [List.count_cons, show ¬ (x = w) from hxw]
            have hc := hcond x hx
            rw [hcx] at hc
            exact hc

theorem length_le_of_nodup_subset (l m : List PyStr) (hnd : l.Nodup)
    (hsub : ∀ x ∈ l, x ∈ m) : l.length ≤ m.length := by
  have h1 : l.toFinset.card = l.length := List.toFinset_card_of_nodup hnd
  have h2 : l.toFinset ⊆ m.toFinset := by
    intro a ha
    rw [List.mem_toFinset] at ha ⊢
    exact hsub a ha
  calc l.length = l.toFinset.card := h1.symm
    _ ≤ m.toFinset.card := Finset.card_le_card h2
    _ ≤ m.length := m.toFinset_card_le

theorem kahnLoop_run (g : Graph) (hids : (idsOf g).Nodup) :
    ∀ (fuel : Nat) (queue : List PyStr) (inDeg : List (PyStr × Int)) (result : List PyStr),
      KInv g queue inDeg result →
      (idsOf g).length + 1 = fuel + result.length →
      ∃ inDeg2, KInv g [] inDeg2 (kahnLoop (dependentsMap g) fuel queue inDeg result)
  | 0, queue, inDeg, result, hK, hfuel => by
      exfalso
      obtain ⟨⟨hnd, hmem⟩, _⟩ := hK
      have hle := length_le_of_nodup_subset (result ++ queue) (idsOf g) hnd hmem
      rw [List.length_append] at hle
      omega
  | fuel + 1, [], inDeg, result, hK, hfuel => ⟨inDeg, hK⟩
  | fuel + 1, nid :: queue, inDeg, result, hK, hfuel => by
      have hM := kahn_pop g hids nid queue inDeg result hK
      have hK2 := stepDependents_inv g _ inDeg queue (result ++ [nid]) hM
      obtain ⟨inDeg2, h2⟩ := kahnLoop_run g hids fuel
        (stepDependents ((alookup nid (dependentsMap g)).getD []) inDeg queue).2
        (stepDependents ((alookup nid (dependentsMap g)).getD []) inDeg queue).1
        (result ++ [nid]) hK2 (by rw [List.length_append]; simp; omega)
      exact ⟨inDeg2, by
        rw [show kahnLoop (dependentsMap g) (fuel + 1) (nid :: queue) inDeg result
          = kahnLoop (dependentsMap g) fuel
              (stepDependents ((alookup nid (dependentsMap g)).getD []) inDeg queue).2
              (stepDependents ((alookup nid (dependentsMap g)).getD []) inDeg queue).1
              (result ++ [nid]) from rfl]
        exact h2⟩

theorem degOf_init_remDeg (g : Graph) (x : PyStr) (hx : x ∈ idsOf g) :
    degOf (inDegInit g) x = (remDeg g [] x : Int) := by
  obtain ⟨v, hv⟩ := Option.isSome_iff_exists.mp ((mem_ids_iff g x).mp hx)
  have h1 : remDeg g [] x = (inGraphDeps g x).length := by
    rw [remDeg]
    simp
  rw [h1, inGraphDeps_eq g x v hv, degOf_inDegInit g x v hv]

theorem kahn_init (g : Graph) (hids : (idsOf g).Nodup) :
    KInv g ((idsOf g).filter (fun nid => degOf (inDegInit g) nid = 0))
      (inDegInit g) [] := by
  refine ⟨⟨?_, ?_⟩, inDegInit_keys g, ?_, ?_, ?_⟩
  · simpa using hids.filter _
  · intro x hx
    simp only [List.nil_append] at hx
    exact (List.mem_filter.mp hx).1
  · intro x hx
    exact degOf_init_remDeg g x hx
  · intro x hx
    have hd := degOf_init_remDeg g x hx
    constructor
    · intro hor
      rcases hor with h | h
      · exact absurd h (List.not_mem_nil x)
      · have h0 := of_decide_eq_true (List.mem_filter.mp h).2
        omega
    · intro h0
      refine Or.inr (List.mem_filter.mpr ⟨hx, decide_eq_true ?_⟩)
      rw [hd, h0]
      simp
  · intro i hi
    exact absurd hi (by simp)

theorem idxOf_lt_length : ∀ (l : List PyStr) (a : PyStr), a ∈ l → idxOf l a < l.length
  | [], a, h => by simp at h
  | x :: l, a, h => by
      by_cases hx : x = a
      · simp [idxOf, hx]
      · rcases List.mem_cons.mp h with h1 | h2
        · exact absurd h1.symm hx
        · simp only [idxOf, if_neg hx, List.length_cons]
          have := idxOf_lt_length l a h2
          omega

theorem get_idxOf : ∀ (l : List PyStr) (a : PyStr), a ∈ l →
    ∀ h : idxOf l a < l.length, l.get ⟨idxOf l a, h⟩ = a
  | [], a, hmem, h => by simp at hmem
  | x :: l, a, hmem, h => by
      by_cases hx : x = a
      · have h0 : idxOf (x :: l) a = 0 := by simp [idxOf, hx]
        simp only [h0]
        exact hx
      · have h0 : idxOf (x :: l) a = idxOf l a + 1 := by simp [idxOf, hx]
        have hmem2 : a ∈ l := by
          rcases List.mem_cons.mp hmem with h1 | h2
          · exact absurd h1.symm hx
          · exact h2
        have hlt : idxOf l a < l.length := idxOf_lt_length l a hmem2
        simp only [h0]
        exact get_idxOf l a hmem2 hlt

theorem idxOf_lt_of_mem_take :
    ∀ (l : List PyStr) (i : Nat) (a : PyStr), a ∈ l.take i → idxOf l a < i
  | [], i, a, h => by simp at h
  | x :: l, 0, a, h => by simp at h
  | x :: l, i + 1, a, h => by
      rw [List.take_succ_cons] at h
      by_cases hx : x = a
      · simp [idxOf, hx]
      · rcases List.mem_cons.mp h with h1 | h2
        · exact absurd h1.symm hx
        · simp only [idxOf, if_neg hx]
          have := idxOf_lt_of_mem_take l i a h2
          omega

theorem ordered_idxOf (g : Graph) (out : List PyStr) (hord : OrderedRes g out)
    (hmem : ∀ x ∈ idsOf g, x ∈ out) :
    ∀ a b, InEdge g a b → idxOf out a < idxOf out b := by
  intro a b hab
  obtain ⟨hb, ha⟩ := hab
  have hbo : b ∈ out := hmem b hb
  have hilt : idxOf out b < out.length := idxOf_lt_length out b hbo
  have hget : out.get ⟨idxOf out b, hilt⟩ = b := get_idxOf out b hbo hilt
  have htk := hord (idxOf out b) hilt a (by rw [hget]; exact ha)
  exact idxOf_lt_of_mem_take out (idxOf out b) a htk

theorem no_cycle_of_ordered (g : Graph) (out : List PyStr)
    (h : ∀ a b, InEdge g a b → idxOf out a < idxOf out b) : ¬ CyclicG g := by
  rintro ⟨v, hv⟩
  have hmono : ∀ a b, Relation.TransGen (InEdge g) a b →
      idxOf out a < idxOf out b := by
    intro a b hab
    induction hab with
    | single he => exact h _ _ he
    | tail _ he ih => exact lt_trans ih (h _ _ he)
  exact lt_irrefl _ (hmono v v hv)

theorem cycle_of_stuck (g : Graph) (out : List PyStr)
    (hcnd : ∀ x ∈ idsOf g, (x ∈ out ↔ remDeg g out x = 0))
    (hx0 : ∃ x, x ∈ idsOf g ∧ x ∉ out) : CyclicG g := by
  classical
  obtain ⟨x0, hx0id, hx0out⟩ := hx0
  have hpred : ∀ y ∈ (idsOf g).filter (fun x => decide (x ∉ out)),
      ∃ d, d ∈ (idsOf g).filter (fun x => decide (x ∉ out)) ∧ InEdge g d y := by
    intro y hy
    have hyid : y ∈ idsOf g := (List.mem_filter.mp hy).1
    have hyout : y ∉ out := by simpa using (List.mem_filter.mp hy).2
    have hrd : remDeg g out y ≠ 0 := fun hc => hyout ((hcnd y hyid).mpr hc)
    have hnall : ¬ ∀ d ∈ inGraphDeps g y, d ∈ out :=
      fun hall => hrd ((remDeg_eq_zero g out y).mpr hall)
    push_neg at hnall
    obtain ⟨d, hd1, hd2⟩ := hnall
    have hdid : d ∈ idsOf g := inGraphDeps_sub_ids g y d hd1
    exact ⟨d, List.mem_filter.mpr ⟨hdid, by simpa using hd2⟩, ⟨hyid, hd1⟩⟩
  have hy0 : x0 ∈ (idsOf g).filter (fun x => decide (x ∉ out)) :=
    List.mem_filter.mpr ⟨hx0id, by simpa using hx0out⟩
  let R := (idsOf g).filter (fun x => decide (x ∉ out))
  let f : {y // y ∈ R} → {y // y ∈ R} :=
    fun y => ⟨(hpred y.1 y.2).choose, (hpred y.1 y.2).choose_spec.1⟩
  have hf : ∀ y : {y // y ∈ R}, InEdge g (f y).1 y.1 :=
    fun y => (hpred y.1 y.2).choose_spec.2
  let c : Nat → {y // y ∈ R} := fun n => f^[n] ⟨x0, hy0⟩
  have hcs : ∀ n, c (n + 1) = f (c n) := by
    intro n
    show f^[n + 1] _ = f (f^[n] _)
    rw [Function.iterate_succ_apply']
  have hedge : ∀ n, InEdge g (c (n + 1)).1 (c n).1 := by
    intro n
    rw [hcs n]
    exact hf (c n)
  have hpath : ∀ i k, Relation.TransGen (InEdge g) (c (i + k + 1)).1 (c i).1 := by
    intro i k
    induction k with
    | zero => exact Relation.TransGen.single (hedge i)
    | succ k ih => exact Relation.TransGen.head (hedge (i + k + 1)) ih
  have hmap : ∀ n ∈ Finset.range (R.length + 1), (c n).1 ∈ R.toFinset := by
    intro n _
    rw [List.mem_toFinset]
    exact (c n).2
  have hcard : R.toFinset.card < (Finset.range (R.length + 1)).card := by
    rw [Finset.card_range]
    exact Nat.lt_succ_of_le R.toFinset_card_le
  obtain ⟨i, hi, j, hj, hij, hceq⟩ :=
    Finset.exists_ne_map_eq_of_card_lt_of_maps_to hcard hmap
  rcases Nat.lt_or_ge i j with hlt | hge
  · have hk : j = i + (j - i - 1) + 1 := by omega
    have hp := hpath i (j - i - 1)
    rw [← hk] at hp
    rw [← hceq] at hp
    exact ⟨(c i).1, hp⟩
  · have hlt2 : j < i := by omega
    have hk : i = j + (i - j - 1) + 1 := by omega
    have hp := hpath j (i - j - 1)
    rw [← hk] at hp
    rw [hceq] at hp
    exact ⟨(c j).1, hp⟩

theorem topologicalSort_correct (g : Graph) (hids : (idsOf g).Nodup) :
    (topologicalSort g = .error Err.cycleDetected ↔ CyclicG g)
    ∧ ∀ l, topologicalSort g = .ok l →
        List.Perm l (idsOf g) ∧ ∀ a b, InEdge g a b → idxOf l a < idxOf l b := by
  have hlen : (idsOf g).length = g.length := by simp [idsOf]
  obtain ⟨inDeg2, hfin⟩ := kahnLoop_run g hids (g.length + 1)
    ((idsOf g).filter (fun nid => degOf (inDegInit g) nid = 0)) (inDegInit g) []
    (kahn_init g hids) (by simp [hlen])
  rw [show topologicalSort g
    = (if (kahnLoop (dependentsMap g) (g.length + 1)
          ((idsOf g).filter (fun nid => degOf (inDegInit g) nid = 0))
          (inDegInit g) []).length = (idsOf g).length
       then Except.ok (kahnLoop (dependentsMap g) (g.length + 1)
          ((idsOf g).filter (fun nid => degOf (inDegInit g) nid = 0))
          (inDegInit g) [])
       else Except.error Err.cycleDetected) from rfl]
  set out := kahnLoop (dependentsMap g) (g.length + 1)
    ((idsOf g).filter (fun nid => degOf (inDegInit g) nid = 0)) (inDegInit g) [] with hout
  obtain ⟨⟨hnd0, hmem0⟩, _, _, hcond, hord⟩ := hfin
  have hnd : out.Nodup := by simpa using hnd0
  have hmem : ∀ x ∈ out, x ∈ idsOf g := by
    intro x hx
    exact hmem0 x (by simpa using hx)
  have hcnd2 : ∀ x ∈ idsOf g, (x ∈ out ↔ remDeg g out x = 0) := by
    intro x hx
    have hc := hcond x hx
    simpa using hc
  by_cases hl : out.length = (idsOf g).length
  · rw [if_pos hl]
    have hsp : out.Subperm (idsOf g) := List.Nodup.subperm hnd hmem
    have hperm : List.Perm out (idsOf g) := hsp.perm_of_length_le (by omega)
    have hmem2 : ∀ x ∈ idsOf g, x ∈ out := fun x hx => hperm.mem_iff.mpr hx
    have hordidx := ordered_idxOf g out hord hmem2
    constructor
    · constructor
      · intro he
        cases he
      · intro hcyc
        exact (no_cycle_of_ordered g out hordidx hcyc).elim
    · intro l hok
      cases hok
      exact ⟨hperm, hordidx⟩
  · rw [if_neg hl]
    have hcyc : CyclicG g := by
      apply cycle_of_stuck g out hcnd2
      by_contra hall
      push_neg at hall
      have hall2 : ∀ x ∈ idsOf g, x ∈ out := fun x hx => hall x hx
      have h1 : (idsOf g).length ≤ out.length :=
        length_le_of_nodup_subset (idsOf g) out hids hall2
      have h2 : out.length ≤ (idsOf g).length :=
        length_le_of_nodup_subset out (idsOf g) hnd hmem
      omega
    constructor
    · exact ⟨fun _ => hcyc, fun _ => rfl⟩
    · intro l hok
      cases hok

theorem alookup_setColor_same (nid : PyStr) (c : Nat) :
    ∀ m : List (PyStr × Nat), alookup nid (setColor nid c m) = some c
  | [] => by simp [setColor, alookup]
  | (k, v) :: rest => by
      by_cases hk : nid = k
      · simp [setColor, if_pos hk, alookup]
      · rw [setColor, if_neg hk, alookup, if_neg hk]
        exact alookup_setColor_same nid c rest

theorem alookup_setColor_other (nid x : PyStr) (c : Nat) (hne : x ≠ nid) :
    ∀ m : List (PyStr × Nat), alookup x (setColor nid c m) = alookup x m
  | [] => by simp [setColor, alookup, if_neg hne]
  | (k, v) :: rest => by
      by_cases hk : nid = k
      · subst hk
        simp [setColor, alookup, if_neg hne]
      · rw [setColor, if_neg hk, alookup, alookup]
        by_cases hxk : x = k
        · rw [if_pos hxk, if_pos hxk]
        · rw [if_neg hxk, if_neg hxk]
          exact alookup_setColor_other nid x c hne rest

theorem colorOf_setColor_same (nid : PyStr) (c : Nat) (m : List (PyStr × Nat)) :
    colorOf (setColor nid c m) nid = c := by
  rw [colorOf, alookup_setColor_same]
  rfl

theorem colorOf_setColor_other (nid x : PyStr) (c : Nat) (hne : x ≠ nid)
    (m : List (PyStr × Nat)) : colorOf (setColor nid c m) x = colorOf m x := by
  rw [colorOf, alookup_setColor_other nid x c hne, colorOf]

theorem setColor_wf (nid : PyStr) (c : Nat) (hc : c ≤ 2) (color : List (PyStr × Nat))
    (hwf : WfColor color) : WfColor (setColor nid c color) := by
  intro x
  by_cases hx : x = nid
  · subst hx
    rw [colorOf_setColor_same]
    exact hc
  · rw [colorOf_setColor_other nid x c hx]
    exact hwf x

theorem alookup_mem {α : Type} : ∀ (l : List (PyStr × α)) (k : PyStr) (v : α),
    alookup k l = some v → (k, v) ∈ l
  | [], k, v, h => by simp [alookup] at h
  | (k0, v0) :: rest, k, v, h => by
      by_cases hk : k = k0
      · rw [alookup, if_pos hk] at h
        cases h
        simp [hk]
      · rw [alookup, if_neg hk] at h
        exact List.mem_cons.mpr (Or.inr (alookup_mem rest k v h))

theorem filter_length_mono (p q : PyStr → Bool) :
    ∀ l : List PyStr, (∀ x ∈ l, p x = true → q x = true) →
      (l.filter p).length ≤ (l.filter q).length
  | [], _ => le_refl _
  | x :: l, h => by
      have ih := filter_length_mono p q l (fun y hy hp => h y (by simp [hy]) hp)
      rw [List.filter_cons, List.filter_cons]
      by_cases hp : p x = true
      · rw [if_pos hp, if_pos (h x (by simp) hp)]
        simpa using ih
      · rw [if_neg hp]
        by_cases hq : q x = true
        · rw [if_pos hq]
          exact le_trans ih (by simp)
        · rw [if_neg hq]
          exact ih

theorem filter_length_strict (p q : PyStr → Bool) :
    ∀ (l : List PyStr) (a : PyStr), a ∈ l → p a = false → q a = true →
      (∀ x ∈ l, p x = true → q x = true) →
      (l.filter p).length < (l.filter q).length
  | [], a, ha, _, _, _ => by simp at ha
  | x :: l, a, ha, hpa, hqa, h => by
      rw [List.filter_cons, List.filter_cons]
      rcases List.mem_cons.mp ha with rfl | ha2
      · rw [if_neg (by simp [hpa]), if_pos hqa]
        have hm := filter_length_mono p q l (fun y hy hp => h y (by simp [hy]) hp)
        simpa using Nat.lt_succ_of_le hm
      · have ih := filter_length_strict p q l a ha2 hpa hqa
          (fun y hy hp => h y (by simp [hy]) hp)
        by_cases hp : p x = true
        · rw [if_pos hp, if_pos (h x (by simp) hp)]
          simpa using ih
        · rw [if_neg hp]
          by_cases hq : q x = true
          · rw [if_pos hq]
            exact lt_of_lt_of_le ih (by simp)
          · rw [if_neg hq]
            exact ih

theorem coloredCount_le (g : Graph) (color : List (PyStr × Nat)) :
    coloredCount g color ≤ (idsOf g).length :=
  List.length_filter_le _ _

theorem coloredCount_mono (g : Graph) (c1 c2 : List (PyStr × Nat))
    (h : ∀ x, colorOf c1 x ≠ 0 → colorOf c2 x ≠ 0) :
    coloredCount g c1 ≤ coloredCount g c2 := by
  apply filter_length_mono
  intro x _ hp
  rw [decide_eq_true_eq] at hp ⊢
  exact h x hp

theorem coloredCount_strict (g : Graph) (color : List (PyStr × Nat)) (nid : PyStr)
    (hnid : nid ∈ idsOf g) (h0 : colorOf color nid = 0) :
    coloredCount g color + 1 ≤ coloredCount g (setColor nid 1 color) := by
  apply Nat.succ_le_of_lt
  apply filter_length_strict _ _ _ nid hnid
  · simp [h0]
  · simp [colorOf_setColor_same]
  · intro x _ hp
    rw [decide_eq_true_eq] at hp ⊢
    by_cases hx : x = nid
    · subst hx
      rw [colorOf_setColor_same]
      simp
    · rw [colorOf_setColor_other nid x 1 hx]
      exact hp

theorem dfs_colors (g : Graph) : ∀ fuel : Nat,
    (∀ nid color,
      (WfColor color → WfColor (dfsNode g fuel nid color).2)
      ∧ (∀ x, colorOf color x ≠ 0 → colorOf (dfsNode g fuel nid color).2 x ≠ 0)
      ∧ ((dfsNode g fuel nid color).1 = false →
          ∀ x, (colorOf (dfsNode g fuel nid color).2 x = 1 ↔ colorOf color x = 1)))
    ∧ (∀ ds color,
      (WfColor color → WfColor (dfsDeps g fuel ds color).2)
      ∧ (∀ x, colorOf color x ≠ 0 → colorOf (dfsDeps g fuel ds color).2 x ≠ 0)
      ∧ ((dfsDeps g fuel ds color).1 = false →
          ∀ x, (colorOf (dfsDeps g fuel ds color).2 x = 1 ↔ colorOf color x = 1))) := by
  intro fuel
  induction fuel with
  | zero =>
      constructor
      · intro nid color
        refine ⟨fun hwf => hwf, fun x hx => hx, fun hfalse => ?_⟩
        simp [dfsNode] at hfalse
      · intro ds color
        cases ds with
        | nil => exact ⟨fun hwf => hwf, fun x hx => hx, fun _ x => Iff.rfl⟩
        | cons d rest =>
            refine ⟨fun hwf => hwf, fun x hx => hx, fun hfalse => ?_⟩
            simp [dfsDeps] at hfalse
  | succ fuel ih =>
      obtain ⟨ihN, ihD⟩ := ih
      constructor
      · intro nid color
        cases hm : alookup nid g with
        | none =>
            refine ⟨fun hwf => by simpa [dfsNode, hm] using hwf,
              fun x hx => by simpa [dfsNode, hm] using hx,
              fun _ x => by simp [dfsNode, hm]⟩
        | some v =>
            by_cases h1 : colorOf color nid = 1
            · refine ⟨fun hwf => by simpa [dfsNode, hm, h1] using hwf,
                fun x hx => by simpa [dfsNode, hm, h1] using hx,
                fun hfalse => ?_⟩
              simp [dfsNode, hm, h1] at hfalse
            · by_cases h2 : colorOf color nid = 2
              · refine ⟨fun hwf => by simpa [dfsNode, hm, h1, h2] using hwf,
                  fun x hx => by simpa [dfsNode, hm, h1, h2] using hx,
                  fun _ x => by simp [dfsNode, hm, h1, h2]⟩
              · obtain ⟨ihDwf, ihDmono, ihDgray⟩ := ihD v.vdeps (setColor nid 1 color)
                by_cases hr : (dfsDeps g fuel v.vdeps (setColor nid 1 color)).1 = true
                · have hres : dfsNode g (fuel + 1) nid color
                      = (true, (dfsDeps g fuel v.vdeps (setColor nid 1 color)).2) := by
                    simp [dfsNode, hm, h1, h2, hr]
                  refine ⟨fun hwf => ?_, fun x hx => ?_, fun hfalse => ?_⟩
                  · rw [hres]
                    exact ihDwf (setColor_wf nid 1 (by omega) color hwf)
                  · rw [hres]
                    apply ihDmono
                    by_cases hxn : x = nid
                    · subst hxn
                      rw [colorOf_setColor_same]
                      omega
                    · rw [colorOf_setColor_other nid x 1 hxn]
                      exact hx
                  · rw [hres] at hfalse
                    simp at hfalse
                · have hrf : (dfsDeps g fuel v.vdeps (setColor nid 1 color)).1 = false :=
                    Bool.not_eq_true _ ▸ (by simpa using hr)
                  have hres : dfsNode g (fuel + 1) nid color
                      = (false, setColor nid 2
                          (dfsDeps g fuel v.vdeps (setColor nid 1 color)).2) := by
                    simp [dfsNode, hm, h1, h2, hrf]
                  refine ⟨fun hwf => ?_, fun x hx => ?_, fun _ x => ?_⟩
                  · rw [hres]
                    exact setColor_wf nid 2 (by omega) _
                      (ihDwf (setColor_wf nid 1 (by omega) color hwf))
                  · rw [hres]
                    by_cases hxn : x = nid
                    · subst hxn
                      rw [colorOf_setColor_same]
                      omega
                    · rw [colorOf_setColor_other nid x 2 hxn]
                      apply ihDmono
                      rw [colorOf_setColor_other nid x 1 hxn]
                      exact hx
                  · rw [hres]
                    by_cases hxn : x = nid
                    · subst hxn
                      rw [colorOf_setColor_same]
                      constructor
                      · intro hc
                        omega
                      · intro hc
                        exact absurd hc h1
                    · rw [colorOf_setColor_other nid x 2 hxn]
                      rw [ihDgray hrf x, colorOf_setColor_other nid x 1 hxn]
      · intro ds color
        cases ds with
        | nil => exact ⟨fun hwf => hwf, fun x hx => hx, fun _ x => Iff.rfl⟩
        | cons d rest =>
            obtain ⟨ihNwf, ihNmono, ihNgray⟩ := ihN d color
            by_cases hsome : (alookup d g).isSome = true
            · by_cases hr : (dfsNode g fuel d color).1 = true
              · have hres : dfsDeps g (fuel + 1) (d :: rest) color
                    = (true, (dfsNode g fuel d color).2) := by
                  simp [dfsDeps, hsome, hr]
                refine ⟨fun hwf => ?_, fun x hx => ?_, fun hfalse => ?_⟩
                · rw [hres]
                  exact ihNwf hwf
                · rw [hres]
                  exact ihNmono x hx
                · rw [hres] at hfalse
                  simp at hfalse
              · have hrf : (dfsNode g fuel d color).1 = false := by simpa using hr
                obtain ⟨ihD2wf, ihD2mono, ihD2gray⟩ := ihD rest (dfsNode g fuel d color).2
                have hres : dfsDeps g (fuel + 1) (d :: rest) color
                    = dfsDeps g fuel rest (dfsNode g fuel d color).2 := by
                  simp [dfsDeps, hsome, hrf]
                refine ⟨fun hwf => ?_, fun x hx => ?_, fun hfalse x => ?_⟩
                · rw [hres]
                  exact ihD2wf (ihNwf hwf)
                · rw [hres]
                  exact ihD2mono x (ihNmono x hx)
                · rw [hres] at hfalse ⊢
                  rw [ihD2gray hfalse x, ihNgray hrf x]
            · have hres : dfsDeps g (fuel + 1) (d :: rest) color
                  = dfsDeps g fuel rest color := by
                simp [dfsDeps, hsome]
              obtain ⟨ihD2wf, ihD2mono, ihD2gray⟩ := ihD rest color
              refine ⟨fun hwf => ?_, fun x hx => ?_, fun hfalse x => ?_⟩
              · rw [hres]
                exact ihD2wf hwf
              · rw [hres]
                exact ihD2mono x hx
              · rw [hres] at hfalse ⊢
                rw [ihD2gray hfalse x]

theorem cyclic_of_chain (g : Graph) (v : PyStr)
    (h : Relation.TransGen (fun u w => InEdge g w u) v v) : CyclicG g :=
  ⟨v, Relation.TransGen.swap h⟩

theorem dfs_sound (g : Graph) (D : Nat) (hD : ∀ p ∈ g, p.2.vdeps.length + 1 ≤ D) :
    ∀ fuel : Nat,
    (∀ nid color, WfColor color →
      (∀ x, colorOf color x = 1 → Relation.TransGen (fun u w => InEdge g w u) x nid) →
      ((idsOf g).length - coloredCount g color) * (D + 1) + 1 ≤ fuel →
      (dfsNode g fuel nid color).1 = true → CyclicG g)
    ∧ (∀ ds u color, WfColor color →
      colorOf color u = 1 → u ∈ idsOf g →
      (∀ d ∈ ds, (alookup d g).isSome = true → d ∈ inGraphDeps g u) →
      (∀ x, colorOf color x = 1 → Relation.ReflTransGen (fun u2 w => InEdge g w u2) x u) →
      ((idsOf g).length - coloredCount g color) * (D + 1) + ds.length + 2 ≤ fuel →
      (dfsDeps g fuel ds color).1 = true → CyclicG g) := by
  intro fuel
  induction fuel with
  | zero =>
      constructor
      · intro nid color _ _ hfa _
        omega
      · intro ds u color _ _ _ _ _ hfa _
        omega
  | succ fuel ih =>
      obtain ⟨ihN, ihD⟩ := ih
      constructor
      · intro nid color hwf hGR hfa htrue
        cases hm : alookup nid g with
        | none => simp [dfsNode, hm] at htrue
        | some v =>
            by_cases h1 : colorOf color nid = 1
            · exact cyclic_of_chain g nid (hGR nid h1)
            · by_cases h2 : colorOf color nid = 2
              · simp [dfsNode, hm, h1, h2] at htrue
              · have h0 : colorOf color nid = 0 := by
                  have := hwf nid
                  omega
                have hnid_ids : nid ∈ idsOf g := (mem_ids_iff g nid).mpr (by simp [hm])
                have hwf1 : WfColor (setColor nid 1 color) :=
                  setColor_wf nid 1 (by omega) color hwf
                have hr : (dfsDeps g fuel v.vdeps (setColor nid 1 color)).1 = true := by
                  by_contra hc
                  have hrf : (dfsDeps g fuel v.vdeps (setColor nid 1 color)).1 = false := by
                    simpa using hc
                  simp [dfsNode, hm, h1, h2, hrf] at htrue
                refine ihD v.vdeps nid (setColor nid 1 color) hwf1
                  (colorOf_setColor_same nid 1 color) hnid_ids ?_ ?_ ?_ hr
                · intro d hd hdin
                  rw [inGraphDeps_eq g nid v hm]
                  exact List.mem_filter.mpr ⟨hd, hdin⟩
                · intro x hx
                  by_cases hxn : x = nid
                  · subst hxn
                    exact Relation.ReflTransGen.refl
                  · rw [colorOf_setColor_other nid x 1 hxn] at hx
                    exact (hGR x hx).to_reflTransGen
                · have hcc1 : coloredCount g color + 1
                      ≤ coloredCount g (setColor nid 1 color) :=
                    coloredCount_strict g color nid hnid_ids h0
                  have hcc2 : coloredCount g (setColor nid 1 color) ≤ (idsOf g).length :=
                    coloredCount_le g _
                  have hdep : v.vdeps.length + 1 ≤ D := hD (nid, v) (alookup_mem g nid v hm)
                  have hA : (idsOf g).length - coloredCount g (setColor nid 1 color) + 1
                      ≤ (idsOf g).length - coloredCount g color := by omega
                  have hmul := Nat.mul_le_mul_right (D + 1) hA
                  have hexp : ((idsOf g).length - coloredCount g (setColor nid 1 color) + 1)
                        * (D + 1)
                      = ((idsOf g).length - coloredCount g (setColor nid 1 color)) * (D + 1)
                        + (D + 1) := by
                    ring
                  omega
      · intro ds u color hwf hu huids hds hGR hfa htrue
        cases ds with
        | nil => simp [dfsDeps] at htrue
        | cons d rest =>
            by_cases hsome : (alookup d g).isSome = true
            · by_cases hr : (dfsNode g fuel d color).1 = true
              · refine ihN d color hwf ?_ ?_ hr
                · intro x hx
                  have hpath := hGR x hx
                  have hedge : InEdge g d u := ⟨huids, hds d (by simp) hsome⟩
                  exact Relation.TransGen.tail' hpath hedge
                · have hlen : (d :: rest).length = rest.length + 1 := rfl
                  omega
              · have hrf : (dfsNode g fuel d color).1 = false := by simpa using hr
                have hres : dfsDeps g (fuel + 1) (d :: rest) color
                    = dfsDeps g fuel rest (dfsNode g fuel d color).2 := by
                  simp [dfsDeps, hsome, hrf]
                rw [hres] at htrue
                obtain ⟨hNwf, hNmono, hNgray⟩ := (dfs_colors g fuel).1 d color
                refine ihD rest u (dfsNode g fuel d color).2 (hNwf hwf)
                  ((hNgray hrf u).mpr hu) huids
                  (fun d2 hd2 => hds d2 (by simp [hd2])) ?_ ?_ htrue
                · intro x hx
                  exact hGR x ((hNgray hrf x).mp hx)
                · have hccm : coloredCount g color
                      ≤ coloredCount g (dfsNode g fuel d color).2 :=
                    coloredCount_mono g _ _ hNmono
                  have hA : (idsOf g).length - coloredCount g (dfsNode g fuel d color).2
                      ≤ (idsOf g).length - coloredCount g color := by omega
                  have hmul := Nat.mul_le_mul_right (D + 1) hA
                  have hlen : (d :: rest).length = rest.length + 1 := rfl
                  omega
            · have hres : dfsDeps g (fuel + 1) (d :: rest) color
                  = dfsDeps g fuel rest color := by
                simp [dfsDeps, hsome]
              rw [hres] at htrue
              refine ihD rest u color hwf hu huids
                (fun d2 hd2 => hds d2 (by simp [hd2])) hGR ?_ htrue
              have hlen : (d :: rest).length = rest.length + 1 := rfl
              omega

theorem foldl_steps_ge :
    ∀ (l : List (PyStr × Vertex)) (a : Nat),
      a + l.length ≤ l.foldl (fun acc p => acc + p.2.vdeps.length + 1) a
  | [], a => by simp
  | p :: l, a => by
      have h := foldl_steps_ge l (a + p.2.vdeps.length + 1)
      simp only [List.foldl_cons, List.length_cons]
      omega

theorem foldl_steps_mem :
    ∀ (l : List (PyStr × Vertex)) (a : Nat) (p : PyStr × Vertex), p ∈ l →
      p.2.vdeps.length + 1 + a ≤ l.foldl (fun acc q => acc + q.2.vdeps.length + 1) a
  | [], a, p, hp => by simp at hp
  | p0 :: l, a, p, hp => by
      simp only [List.foldl_cons]
      rcases List.mem_cons.mp hp with rfl | h2
      · have h := foldl_steps_ge l (a + p.2.vdeps.length + 1)
        omega
      · have h := foldl_steps_mem l (a + p0.2.vdeps.length + 1) p h2
        omega

theorem hasCycleFold_sound (g : Graph) (D : Nat) (hD : ∀ p ∈ g, p.2.vdeps.length + 1 ≤ D)
    (hFuel : (idsOf g).length * (D + 1) + 1 ≤ dfsFuel g) :
    ∀ (l : List PyStr) (color : List (PyStr × Nat)), WfColor color →
      (∀ x, colorOf color x ≠ 1) →
      hasCycleFold g (dfsFuel g) l color = true → CyclicG g
  | [], color, _, _, h => by simp [hasCycleFold] at h
  | nid :: rest, color, hwf, hng, h => by
      by_cases h0 : colorOf color nid = 0
      · by_cases hr : (dfsNode g (dfsFuel g) nid color).1 = true
        · refine (dfs_sound g D hD (dfsFuel g)).1 nid color hwf
            (fun x hx => absurd hx (hng x)) ?_ hr
          have hcc : coloredCount g color ≤ (idsOf g).length := coloredCount_le g color
          have hA : (idsOf g).length - coloredCount g color ≤ (idsOf g).length := by omega
          have hmul := Nat.mul_le_mul_right (D + 1) hA
          omega
        · have hrf : (dfsNode g (dfsFuel g) nid color).1 = false := by simpa using hr
          have hres : hasCycleFold g (dfsFuel g) (nid :: rest) color
              = hasCycleFold g (dfsFuel g) rest (dfsNode g (dfsFuel g) nid color).2 := by
            simp [hasCycleFold, h0, hrf]
          rw [hres] at h
          obtain ⟨hNwf, _, hNgray⟩ := (dfs_colors g (dfsFuel g)).1 nid color
          exact hasCycleFold_sound g D hD hFuel rest _ (hNwf hwf)
            (fun x hx => (hng x) ((hNgray hrf x).mp hx)) h
      · have hres : hasCycleFold g (dfsFuel g) (nid :: rest) color
            = hasCycleFold g (dfsFuel g) rest color := by
          simp [hasCycleFold, h0]
        rw [hres] at h
        exact hasCycleFold_sound g D hD hFuel rest color hwf hng h

theorem hasCycle_sound (g : Graph) : hasCycle g = true → CyclicG g := by
  intro h
  set S := g.foldl (fun acc p => acc + p.2.vdeps.length + 1) 1 with hS
  have hidslen : (idsOf g).length = g.length := by simp [idsOf]
  have hSge : 1 + g.length ≤ S := by
    rw [hS]
    exact foldl_steps_ge g 1
  have hD : ∀ p ∈ g, p.2.vdeps.length + 1 ≤ S + 1 := by
    intro p hp
    have hm := foldl_steps_mem g 1 p hp
    omega
  have hFuel : (idsOf g).length * (S + 1 + 1) + 1 ≤ dfsFuel g := by
    rw [hidslen, show dfsFuel g = (g.length + 1) * (S + 1) from rfl]
    have hexp1 : g.length * (S + 1 + 1) = g.length * S + 2 * g.length := by ring
    have hexp2 : (g.length + 1) * (S + 1) = g.length * S + g.length + S + 1 := by ring
    omega
  exact hasCycleFold_sound g (S + 1) hD hFuel (idsOf g) []
    (fun x => by simp [WfColor, colorOf, alookup]) (fun x => by simp [colorOf, alookup]) h

/-- C8: For every graph whose ids are distinct and which passes the
resolver's non-cycle validation checks (every declared dependency is in the
graph or the context, every vertex is primitive, every op is registered),
`GraphResolver.resolve` raises the cycle error exactly when the in-graph
dependency relation (context keys excluded) has a cycle, and on an acyclic
graph it returns a list holding each vertex id exactly once in which every
in-graph edge `a → b` (`b` depends on `a`) has `index(a) < index(b)`. -/
theorem resolver_cycle_correct (regHas : PyStr → Bool) (g : Graph) (ctxKeys : List PyStr)
    (hids : (idsOf g).Nodup)
    (hdeps : g.find? (fun p => p.2.vdeps.any
      (fun d => ((alookup d g).isNone : Bool) && !(ctxKeys.contains d))) = Option.none)
    (hprims : g.find? (fun p => match p.2 with
      | .prim _ => false | .subgraph _ _ _ _ => true) = Option.none)
    (hops : g.find? (fun p => match p.2 with
      | .prim n => !(regHas n.op_name) | .subgraph _ _ _ _ => false) = Option.none) :
    (resolveGraph regHas g ctxKeys = .error Err.cycleDetected ↔ CyclicG g)
    ∧ ∀ l, resolveGraph regHas g ctxKeys = .ok l →
        List.Perm l (idsOf g) ∧ ∀ a b, InEdge g a b → idxOf l a < idxOf l b := by
  have hval : validate regHas g ctxKeys
      = if hasCycle g then .error .cycleDetected else .ok () := by
    rw [validate, hdeps, hprims, hops]
  obtain ⟨hiff, hok⟩ := topologicalSort_correct g hids
  by_cases hc : hasCycle g = true
  · have hcyc : CyclicG g := hasCycle_sound g hc
    have hres : resolveGraph regHas g ctxKeys = .error Err.cycleDetected := by
      rw [show resolveGraph regHas g ctxKeys = (match validate regHas g ctxKeys with
        | .error e => .error e | .ok _ => topologicalSort g) from rfl, hval, if_pos hc]
    constructor
    · rw [hres]
      exact ⟨fun _ => hcyc, fun _ => rfl⟩
    · intro l hl
      rw [hres] at hl
      cases hl
  · have hcf : ¬ hasCycle g = true := hc
    have hres : resolveGraph regHas g ctxKeys = topologicalSort g := by
      rw [show resolveGraph regHas g ctxKeys = (match validate regHas g ctxKeys with
        | .error e => .error e | .ok _ => topologicalSort g) from rfl, hval, if_neg hcf]
    rw [hres]
    exact ⟨hiff, hok⟩

theorem resolver_cycle_correct_witness :
    (List.Perm [pstr "a", pstr "b"]
        (idsOf [(pstr "a", Vertex.prim ⟨pstr "op", [], [], true⟩),
                (pstr "b", Vertex.prim ⟨pstr "op", [], [pstr "a"], true⟩)])
      ∧ ∀ a b, InEdge [(pstr "a", Vertex.prim ⟨pstr "op", [], [], true⟩),
                (pstr "b", Vertex.prim ⟨pstr "op", [], [pstr "a"], true⟩)] a b →
          idxOf [pstr "a", pstr "b"] a < idxOf [pstr "a", pstr "b"] b)
    ∧ CyclicG [(pstr "a", Vertex.prim ⟨pstr "op", [], [pstr "b"], true⟩),
               (pstr "b", Vertex.prim ⟨pstr "op", [], [pstr "a"], true⟩)] :=
  ⟨(resolver_cycle_correct (fun _ => true)
      [(pstr "a", Vertex.prim ⟨pstr "op", [], [], true⟩),
       (pstr "b", Vertex.prim ⟨pstr "op", [], [pstr "a"], true⟩)] []
      (by decide) rfl rfl rfl).2 [pstr "a", pstr "b"] rfl,
   (resolver_cycle_correct (fun _ => true)
      [(pstr "a", Vertex.prim ⟨pstr "op", [], [pstr "b"], true⟩),
       (pstr "b", Vertex.prim ⟨pstr "op", [], [pstr "a"], true⟩)] []
      (by decide) rfl rfl rfl).1.mp rfl⟩

/-! ### Canonical forms and `hash_value`'s key sorting (C1) -/

theorem bytesLe_total : ∀ a b : List Nat, bytesLe a b = true ∨ bytesLe b a = true
  | [], _ => Or.inl rfl
  | _ :: _, [] => Or.inr rfl
  | a :: as, b :: bs => by
      by_cases hab : a < b
      · exact Or.inl (by simp [bytesLe, hab])
      · by_cases hba : b < a
        · exact Or.inr (by simp [bytesLe, hba])
        · rcases bytesLe_total as bs with h | h
          · exact Or.inl (by simp [bytesLe, hab, hba, h])
          · exact Or.inr (by simp [bytesLe, hba, hab, h])

theorem bytesLe_antisymm : ∀ {a b : List Nat}, bytesLe a b = true → bytesLe b a = true →
    a = b
  | [], [], _, _ => rfl
  | [], _ :: _, _, h2 => by simp [bytesLe] at h2
  | _ :: _, [], h1, _ => by simp [bytesLe] at h1
  | a :: as, b :: bs, h1, h2 => by
      simp only [bytesLe] at h1 h2
      by_cases hab : a < b
      · rw [if_neg (show ¬ b < a by omega), if_pos hab] at h2
        exact absurd h2 (by simp)
      · by_cases hba : b < a
        · rw [if_neg hab, if_pos hba] at h1
          exact absurd h1 (by simp)
        · rw [if_neg hab, if_neg hba] at h1
          rw [if_neg hba, if_neg hab] at h2
          have hex : a = b := by omega
          subst hex
          rw [bytesLe_antisymm h1 h2]

theorem sortedKeys_tail {k : PyStr} {ks : List PyStr} (h : sortedKeys (k :: ks) = true) :
    sortedKeys ks = true := by
  cases ks with
  | nil => rfl
  | cons k2 ks2 =>
      simp only [sortedKeys, Bool.and_eq_true] at h
      exact h.2

theorem insertByKey_le_any {α : Type} (keyOf : α → PyStr) {l : List α} {x : α}
    (h : ∀ y ∈ l, bytesLe (keyOf x) (keyOf y) = true) : insertByKey keyOf x l = x :: l := by
  cases l with
  | nil => rfl
  | cons y ys => rw [insertByKey, if_pos (h y (by simp))]

theorem insertByKey_sorted_any {α : Type} (keyOf : α → PyStr) (e : α) :
    ∀ l : List α, sortedKeys (l.map keyOf) = true →
      sortedKeys ((insertByKey keyOf e l).map keyOf) = true
  | [], _ => rfl
  | x :: xs, hs => by
      rw [insertByKey]
      by_cases hle : bytesLe (keyOf e) (keyOf x) = true
      · rw [if_pos hle]
        simp only [List.map_cons, sortedKeys, Bool.and_eq_true]
        exact ⟨hle, by simpa using hs⟩
      · rw [if_neg hle]
        have hxe : bytesLe (keyOf x) (keyOf e) = true := by
          rcases bytesLe_total (keyOf e) (keyOf x) with h | h
          · exact absurd h hle
          · exact h
        have htail : sortedKeys (xs.map keyOf) = true := by
          rw [List.map_cons] at hs
          exact sortedKeys_tail hs
        have hrec := insertByKey_sorted_any keyOf e xs htail
        cases xs with
        | nil =>
            simp only [insertByKey, List.map_cons, List.map_nil, sortedKeys,
              Bool.and_eq_true]
            exact ⟨hxe, trivial⟩
        | cons y ys =>
            simp only [List.map_cons] at hs
            have hxy : bytesLe (keyOf x) (keyOf y) = true := by
              simp only [sortedKeys, Bool.and_eq_true] at hs
              exact hs.1
            rw [insertByKey]
            by_cases hley : bytesLe (keyOf e) (keyOf y) = true
            · rw [if_pos hley]
              simp only [List.map_cons, sortedKeys, Bool.and_eq_true]
              exact ⟨hxe, hley, sortedKeys_tail hs⟩
            · rw [if_neg hley]
              rw [insertByKey, if_neg hley] at hrec
              simp only [List.map_cons] at hrec
              simp only [List.map_cons, sortedKeys, Bool.and_eq_true]
              exact ⟨hxy, hrec⟩

theorem sortByKey_out_sorted {α : Type} (keyOf : α → PyStr) :
    ∀ l : List α, sortedKeys ((sortByKey keyOf l).map keyOf) = true
  | [] => rfl
  | x :: xs => by
      rw [sortByKey]
      exact insertByKey_sorted_any keyOf x (sortByKey keyOf xs) (sortByKey_out_sorted keyOf xs)

theorem sortByKey_id_sorted_any {α : Type} (keyOf : α → PyStr) :
    ∀ l : List α, sortedKeys (l.map keyOf) = true → sortByKey keyOf l = l
  | [], _ => rfl
  | x :: xs, h => by
      have htail : sortedKeys (xs.map keyOf) = true := by
        rw [List.map_cons] at h
        exact sortedKeys_tail h
      rw [sortByKey, sortByKey_id_sorted_any keyOf xs htail]
      apply insertByKey_le_any keyOf
      intro y hy
      exact sortedKeys_head (by simpa using h) (keyOf y) (List.mem_map_of_mem keyOf hy)

theorem sortByKey_idem_any {α : Type} (keyOf : α → PyStr) (l : List α) :
    sortByKey keyOf (sortByKey keyOf l) = sortByKey keyOf l :=
  sortByKey_id_sorted_any keyOf _ (sortByKey_out_sorted keyOf l)

theorem sorted_perm_eq_any {α : Type} (keyOf : α → PyStr) :
    ∀ (l1 l2 : List α), sortedKeys (l1.map keyOf) = true →
      sortedKeys (l2.map keyOf) = true → (l1.map keyOf).Nodup →
      List.Perm l1 l2 → l1 = l2
  | [], [], _, _, _, _ => rfl
  | [], y :: l2, _, _, _, hp => by simpa using hp.length_eq
  | x :: l1, [], _, _, _, hp => by simpa using hp.length_eq
  | x :: l1, y :: l2, hs1, hs2, hnd, hp => by
      have hxy : x = y := by
        rcases List.mem_cons.mp (hp.mem_iff.mp (List.mem_cons_self x l1)) with h | hx2
        · exact h
        rcases List.mem_cons.mp (hp.mem_iff.mpr (List.mem_cons_self y l2)) with h | hy1
        · exact h.symm
        exfalso
        have h1 : bytesLe (keyOf x) (keyOf y) = true :=
          sortedKeys_head (by simpa using hs1) (keyOf y) (List.mem_map_of_mem keyOf hy1)
        have h2 : bytesLe (keyOf y) (keyOf x) = true :=
          sortedKeys_head (by simpa using hs2) (keyOf x) (List.mem_map_of_mem keyOf hx2)
        have hk : keyOf x = keyOf y := bytesLe_antisymm h1 h2
        rw [List.map_cons] at hnd
        rcases List.nodup_cons.mp hnd with ⟨hxnot, _⟩
        apply hxnot
        rw [hk]
        exact List.mem_map_of_mem keyOf hy1
      subst hxy
      have hp2 : List.Perm l1 l2 := hp.cons_inv
      rw [sorted_perm_eq_any keyOf l1 l2 (sortedKeys_tail (by simpa using hs1))
        (sortedKeys_tail (by simpa using hs2))
        (by rw [List.map_cons] at hnd; exact (List.nodup_cons.mp hnd).2) hp2]

theorem sortByKey_perm_eq_any {α : Type} (keyOf : α → PyStr) (l1 l2 : List α)
    (hperm : List.Perm l1 l2) (hnd : (l1.map keyOf).Nodup) :
    sortByKey keyOf l1 = sortByKey keyOf l2 := by
  apply sorted_perm_eq_any keyOf _ _ (sortByKey_out_sorted keyOf l1)
    (sortByKey_out_sorted keyOf l2)
  · have hp : List.Perm ((sortByKey keyOf l1).map keyOf) (l1.map keyOf) :=
      (sortByKey_perm keyOf l1).map keyOf
    exact hp.nodup_iff.mpr hnd
  · exact (sortByKey_perm keyOf l1).trans (hperm.trans (sortByKey_perm keyOf l2).symm)

theorem insertByKey_map_any {α β : Type} (keyOf1 : α → PyStr) (keyOf2 : β → PyStr)
    (f : α → β) (hf : ∀ a, keyOf2 (f a) = keyOf1 a) (e : α) :
    ∀ l : List α, insertByKey keyOf2 (f e) (l.map f) = (insertByKey keyOf1 e l).map f
  | [] => rfl
  | x :: xs => by
      rw [List.map_cons, insertByKey, insertByKey, hf x, hf e]
      by_cases hle : bytesLe (keyOf1 e) (keyOf1 x) = true
      · rw [if_pos hle, if_pos hle, List.map_cons, List.map_cons]
      · rw [if_neg hle, if_neg hle, List.map_cons,
          insertByKey_map_any keyOf1 keyOf2 f hf e xs]

theorem sortByKey_map_any {α β : Type} (keyOf1 : α → PyStr) (keyOf2 : β → PyStr)
    (f : α → β) (hf : ∀ a, keyOf2 (f a) = keyOf1 a) :
    ∀ l : List α, sortByKey keyOf2 (l.map f) = (sortByKey keyOf1 l).map f
  | [] => rfl
  | x :: xs => by
      rw [List.map_cons, sortByKey, sortByKey, sortByKey_map_any keyOf1 keyOf2 f hf xs,
        insertByKey_map_any keyOf1 keyOf2 f hf x]

theorem entryDigests_map (h : List Nat → PyStr) :
    ∀ l : List (PyVal × PyVal), entryDigests h l
      = l.map (fun e => (entryKeyBytes e, hashValue h e.1 ++ hashValue h e.2))
  | [] => rfl
  | (k, v) :: rest => by
      rw [entryDigests, entryDigests_map h rest]
      rfl

theorem entryKeyBytes_pySort (k w w2 : PyVal) :
    entryKeyBytes (pySort k, w) = entryKeyBytes (k, w2) := by
  cases k <;> rfl

mutual

/-- `hash_value` is blind to dict entry order: the digest of a value equals
the digest of its canonical (recursively key-sorted) form, for every digest
function — the dict branch sorts the per-entry digests by key before
absorbing them. -/
theorem hashValue_pySort (h : List Nat → PyStr) :
    ∀ v : PyVal, hashValue h (pySort v) = hashValue h v
  | .none => rfl
  | .pybool _ => rfl
  | .int _ => rfl
  | .str _ => rfl
  | .dec _ => rfl
  | .pyfloat => rfl
  | .pybytes _ => rfl
  | .domain _ => rfl
  | .other => rfl
  | .pydict es => by
      rw [show pySort (PyVal.pydict es)
          = PyVal.pydict (sortByKey entryKeyBytes (pySortEntries es)) from rfl]
      rw [show hashValue h (PyVal.pydict (sortByKey entryKeyBytes (pySortEntries es)))
          = h (((sortByKey Prod.fst (entryDigests h (sortByKey entryKeyBytes
              (pySortEntries es)))).map Prod.snd).flatten) from rfl]
      rw [show hashValue h (PyVal.pydict es)
          = h (((sortByKey Prod.fst (entryDigests h es)).map Prod.snd).flatten) from rfl]
      have hcomm : entryDigests h (sortByKey entryKeyBytes (pySortEntries es))
          = sortByKey Prod.fst (entryDigests h (pySortEntries es)) := by
        rw [entryDigests_map h, entryDigests_map h]
        exact (sortByKey_map_any entryKeyBytes Prod.fst
          (fun e => (entryKeyBytes e, hashValue h e.1 ++ hashValue h e.2))
          (fun a => rfl) (pySortEntries es)).symm
      rw [hcomm, sortByKey_idem_any, entryDigests_pySort h es]
  | .pylist items => by
      rw [show pySort (PyVal.pylist items) = PyVal.pylist (pySortItems items) from rfl,
        show hashValue h (PyVal.pylist (pySortItems items))
          = h (hashItems h (pySortItems items)) from rfl,
        show hashValue h (PyVal.pylist items) = h (hashItems h items) from rfl,
        hashItems_pySort h items]
  | .tuple items => by
      rw [show pySort (PyVal.tuple items) = PyVal.tuple (pySortItems items) from rfl,
        show hashValue h (PyVal.tuple (pySortItems items))
          = h (hashItems h (pySortItems items)) from rfl,
        show hashValue h (PyVal.tuple items) = h (hashItems h items) from rfl,
        hashItems_pySort h items]

theorem entryDigests_pySort (h : List Nat → PyStr) :
    ∀ es : List (PyVal × PyVal), entryDigests h (pySortEntries es) = entryDigests h es
  | [] => rfl
  | (k, v) :: rest => by
      show (entryKeyBytes (pySort k, pySort v),
            hashValue h (pySort k) ++ hashValue h (pySort v))
          :: entryDigests h (pySortEntries rest)
        = (entryKeyBytes (k, v), hashValue h k ++ hashValue h v) :: entryDigests h rest
      rw [entryKeyBytes_pySort k (pySort v) v, hashValue_pySort h k, hashValue_pySort h v,
        entryDigests_pySort h rest]

theorem hashItems_pySort (h : List Nat → PyStr) :
    ∀ items : List PyVal, hashItems h (pySortItems items) = hashItems h items
  | [] => rfl
  | v :: rest => by
      show hashValue h (pySort v) ++ hashItems h (pySortItems rest)
        = hashValue h v ++ hashItems h rest
      rw [hashValue_pySort h v, hashItems_pySort h rest]

end

theorem hashManifestEntries_pySort (h : List Nat → PyStr) :
    ∀ l : List (PyStr × PyVal),
      hashManifestEntries h (l.map (fun p => (p.1, pySort p.2)))
        = hashManifestEntries h l
  | [] => rfl
  | (k, v) :: rest => by
      show h k ++ hashValue h (pySort v)
          ++ hashManifestEntries h (rest.map (fun p => (p.1, pySort p.2)))
        = h k ++ hashValue h v ++ hashManifestEntries h rest
      rw [hashValue_pySort h v, hashManifestEntries_pySort h rest]

/-- The manifest digest only reads the canonical form: `hash_manifest` of
`m` is `hash_manifest` computed from the key-sorted, recursively
canonicalized entries. -/
theorem hashManifest_canon (h : List Nat → PyStr) (m : List (PyStr × PyVal)) :
    hashManifest h m
      = h (hashManifestEntries h (sortByKey Prod.fst
          (m.map (fun p => (p.1, pySort p.2))))) := by
  rw [hashManifest]
  rw [sortByKey_map_any Prod.fst Prod.fst (fun p => (p.1, pySort p.2)) (fun a => rfl) m]
  rw [hashManifestEntries_pySort h (sortByKey Prod.fst m)]

/-- Python dict equality entails `manifestEq`: two manifests with unique
keys whose entries are a permutation of each other up to canonical value
forms are equal as cacheable values. -/
theorem manifestEq_of_perm (m1 m2 : List (PyStr × PyVal))
    (hperm : List.Perm (m1.map (fun p => (p.1, pySort p.2)))
      (m2.map (fun p => (p.1, pySort p.2))))
    (hnd : (m1.map Prod.fst).Nodup) : manifestEq m1 m2 := by
  apply sortByKey_perm_eq_any Prod.fst _ _ hperm
  have hkeys : (m1.map (fun p => (p.1, pySort p.2))).map Prod.fst = m1.map Prod.fst := by
    simp [List.map_map, Function.comp]
  rw [hkeys]
  exact hnd

/-- **C1**: for a primitive vertex the manifest handed to fingerprinting is
exactly `resolve_params` of the vertex's own params against its declared
dependencies' artifacts — its keys are the parameter names, with no
dependency injected — and any two vertices with the same `op_name` whose
resolved params are equal as cacheable values (the same keys bound to equal
values, entry order irrelevant at the top level and at every nesting
depth) produce equal digests and address the same `(op_name, digest)`
store slot: `hash_manifest` and `hash_value` sort dict entries by key, so
authoring order never separates equal manifests.  Holds for every digest
function `h` and every CEL evaluator. -/
theorem manifest_determinism (celE interpE : CelEval) (h : List Nat → PyStr)
    (n1 n2 : Node) (arts1 arts2 m1 m2 : List (PyStr × PyVal))
    (hop : n1.op_name = n2.op_name)
    (h1 : buildManifest celE interpE n1 arts1 = .ok m1)
    (h2 : buildManifest celE interpE n2 arts2 = .ok m2)
    (heq : manifestEq m1 m2) :
    (∃ deps1, collectDeps n1.deps arts1 = .ok deps1
        ∧ resolveParams celE interpE n1.params deps1 = .ok m1)
    ∧ m1.map Prod.fst = n1.params.map Prod.fst
    ∧ hashManifest h m1 = hashManifest h m2
    ∧ ((n1.op_name, hashManifest h m1) : PyStr × PyStr)
        = (n2.op_name, hashManifest h m2)
    ∧ ∀ store : MStore, mexists store (n1.op_name, hashManifest h m1)
        = mexists store (n2.op_name, hashManifest h m2) := by
  have hdig : hashManifest h m1 = hashManifest h m2 := by
    rw [hashManifest_canon h m1, hashManifest_canon h m2,
      show sortByKey Prod.fst (m1.map (fun p => (p.1, pySort p.2)))
          = sortByKey Prod.fst (m2.map (fun p => (p.1, pySort p.2))) from heq]
  rw [buildManifest] at h1
  split at h1
  · exact absurd h1 (by simp)
  · rename_i deps1 hdeps
    refine ⟨⟨deps1, hdeps, h1⟩, resolveParams_keys celE interpE n1.params deps1 m1 h1,
      hdig, ?_, ?_⟩
    · rw [hdig, hop]
    · intro store
      rw [hdig, hop]

/-- Witness for C1: one vertex reads a value through `ref("x")` and lists
its params as `a` then `b`, with `b`'s nested dict authored `u` before `v`;
the other vertex uses the literal value, lists `b` before `a`, and authors
the nested dict `v` before `u`.  The two resolved manifests are equal as
cacheable values though they agree at no entry position, and they hash to
the same `(op_name, digest)` slot. -/
theorem manifest_determinism_witness :
    buildManifest dummyEval dummyEval
        ⟨pstr "op", [(pstr "a", Param.ref (pstr "x")),
            (pstr "b", Param.lit (PyVal.pydict
              [(PyVal.str (pstr "u"), PyVal.int 1), (PyVal.str (pstr "v"), PyVal.int 2)]))],
          [pstr "x"], true⟩
        [(pstr "x", PyVal.int 3)]
      = .ok [(pstr "a", PyVal.int 3),
          (pstr "b", PyVal.pydict
            [(PyVal.str (pstr "u"), PyVal.int 1), (PyVal.str (pstr "v"), PyVal.int 2)])]
    ∧ buildManifest dummyEval dummyEval
        ⟨pstr "op", [(pstr "b", Param.lit (PyVal.pydict
              [(PyVal.str (pstr "v"), PyVal.int 2), (PyVal.str (pstr "u"), PyVal.int 1)])),
            (pstr "a", Param.lit (PyVal.int 3))],
          [], true⟩ []
      = .ok [(pstr "b", PyVal.pydict
            [(PyVal.str (pstr "v"), PyVal.int 2), (PyVal.str (pstr "u"), PyVal.int 1)]),
          (pstr "a", PyVal.int 3)]
    ∧ ((pstr "op", hashManifest idHash
          [(pstr "a", PyVal.int 3),
           (pstr "b", PyVal.pydict
             [(PyVal.str (pstr "u"), PyVal.int 1), (PyVal.str (pstr "v"), PyVal.int 2)])])
        : PyStr × PyStr)
      = (pstr "op", hashManifest idHash
          [(pstr "b", PyVal.pydict
             [(PyVal.str (pstr "v"), PyVal.int 2), (PyVal.str (pstr "u"), PyVal.int 1)]),
           (pstr "a", PyVal.int 3)]) :=
  ⟨rfl, rfl,
   (manifest_determinism dummyEval dummyEval idHash
      ⟨pstr "op", [(pstr "a", Param.ref (pstr "x")),
          (pstr "b", Param.lit (PyVal.pydict
            [(PyVal.str (pstr "u"), PyVal.int 1), (PyVal.str (pstr "v"), PyVal.int 2)]))],
        [pstr "x"], true⟩
      ⟨pstr "op", [(pstr "b", Param.lit (PyVal.pydict
            [(PyVal.str (pstr "v"), PyVal.int 2), (PyVal.str (pstr "u"), PyVal.int 1)])),
          (pstr "a", Param.lit (PyVal.int 3))],
        [], true⟩
      [(pstr "x", PyVal.int 3)] []
      [(pstr "a", PyVal.int 3),
       (pstr "b", PyVal.pydict
         [(PyVal.str (pstr "u"), PyVal.int 1), (PyVal.str (pstr "v"), PyVal.int 2)])]
      [(pstr "b", PyVal.pydict
         [(PyVal.str (pstr "v"), PyVal.int 2), (PyVal.str (pstr "u"), PyVal.int 1)]),
       (pstr "a", PyVal.int 3)]
      rfl rfl rfl rfl).2.2.2.1⟩

end Invariant
